import Mathlib

/-!
# Piecewise-constant fossilized birth-death range process

A shallow embedding of `PiecewiseConstantFossilizedBirthDeathRangeProcess.cpp`.

Conventions of the embedding.

* `double` values are taken from a linearly ordered type `R` (a linearly ordered field
  where the source does arithmetic); there is no NaN, and the comparisons of the source
  are the comparisons of `R`. The functions `log`, `exp`, `sqrt` and
  `RbMath::isFinite` are the fields of a parameter `FloatOps R`.
* `size_t` values are natural numbers; where the source does arithmetic that
  can wrap (`gamma_i[i] += linki ? 1 : -1`) the result is reduced modulo
  `sizeMod = 2 ^ 64`. `long` values are integers.
* The member vectors whose length is fixed by the constructor (`gamma_i`,
  `gamma_links`, `dirty_gamma`, `times`, `birth`, ...) are total functions on indices
  together with the length (`taxa.size()`, `num_intervals`). Vectors supplied as
  parameters (rate vectors, the timeline, count data) are lists.
* The range matrix `*this->value` is a function `value : Nat → R × R`, where
  `(value i).1` is `(*this->value)[i][0]` (start) and `(value i).2` is
  `(*this->value)[i][1]` (end).
* A function that can `throw` returns `Except String`, the error being the message of
  the `RbException`. An unchecked read past the end of a parameter vector, undefined in
  the source, is reported as an error whose message starts with `undefined:`.
* A `for` loop is a fold over the list of its indices.
-/

namespace FBDRange

/-! ## Overlap cache: `updateGamma` -/

/-- The modulus of `size_t` arithmetic. -/
def sizeMod : Nat := 2 ^ 64

/-- The three members of the overlap cache: `gamma_i`, `gamma_links`, `dirty_gamma`. -/
structure GammaCache where
  gamma_i : Nat → Nat
  gamma_links : Nat → Nat → Bool
  dirty_gamma : Nat → Bool

/-- The assignment `m[a][b] = v` on a matrix of booleans. -/
def setLink (m : Nat → Nat → Bool) (a b : Nat) (v : Bool) : Nat → Nat → Bool :=
  fun x y => if x = a ∧ y = b then v else m x y

/-- The assignment `g[i] = v` on a vector of counts. -/
def setCount (g : Nat → Nat) (i v : Nat) : Nat → Nat :=
  fun x => if x = i then v else g x

section Overlap

variable {R : Type} [LinearOrder R]

/-- The link predicate of the source, `ai < aj && ai > bj`: the start of range `i`
lies strictly between the end and the start of range `j`. -/
def link (value : Nat → R × R) (i j : Nat) : Bool :=
  decide ((value i).1 < (value j).1 ∧ (value i).1 > (value j).2)

/-- The body of the inner loop of `updateGamma` (one `j` for a fixed `i`). -/
def updateGammaPair (value : Nat → R × R) (force : Bool) (i : Nat)
    (c : GammaCache) (j : Nat) : GammaCache :=
  if i = j then c
  else
    let ai := (value i).1
    let bi := (value i).2
    let aj := (value j).1
    let bj := (value j).2
    let linki : Bool := decide (ai < aj ∧ ai > bj)
    let linkj : Bool := decide (aj < ai ∧ aj > bi)
    -- gamma_i[i] += linki ? 1 : -1   (size_t arithmetic)
    let g1 :=
      if (c.gamma_links i j != linki) && (force == false) then
        setCount c.gamma_i i ((c.gamma_i i + (if linki then 1 else sizeMod - 1)) % sizeMod)
      else c.gamma_i
    -- gamma_i[j] += linkj ? 1 : -1
    let g2 :=
      if (c.gamma_links j i != linkj) && (force == false) then
        setCount g1 j ((g1 j + (if linkj then 1 else sizeMod - 1)) % sizeMod)
      else g1
    -- if ( force == true ) gamma_i[i] += linki
    let g3 :=
      if force == true then
        setCount g2 i ((g2 i + (if linki then 1 else 0)) % sizeMod)
      else g2
    let l1 := setLink c.gamma_links i j linki
    let l2 := setLink l1 j i linkj
    { gamma_i := g3, gamma_links := l2, dirty_gamma := c.dirty_gamma }

/-- The body of the outer loop of `updateGamma` (one `i`), `n = taxa.size()`. -/
def updateGammaRow (value : Nat → R × R) (n : Nat) (force : Bool)
    (c : GammaCache) (i : Nat) : GammaCache :=
  if c.dirty_gamma i || force then
    let c1 : GammaCache :=
      if force == true then { c with gamma_i := setCount c.gamma_i i 0 } else c
    (List.range n).foldl (updateGammaPair value force i) c1
  else c

/-- The function `updateGamma(force)` on `n = taxa.size()` ranges. -/
def updateGamma (value : Nat → R × R) (n : Nat) (force : Bool) (c : GammaCache) : GammaCache :=
  (List.range n).foldl (updateGammaRow value n force) c

/-- The cache the constructor allocates: `dirty_gamma` all true, `gamma_i` all zero,
`gamma_links` all false. -/
def coldCache : GammaCache :=
  { gamma_i := fun _ => 0, gamma_links := fun _ _ => false, dirty_gamma := fun _ => true }

/-- Number of indices `j < n`, `j ≠ i`, at which `row` is true. -/
def rowCount (n : Nat) (row : Nat → Bool) (i : Nat) : Nat :=
  (List.range n).countP (fun j => decide (j ≠ i) && row j)

/-- Number of ranges `j ≠ i` with `end(j) < start(i) < start(j)`: the ranges range `i`
links to. -/
def overlapCount (value : Nat → R × R) (n i : Nat) : Nat :=
  (List.range n).countP (fun j => decide (j ≠ i ∧ (value j).2 < (value i).1 ∧ (value i).1 < (value j).1))

/-- Number of ranges `i ≠ j` that link to range `j`, i.e. whose start lies strictly
between the end and the start of range `j`. -/
def linkedByCount (value : Nat → R × R) (n j : Nat) : Nat :=
  (List.range n).countP (fun i => decide (i ≠ j ∧ (value j).2 < (value i).1 ∧ (value i).1 < (value j).1))

/-- The count/matrix invariant of the overlap cache: every count is the number of true
off-diagonal entries of its row. -/
def CountsMatch (n : Nat) (c : GammaCache) : Prop :=
  ∀ i, i < n → c.gamma_i i = rowCount n (c.gamma_links i) i

end Overlap

/-! ## Rates, timeline and interval lookup -/

/-- A rate parameter after construction: exactly one of `homogeneous_X` (a scalar node)
and `heterogeneous_X` (a vector node) is non-NULL. -/
inductive Rate (R : Type) where
  | homogeneous (x : R)
  | heterogeneous (v : List R)

/-- The observation-count argument `incounts` after the three dynamic casts:
no cast succeeds (`marginalized`), `fossil_counts` (`total`), `interval_fossil_counts`
(`perInterval`) or `species_interval_fossil_counts` (`perSpeciesInterval`). -/
inductive Counts where
  | marginalized
  | total (k : Int)
  | perInterval (v : List Int)
  | perSpeciesInterval (m : List (List Int))

/-- What the source reads of a `Taxon`: `getAgeRange().getMax()` and
`getAgeRange().getMin()`. -/
structure Taxon (R : Type) where
  ageMax : R
  ageMin : R

section Timeline

variable {R : Type} [LinearOrder R]

/-- The loop of `std::upper_bound` on the sequence `r`, from position `first` over
`count` elements: the first position whose element is greater than `t`. The first
argument bounds the number of iterations; `count` iterations always suffice. -/
def upperBoundLoop (r : Nat → R) (t : R) : Nat → Nat → Nat → Nat
  | 0, first, _ => first
  | fuel + 1, first, count =>
    if count = 0 then first
    else
      let step := count / 2
      let it := first + step
      if t < r it then upperBoundLoop r t fuel first step
      else upperBoundLoop r t fuel (it + 1) (count - (step + 1))

/-- The call `std::upper_bound(first, first + n, t)` as an offset from `first`. -/
def upper_bound (r : Nat → R) (n : Nat) (t : R) : Nat :=
  upperBoundLoop r t n 0 n

/-- The function `l(t)`: `times.rend() - std::upper_bound(times.rbegin(), times.rend(), t)`,
where `times` has `num_intervals` entries. Position `k` of the reversed view is
`times[num_intervals - 1 - k]`. -/
def l (times : Nat → R) (num_intervals : Nat) (t : R) : Nat :=
  num_intervals - upper_bound (fun k => times (num_intervals - 1 - k)) num_intervals t

/-- The ordering check of the constructor (run when `num_intervals > 1`); the result is
the new value of `ascending`, which the constructor initialises to `false`. -/
def orderingCheck (times : List R) : Except String Bool :=
  let times_sorted_ascending := times.insertionSort (fun a b => a ≤ b)
  let _times_sorted_descending := times.insertionSort (fun a b => b ≤ a)
  if times = times_sorted_ascending then
    Except.ok true
  else if times ≠ times_sorted_ascending then
    Except.error "Interval times must be provided in order"
  else
    Except.ok false

end Timeline

section Getters

variable {R : Type} [Zero R]

/-- The function `getSpeciationRate(index)`. -/
def getSpeciationRate (ascending : Bool) (lambda : Rate R) (index : Nat) : Except String R :=
  match lambda with
  | Rate.homogeneous x => Except.ok x
  | Rate.heterogeneous v =>
    let num := v.length
    if index ≥ num then
      Except.error "Speciation rate index out of bounds"
    else
      Except.ok (if ascending then v.getD (num - 1 - index) 0 else v.getD index 0)

/-- The function `getExtinctionRate(index)`. -/
def getExtinctionRate (ascending : Bool) (mu : Rate R) (index : Nat) : Except String R :=
  match mu with
  | Rate.homogeneous x => Except.ok x
  | Rate.heterogeneous v =>
    let num := v.length
    if index ≥ num then
      Except.error "Extinction rate index out of bounds"
    else
      Except.ok (if ascending then v.getD (num - 1 - index) 0 else v.getD index 0)

/-- The function `getFossilizationRate(index)`. -/
def getFossilizationRate (ascending : Bool) (psi : Rate R) (index : Nat) : Except String R :=
  match psi with
  | Rate.homogeneous x => Except.ok x
  | Rate.heterogeneous v =>
    let num := v.length
    if index ≥ num then
      Except.error "Fossil sampling rate index out of bounds"
    else
      Except.ok (if ascending then v.getD (num - 1 - index) 0 else v.getD index 0)

/-- The function `getIntervalTime(index)`. The constructor makes `num_intervals ≥ 1`. -/
def getIntervalTime (num_intervals : Nat) (timeline : Option (List R)) (ascending : Bool)
    (index : Nat) : Except String R :=
  if index = num_intervals - 1 then
    Except.ok 0
  else
    match timeline with
    | some tl =>
      let num := tl.length
      if index ≥ num then
        Except.error "Interval time index out of bounds"
      else
        Except.ok (if ascending then tl.getD (num - 1 - index) 0 else tl.getD index 0)
    | none => Except.error "Interval time index out of bounds"

end Getters

/-! ## The engine: parameters, caches and the likelihood -/

/-- The assignment `v[i] = x` on a member vector. -/
def setAt {α : Type} (v : Nat → α) (i : Nat) (x : α) : Nat → α :=
  fun k => if k = i then x else v k

/-- The conversion `(int)x` of a `long`. -/
def toInt (x : Int) : Int :=
  (x + 2 ^ 31) % 2 ^ 32 - 2 ^ 31

/-- The conversion of a `long` to `size_t`. -/
def toSizeT (x : Int) : Nat :=
  (x % (sizeMod : Int)).toNat

/-- An unchecked read `row[k]`; reading past the end is undefined in the source and is
reported as a fault here. -/
def uncheckedGet (row : List Int) (k : Nat) : Except String Int :=
  match row.get? k with
  | some x => Except.ok x
  | none => Except.error "undefined: vector read out of range"

/-- The function `getFossilCount(interval, species)`. -/
def getFossilCountAt (counts : Counts) (ascending : Bool) (interval species : Nat) :
    Except String Int :=
  match counts with
  | Counts.total k => Except.ok (toInt k)
  | Counts.perInterval v =>
    let num := v.length
    if interval ≥ num then
      Except.error "Fossil count index out of bounds"
    else
      Except.ok (if ascending then v.getD (num - 1 - interval) 0 else v.getD interval 0)
  | Counts.perSpeciesInterval m =>
    let num := m.length
    if species ≥ num then
      Except.error "Fossil count index out of bounds"
    else
      let row := m.getD species []
      let num := row.length
      if interval ≥ num then
        Except.error "Fossil count index out of bounds"
      else
        Except.ok (if ascending then toInt (row.getD (num - 1 - interval) 0)
          else toInt (row.getD interval 0))
  | Counts.marginalized => Except.error "Fossil counts have been marginalized"

/-- The sum over species in `getFossilCount(interval)`, `num` being the length of the
first row. -/
def sumSpeciesCounts (ascending : Bool) (num interval : Nat) :
    List (List Int) → Int → Except String Int
  | [], total => Except.ok total
  | row :: rest, total =>
    match uncheckedGet row (if ascending then num - 1 - interval else interval) with
    | Except.error msg => Except.error msg
    | Except.ok x => sumSpeciesCounts ascending num interval rest (total + x)

/-- The function `getFossilCount(interval)`. -/
def getFossilCount (counts : Counts) (ascending : Bool) (interval : Nat) : Except String Int :=
  match counts with
  | Counts.total k => Except.ok k
  | Counts.perInterval v =>
    let num := v.length
    if interval ≥ num then
      Except.error "Fossil count index out of bounds"
    else
      Except.ok (if ascending then v.getD (num - 1 - interval) 0 else v.getD interval 0)
  | Counts.perSpeciesInterval m =>
    match m with
    | [] => Except.error "undefined: front() of an empty vector"
    | front :: _ =>
      let num := front.length
      if interval ≥ num then
        Except.error "Fossil count index out of bounds"
      else
        sumSpeciesCounts ascending num interval m 0
  | Counts.marginalized => Except.error "Fossil counts have been marginalized"

/-- The functions `log`, `exp`, `sqrt` of `<cmath>` and `RbMath::isFinite` on `double`.
They are parameters of the embedding: the results below hold for every interpretation. -/
structure FloatOps (R : Type) where
  log : R → R
  exp : R → R
  sqrt : R → R
  isFinite : R → Bool

/-- The parameter members of a constructed
`PiecewiseConstantFossilizedBirthDeathRangeProcess`, fixed between evaluations. The
member `taxa` is its length `numTaxa` and the function `taxa`. -/
structure Params (R : Type) where
  lambda : Rate R
  mu : Rate R
  psi : Rate R
  counts : Counts
  homogeneous_rho : R
  timeline : Option (List R)
  condition : String
  numTaxa : Nat
  taxa : Nat → Taxon R
  presence_absence : Bool
  ascending : Bool
  num_intervals : Nat
  marginalize_k : Bool

/-- The members written by `updateIntervals`. -/
structure IntervalCache (R : Type) where
  birth : Nat → R
  death : Nat → R
  fossil : Nat → R
  times : Nat → R
  q_i : Nat → R
  q_tilde_i : Nat → R
  p_i : Nat → R
  oldest_intervals : Nat → Nat
  youngest_intervals : Nat → Nat

/-- The state of the engine: parameters, the range matrix `*this->value`, and the two
caches. -/
structure Engine (R : Type) where
  par : Params R
  value : Nat → R × R
  cache : IntervalCache R
  gamma : GammaCache

/-- The value `computeLnProbability` returns: `RbConstants::Double::neginf` or the
finite accumulated sum. -/
inductive LnProb (R : Type) where
  | neginf
  | finite (x : R)

section EngineDefs

variable {R : Type} [LinearOrderedField R]

/-- The function `q(i, t, tilde)`. -/
def q (F : FloatOps R) (P : Params R) (c : IntervalCache R) (i : Nat) (t : R) (tilde : Bool) : R :=
  if t = 0 then 1
  else
    let b := c.birth i
    let d := c.death i
    let f := c.fossil i
    let r := if i = P.num_intervals - 1 then P.homogeneous_rho else 0
    let ti := c.times i
    let diff := b - d - f
    let bp := b * f
    let dt := t - ti
    let A := F.sqrt (diff * diff + 4 * bp)
    let B := ((1 - 2 * (1 - r) * c.p_i (i + 1)) * b + d + f) / A
    let ex := F.exp (-A * dt)
    let tmp := (1 + B) + ex * (1 - B)
    let q0 := 4 * ex / (tmp * tmp)
    if tilde then F.sqrt (q0 * F.exp (-(b + d + f) * dt)) else q0

/-- The function `p(i, t)`. -/
def p (F : FloatOps R) (P : Params R) (c : IntervalCache R) (i : Nat) (t : R) : R :=
  if t = 0 then 1
  else
    let b := c.birth i
    let d := c.death i
    let f := c.fossil i
    let r := if i = P.num_intervals - 1 then P.homogeneous_rho else 0
    let ti := c.times i
    let diff := b - d - f
    let bp := b * f
    let dt := t - ti
    let A := F.sqrt (diff * diff + 4 * bp)
    let B := ((1 - 2 * (1 - r) * c.p_i (i + 1)) * b + d + f) / A
    let ex := F.exp (-A * dt)
    let tmp := b + d + f - A * ((1 + B) - ex * (1 - B)) / ((1 + B) + ex * (1 - B))
    tmp / (2 * b)

/-- The function `integrateQ(i, t)`. -/
def integrateQ (F : FloatOps R) (P : Params R) (c : IntervalCache R) (i : Nat) (t : R) : R :=
  let b := c.birth i
  let d := c.death i
  let f := c.fossil i
  let r := if i = P.num_intervals - 1 then P.homogeneous_rho else 0
  let ti := c.times i
  let diff := b - d - f
  let bp := b * f
  let dt := t - ti
  let A := F.sqrt (diff * diff + 4 * bp)
  let B := ((1 - 2 * (1 - r) * c.p_i (i + 1)) * b + d + f) / A
  let ex := F.exp (-A * dt)
  let diff2 := b + d - f
  let tmp := (1 + B) / (A - diff2) - ex * (1 - B) / (A + diff2)
  F.exp (-(diff2 - A) * dt / 2) * tmp

/-- The function `pSurvival(start, end)`. -/
def pSurvival (F : FloatOps R) (P : Params R) (c : IntervalCache R) (start _end : R) : R :=
  let t := start
  let p0 := p F P c (l c.times P.num_intervals t) t
  1 - p0

/-- The presence/absence part of the body of `updateIntervals`, for interval `i` and
species `j`. The state is the cache and the local vector `youngest`. -/
def markOccurrence (P : Params R) (i : Nat) (st : IntervalCache R × (Nat → Bool)) (j : Nat) :
    Except String (IntervalCache R × (Nat → Bool)) :=
  match getFossilCountAt P.counts P.ascending i j with
  | Except.error msg => Except.error msg
  | Except.ok count =>
    if count > 0 then
      let c1 : IntervalCache R := { st.1 with oldest_intervals := setAt st.1.oldest_intervals j i }
      if st.2 j then
        Except.ok ({ c1 with youngest_intervals := setAt c1.youngest_intervals j i },
          setAt st.2 j false)
      else Except.ok (c1, st.2)
    else Except.ok st

/-- The body of the loop of `updateIntervals` for interval `i`. -/
def updateIntervalsStep (F : FloatOps R) (P : Params R)
    (st : IntervalCache R × (Nat → Bool)) (i : Nat) :
    Except String (IntervalCache R × (Nat → Bool)) := do
  let b ← getSpeciationRate P.ascending P.lambda i
  let d ← getExtinctionRate P.ascending P.mu i
  let f ← getFossilizationRate P.ascending P.psi i
  let ti ← getIntervalTime P.num_intervals P.timeline P.ascending i
  let c1 : IntervalCache R :=
    { st.1 with birth := setAt st.1.birth i b, death := setAt st.1.death i d,
                fossil := setAt st.1.fossil i f, times := setAt st.1.times i ti }
  let c2 ← (if i > 0 then do
      let r := if i = P.num_intervals - 1 then P.homogeneous_rho else 0
      let t ← getIntervalTime P.num_intervals P.timeline P.ascending (i - 1)
      let diff := b - d - f
      let dt := t - ti
      let A := F.sqrt (diff * diff + 4 * b * f)
      let B := ((1 - 2 * (1 - r) * c1.p_i (i + 1)) * b + d + f) / A
      let ex := F.exp (-A * dt)
      let tmp := (1 + B) + ex * (1 - B)
      let qi := 4 * ex / (tmp * tmp)
      pure ({ c1 with q_i := setAt c1.q_i i qi,
                      q_tilde_i := setAt c1.q_tilde_i i (F.sqrt (qi * F.exp (-(b + d + f) * dt))),
                      p_i := setAt c1.p_i i
                        ((b + d + f - A * ((1 + B) - ex * (1 - B)) / tmp) / (2 * b)) }
            : IntervalCache R)
    else pure c1)
  if P.presence_absence then
    (List.range P.numTaxa).foldlM (markOccurrence P i) (c2, st.2)
  else pure (c2, st.2)

/-- The function `updateIntervals()`: the loop runs `i` from `num_intervals - 1` down
to `0`. -/
def updateIntervals (F : FloatOps R) (P : Params R) (c : IntervalCache R) :
    Except String (IntervalCache R) :=
  match (List.range P.num_intervals).reverse.foldlM (updateIntervalsStep F P)
      (c, fun _ => true) with
  | Except.error msg => Except.error msg
  | Except.ok st => Except.ok st.1

/-- The local variables of `computeLnProbability` carried through the loop over ranges. -/
structure RangeAcc (R : Type) where
  lnProbTimes : R
  num_extant_sampled : Nat
  num_extant_unsampled : Nat
  maxb : R
  maxl : R
  kappa_prime : Nat → Int
  L : Nat → R

/-- The block `if( marginalize_k )` of the loop over ranges: the updates of
`kappa_prime` and `L`. -/
def marginalTerms (c : IntervalCache R) (o y : R) (oi yi : Nat)
    (kappa_prime : Nat → Int) (L : Nat → R) : (Nat → Int) × (Nat → R) :=
  let k1 := if o > 0 then setAt kappa_prime oi (kappa_prime oi + 1) else kappa_prime
  let k2 := if o ≠ y ∧ y > 0 then setAt k1 yi (k1 yi + 1) else k1
  let L3 :=
    if oi = yi then setAt L oi (L oi + (o - y))
    else
      let L1 := setAt L oi (L oi + (o - c.times oi))
      let L2 := (List.range' (oi + 1) (yi - (oi + 1))).foldl
        (fun (Lj : Nat → R) j => setAt Lj j (Lj j + (c.times (j - 1) - c.times j))) L1
      setAt L2 yi (L2 yi + (c.times (yi - 1) - y))
  (k2, L3)

/-- The body of the loop `for(size_t j = bi + 1; j < di; j++)` of the presence/absence
block, for species `i`; the state is `L` and the flag `first`. -/
def paMiddle (F : FloatOps R) (P : Params R) (c : IntervalCache R) (i : Nat)
    (st : (Nat → R) × Bool) (j : Nat) : Except String ((Nat → R) × Bool) :=
  match getFossilCountAt P.counts P.ascending j i with
  | Except.error msg => Except.error msg
  | Except.ok count =>
    if count > 0 then
      if st.2 then
        Except.ok (setAt st.1 j (st.1 j +
          (F.log (integrateQ F P c j (c.times (j - 1)) - integrateQ F P c j (c.times j))
            + F.log (c.fossil j))), false)
      else
        let Ls := c.times (j - 1) - c.times j
        Except.ok (setAt st.1 j (st.1 j +
          (c.fossil j * Ls + F.log (1 - F.exp (-Ls * c.fossil j)))), st.2)
    else Except.ok st

/-- The block `else if( presence_absence )` of the loop over ranges, for species `i`:
the update of `L`. -/
def paTerms (F : FloatOps R) (P : Params R) (c : IntervalCache R) (i : Nat) (b d : R)
    (bi di : Nat) (L : Nat → R) : Except String (Nat → R) :=
  if bi = di then do
    let count ← getFossilCountAt P.counts P.ascending bi i
    if count > 0 then do
      let tdi ← getIntervalTime P.num_intervals P.timeline P.ascending di
      pure (setAt L bi (L bi +
        (F.log (integrateQ F P c bi b - integrateQ F P c di d) + F.log (c.fossil bi)
          - c.fossil di * (d - tdi))))
    else pure L
  else do
    let count ← getFossilCountAt P.counts P.ascending bi i
    let st1 : (Nat → R) × Bool :=
      if count > 0 then
        (setAt L bi (L bi +
          (F.log (integrateQ F P c bi b - integrateQ F P c bi (c.times bi))
            + F.log (c.fossil bi))), false)
      else (L, true)
    let st2 ← (List.range' (bi + 1) (di - (bi + 1))).foldlM (paMiddle F P c i) st1
    let count2 ← getFossilCountAt P.counts P.ascending di i
    if count2 > 0 then
      if st2.2 then
        pure (setAt st2.1 di (st2.1 di +
          (F.log (integrateQ F P c di (c.times (di - 1)) - integrateQ F P c di d)
            + F.log (c.fossil di) - c.fossil di * (d - c.times di))))
      else
        let Ls := c.times (di - 1) - d
        pure (setAt st2.1 di (st2.1 di +
          (c.fossil di * Ls + F.log (1 - F.exp (-Ls * c.fossil di)))))
    else pure st2.1

/-- The constraint check of the loop over ranges: `true` when the source returns
negative infinity for the range. -/
def constraintViolated (presence_absence : Bool) (b d o y : R) (yi di : Nat) : Bool :=
  if presence_absence then
    !(decide (b > d ∧ ((y = 0 ∧ d = 0) ∨ (y ≠ 0 ∧ d ≥ 0 ∧ yi ≤ di))))
  else
    !(decide (b > o ∧ o ≥ y ∧ (y > d ∨ (y = d ∧ y = 0)) ∧ d ≥ 0))

/-- The part of the body of the loop over ranges that follows the constraint check, for
range `i` with start `b`, end `d`, age range `(o, y)` and their interval indices. -/
def rangeTerms (F : FloatOps R) (e : Engine R) (acc : RangeAcc R) (i : Nat)
    (b d o y : R) (bi di oi yi : Nat) : Except String (Option (RangeAcc R)) :=
  let P := e.par
  let c := e.cache
  let sampled := acc.num_extant_sampled + (if d = 0 ∧ y = 0 then 1 else 0)
  let unsampled := acc.num_extant_unsampled + (if d = 0 ∧ y ≠ 0 then 1 else 0)
  let maxb := if b > acc.maxb then b else acc.maxb
  let maxl := if b > acc.maxb then c.birth bi else acc.maxl
  let s1 := acc.lnProbTimes + F.log (c.birth bi)
  let s2 := s1 + F.log (if e.gamma.gamma_i i = 0 then 1 else (e.gamma.gamma_i i : R))
  let s3 := s2 + F.log (q F P c bi b false)
  let s4 := (List.range' bi (oi - bi)).foldl (fun s j => s + F.log (c.q_i (j + 1))) s3
  let s5 :=
    if P.presence_absence = false then
      s4 + (F.log (q F P c oi o true) - F.log (q F P c oi o false))
    else s4
  let s6 := (List.range' oi (di - oi)).foldl (fun s j => s + F.log (c.q_tilde_i (j + 1))) s5
  let s7 := s6 - F.log (q F P c di d true)
  let s8 := if d > 0 then s7 + F.log (c.death di) else s7
  if P.marginalize_k then
    let kl := marginalTerms c o y oi yi acc.kappa_prime acc.L
    Except.ok (some { lnProbTimes := s8, num_extant_sampled := sampled,
                      num_extant_unsampled := unsampled, maxb := maxb, maxl := maxl,
                      kappa_prime := kl.1, L := kl.2 })
  else if P.presence_absence then
    match paTerms F P c i b d bi di acc.L with
    | Except.error msg => Except.error msg
    | Except.ok L2 =>
      Except.ok (some { lnProbTimes := s8, num_extant_sampled := sampled,
                        num_extant_unsampled := unsampled, maxb := maxb, maxl := maxl,
                        kappa_prime := acc.kappa_prime, L := L2 })
  else
    Except.ok (some { lnProbTimes := s8, num_extant_sampled := sampled,
                      num_extant_unsampled := unsampled, maxb := maxb, maxl := maxl,
                      kappa_prime := acc.kappa_prime, L := acc.L })

/-- The body of the loop over ranges in `computeLnProbability`, for range `i`. The
result `none` is the early `return RbConstants::Double::neginf`. -/
def rangeBody (F : FloatOps R) (e : Engine R) (acc : RangeAcc R) (i : Nat) :
    Except String (Option (RangeAcc R)) :=
  let P := e.par
  let c := e.cache
  if F.isFinite acc.lnProbTimes = false then Except.ok none
  else
    let b := (e.value i).1
    let d := (e.value i).2
    let o := (P.taxa i).ageMax
    let y := (P.taxa i).ageMin
    let bi := l c.times P.num_intervals b
    let di := l c.times P.num_intervals d
    let oi := if P.presence_absence then c.oldest_intervals i else l c.times P.num_intervals o
    let yi := if P.presence_absence then c.youngest_intervals i else l c.times P.num_intervals y
    if constraintViolated P.presence_absence b d o y yi di then Except.ok none
    else rangeTerms F e acc i b d o y bi di oi yi

/-- The loop over ranges in `computeLnProbability`, on the list of remaining indices. -/
def rangeLoop (F : FloatOps R) (e : Engine R) : List Nat → RangeAcc R →
    Except String (Option (RangeAcc R))
  | [], acc => Except.ok (some acc)
  | i :: rest, acc =>
    match rangeBody F e acc i with
    | Except.error msg => Except.error msg
    | Except.ok none => Except.ok none
    | Except.ok (some acc2) => rangeLoop F e rest acc2

/-- The body of the loop over intervals in `computeLnProbability`. -/
def intervalBody (F : FloatOps R) (P : Params R) (c : IntervalCache R) (acc : RangeAcc R)
    (s : R) (i : Nat) : Except String R :=
  if P.presence_absence then Except.ok (s + acc.L i)
  else if P.marginalize_k then
    let k := toSizeT (acc.kappa_prime i)
    let s1 := s + c.fossil i * acc.L i
    Except.ok (s1 + (k : R) * F.log (c.fossil i))
  else
    match getFossilCount P.counts P.ascending i with
    | Except.error msg => Except.error msg
    | Except.ok n => Except.ok (s + (toSizeT n : R) * F.log (c.fossil i))

/-- The function `computeLnProbability()`: the returned value and the engine with both
caches refreshed. It calls `updateGamma()` with the default argument `force = false`. -/
def computeLnProbability (F : FloatOps R) (e : Engine R) :
    Except String (LnProb R × Engine R) :=
  match updateIntervals F e.par e.cache with
  | Except.error msg => Except.error msg
  | Except.ok cache =>
    let e1 : Engine R :=
      { e with cache := cache, gamma := updateGamma e.value e.par.numTaxa false e.gamma }
    let acc0 : RangeAcc R :=
      { lnProbTimes := 0, num_extant_sampled := 0, num_extant_unsampled := 0,
        maxb := 0, maxl := 0, kappa_prime := fun _ => 0, L := fun _ => 0 }
    match rangeLoop F e1 (List.range e1.par.numTaxa) acc0 with
    | Except.error msg => Except.error msg
    | Except.ok none => Except.ok (LnProb.neginf, e1)
    | Except.ok (some acc) =>
      let s1 := acc.lnProbTimes - F.log acc.maxl
      match (List.range e1.par.num_intervals).foldlM (intervalBody F e1.par e1.cache acc) s1 with
      | Except.error msg => Except.error msg
      | Except.ok s2 =>
        let rho := e1.par.homogeneous_rho
        let s3 := if rho > 0 then s2 + (acc.num_extant_sampled : R) * F.log rho else s2
        let s4 := if rho < 1 then s3 + (acc.num_extant_unsampled : R) * F.log (1 - rho) else s3
        let s5 :=
          if e1.par.condition = "survival" then
            s4 - F.log (pSurvival F e1.par e1.cache acc.maxb 0)
          else s4
        if F.isFinite s5 = false then Except.ok (LnProb.neginf, e1)
        else Except.ok (LnProb.finite s5, e1)

/-! ### The constructor -/

/-- The arguments of the constructor. A rate argument is `none` when the node is
neither a scalar nor a vector of reals (both dynamic casts give NULL); `intimes` is
`none` for a NULL timeline; `intaxa` is given by its length `numTaxa` and its entries. -/
structure Args (R : Type) where
  inspeciation : Option (Rate R)
  inextinction : Option (Rate R)
  inpsi : Option (Rate R)
  incounts : Counts
  inrho : R
  intimes : Option (List R)
  incondition : String
  numTaxa : Nat
  intaxa : Nat → Taxon R
  pa : Bool

/-- The message of `no_timeline_err`. -/
def no_timeline_err : String :=
  "No time intervals provided for piecewise constant fossilized birth death process"

/-- The text the constructor streams into `ss` for a length mismatch:
`ss << pre << actual << mid << expected << ")"`. -/
def mismatchMessage (pre : String) (actual : Nat) (mid : String) (expected : Nat) : String :=
  pre ++ toString actual ++ mid ++ toString expected ++ ")"

/-- The block the constructor runs for each of the speciation, extinction and
fossilization rates; `typeMsg` is the message for an argument of neither type and `pre`
the opening text of the length-mismatch message. -/
def checkRate (typeMsg pre : String) (arg : Option (Rate R)) (timeline : Option (List R)) :
    Except String (Rate R) :=
  match arg with
  | none => Except.error typeMsg
  | some (Rate.homogeneous x) => Except.ok (Rate.homogeneous x)
  | some (Rate.heterogeneous v) =>
    match timeline with
    | none => Except.error no_timeline_err
    | some tl =>
      if v.length ≠ tl.length + 1 then
        Except.error (mismatchMessage pre v.length
          ") does not match number of time intervals (" (tl.length + 1))
      else Except.ok (Rate.heterogeneous v)

/-- The checks of the constructor on the observation counts; the result is
`marginalize_k`. -/
def checkCounts (counts : Counts) (psi : Rate R) (timeline : Option (List R))
    (numTaxa : Nat) (pa : Bool) : Except String Bool :=
  let marginalize_k : Bool :=
    match counts with
    | Counts.marginalized => true
    | _ => false
  let species_null : Bool :=
    match counts with
    | Counts.perSpeciesInterval _ => false
    | _ => true
  if marginalize_k && pa then
    Except.error "Cannot marginalize fossil presence absence data"
  else if species_null && pa then
    Except.error "Presence absence data must be provided by species and interval"
  else
    match counts with
    | Counts.marginalized => Except.ok marginalize_k
    | Counts.total _ =>
      match psi with
      | Rate.homogeneous _ => Except.ok marginalize_k
      | Rate.heterogeneous _ =>
        Except.error "Heterogeneous fossil sampling rates provided, but homogeneous fossil counts"
    | Counts.perInterval v =>
      match timeline with
      | none => Except.error no_timeline_err
      | some tl =>
        if v.length ≠ tl.length + 1 then
          Except.error (mismatchMessage "Number of fossil counts (" v.length
            ") does not match number of time intervals (" (tl.length + 1))
        else Except.ok marginalize_k
    | Counts.perSpeciesInterval m =>
      match timeline with
      | none => Except.error no_timeline_err
      | some tl =>
        if m.length ≠ numTaxa then
          Except.error (mismatchMessage "Number of species fossil counts (" m.length
            ") does not match number of taxa (" numTaxa)
        else
          match m with
          | [] => Except.error "undefined: front() of an empty vector"
          | front :: _ =>
            if front.length ≠ tl.length + 1 then
              Except.error (mismatchMessage "Number of fossil counts per species ("
                front.length ") does not match number of time intervals (" (tl.length + 1))
            else Except.ok marginalize_k

/-- The constructor. The argument `drawn` is the range matrix that `redrawValue()`
leaves in `*this->value`. -/
def construct (a : Args R) (drawn : Nat → R × R) : Except String (Engine R) := do
  let lambda ← checkRate "Speciation rate must be of type RealPos or RealPos[]"
    "Number of speciation rates (" a.inspeciation a.intimes
  let mu ← checkRate "Extinction rate must be of type RealPos or RealPos[]"
    "Number of extinction rates (" a.inextinction a.intimes
  let psi ← checkRate "Fossilization rate must be of type RealPos or RealPos[]"
    "Number of fossilization rates (" a.inpsi a.intimes
  let marginalize_k ← checkCounts a.incounts psi a.intimes a.numTaxa a.pa
  let num_intervals : Nat :=
    match a.intimes with
    | none => 1
    | some tl => tl.length + 1
  let ascending ← (if num_intervals > 1 then orderingCheck (a.intimes.getD [])
    else pure false)
  let par : Params R :=
    { lambda := lambda, mu := mu, psi := psi, counts := a.incounts,
      homogeneous_rho := a.inrho, timeline := a.intimes, condition := a.incondition,
      numTaxa := a.numTaxa, taxa := a.intaxa, presence_absence := a.pa,
      ascending := ascending, num_intervals := num_intervals, marginalize_k := marginalize_k }
  let cache : IntervalCache R :=
    { p_i := fun _ => 1, q_i := fun _ => 1, q_tilde_i := fun _ => 1,
      birth := fun _ => 0, death := fun _ => 0, fossil := fun _ => 0, times := fun _ => 0,
      oldest_intervals := fun _ => num_intervals - 1,
      youngest_intervals := fun _ => num_intervals - 1 }
  pure { par := par, value := drawn, cache := cache,
         gamma := updateGamma drawn a.numTaxa true coldCache }

/-- The shape invariants of the parameters that the getters rely on: the timeline has
`num_intervals - 1` breakpoints, a vector-valued rate has `num_intervals` entries, the
flag `marginalize_k` tells whether counts were supplied, and presence/absence data are
per species and interval with `numTaxa` rows of `num_intervals` entries. -/
def Params.WellFormed (P : Params R) : Prop :=
  1 ≤ P.num_intervals
  ∧ (match P.timeline with
      | none => P.num_intervals = 1
      | some tl => P.num_intervals = tl.length + 1)
  ∧ (∀ v, P.lambda = Rate.heterogeneous v → v.length = P.num_intervals)
  ∧ (∀ v, P.mu = Rate.heterogeneous v → v.length = P.num_intervals)
  ∧ (∀ v, P.psi = Rate.heterogeneous v → v.length = P.num_intervals)
  ∧ (P.marginalize_k = true ↔ P.counts = Counts.marginalized)
  ∧ (P.presence_absence = true →
      ∃ m, P.counts = Counts.perSpeciesInterval m ∧ m.length = P.numTaxa
        ∧ ∀ row, row ∈ m → row.length = P.num_intervals)

/-! ### Dirty flags: `touchSpecialization`, `keepSpecialization`, `restoreSpecialization` -/

/-- The function `touchSpecialization(toucher, touchAll)` on `n = taxa.size()` ranges.
The argument `toucherIsDagNode` is the test `toucher == dag_node`, `touched_indices` the
set `dag_node->getTouchedElementIndices()` in iteration order. -/
def touchSpecialization (n : Nat) (toucherIsDagNode : Bool) (touched_indices : List Nat)
    (c : GammaCache) : GammaCache :=
  if toucherIsDagNode then
    touched_indices.foldl
      (fun (g : GammaCache) (it : Nat) =>
        let touched_range := it / n
        { g with dirty_gamma := setAt g.dirty_gamma touched_range true })
      c
  else c

/-- The function `keepSpecialization(toucher)`: `dirty_gamma` becomes all false. -/
def keepSpecialization (c : GammaCache) : GammaCache :=
  { c with dirty_gamma := fun _ => false }

/-- The function `restoreSpecialization(toucher)`, whose body is empty. -/
def restoreSpecialization (c : GammaCache) : GammaCache :=
  c

/-- The shape of the count data that the count getters rely on: per-interval counts have
`num_intervals` entries; per-species counts have one row per taxon, at least one row,
and `num_intervals` entries in every row. -/
def Params.CountsShaped (P : Params R) : Prop :=
  match P.counts with
  | Counts.perInterval v => v.length = P.num_intervals
  | Counts.perSpeciesInterval m =>
    m.length = P.numTaxa ∧ m ≠ [] ∧ ∀ row, row ∈ m → row.length = P.num_intervals
  | _ => True

end EngineDefs

/-! ## Relations between two runs of `updateIntervals` -/

/-- Entry-wise relation between the arrays `fa` and `fb` that two runs of a loop hold:
at each index `fb` holds what `fa` holds, or what the array `fc` holds. -/
def PointSim {α : Type} (fc fa fb : Nat → α) : Prop :=
  ∀ k, fb k = fa k ∨ fb k = fc k

/-- Relation between the states `A` and `B` of two runs of the loop of `updateIntervals`
that have the indices `m` and above behind them: the local flags `youngest` agree, the
entries of `p_i` still to be read agree, and every array of run `B` holds at each index
what run `A` holds there or what the cache `c` holds there. -/
structure IntervalSim {R : Type} (c : IntervalCache R) (m : Nat)
    (A B : IntervalCache R × (Nat → Bool)) : Prop where
  flags : A.2 = B.2
  pRead : ∀ k, m ≤ k → 1 ≤ k → A.1.p_i k = B.1.p_i k
  birth : PointSim c.birth A.1.birth B.1.birth
  death : PointSim c.death A.1.death B.1.death
  fossil : PointSim c.fossil A.1.fossil B.1.fossil
  times : PointSim c.times A.1.times B.1.times
  q_i : PointSim c.q_i A.1.q_i B.1.q_i
  q_tilde_i : PointSim c.q_tilde_i A.1.q_tilde_i B.1.q_tilde_i
  p_i : PointSim c.p_i A.1.p_i B.1.p_i
  oldest : PointSim c.oldest_intervals A.1.oldest_intervals B.1.oldest_intervals
  youngest : PointSim c.youngest_intervals A.1.youngest_intervals B.1.youngest_intervals


/-- The overlap cache after a rejected proposal on range `k`: flag `k` dirty, move
range `k` to `new`, `updateGamma(false)`, put the range back, `restoreSpecialization`,
`updateGamma(false)`. -/
def rejectedProposal {R : Type} [LinearOrder R] (value : Nat → R × R) (n : Nat)
    (c : GammaCache) (k : Nat) (new : R × R) : GammaCache :=
  let flagged : GammaCache := { c with dirty_gamma := setAt c.dirty_gamma k true }
  let proposed := updateGamma (setAt value k new) n false flagged
  let restored := restoreSpecialization proposed
  updateGamma value n false restored


/-! ## The parts of `computeLnProbability` -/

section LikelihoodParts

variable {R : Type} [LinearOrderedField R]

/-- The local variables of `computeLnProbability` as they are declared before the loop
over ranges. -/
def initialAcc : RangeAcc R :=
  { lnProbTimes := 0, num_extant_sampled := 0, num_extant_unsampled := 0,
    maxb := 0, maxl := 0, kappa_prime := fun _ => 0, L := fun _ => 0 }

/-- The engine after the two calls that open `computeLnProbability`: `updateIntervals()`
has left the interval cache `cache`, `updateGamma()` has refreshed the overlap cache. -/
def refreshed (e : Engine R) (cache : IntervalCache R) : Engine R :=
  { e with cache := cache, gamma := updateGamma e.value e.par.numTaxa false e.gamma }

/-- The two statements of `computeLnProbability` under "add the sampled extant tip age
term" and "add the unsampled extant tip age term", applied to the sum `s`. -/
def addSamplingTerms (F : FloatOps R) (rho : R) (num_extant_sampled num_extant_unsampled : Nat)
    (s : R) : R :=
  let s3 := if rho > 0 then s + (num_extant_sampled : R) * F.log rho else s
  if rho < 1 then s3 + (num_extant_unsampled : R) * F.log (1 - rho) else s3

/-- The statement of `computeLnProbability` under "condition on survival", applied to
the sum `s`. -/
def conditionOnSurvival (F : FloatOps R) (P : Params R) (cache : IntervalCache R) (maxb s : R) :
    R :=
  if P.condition = "survival" then s - F.log (pSurvival F P cache maxb 0) else s

/-- The closing test of `computeLnProbability`: negative infinity when the sum is not
finite, the sum otherwise. -/
def checkedResult (F : FloatOps R) (s : R) : LnProb R :=
  if F.isFinite s = false then LnProb.neginf else LnProb.finite s

/-- The engine `e` with the condition string `s`. -/
def withCondition (e : Engine R) (s : String) : Engine R :=
  { e with par := { e.par with condition := s } }

end LikelihoodParts

/-! ## Counts of ranges at the boundary, and the sampling terms as documented -/

section BoundaryCounts

variable {R : Type} [LinearOrderedField R]

/-- The number of ranges with end time `0` whose youngest observation is also `0`. -/
def numSampledAtBoundary (value : Nat → R × R) (taxa : Nat → Taxon R) (n : Nat) : Nat :=
  (List.range n).countP (fun i => decide ((value i).2 = 0 ∧ (taxa i).ageMin = 0))

/-- The number of ranges with end time `0` whose youngest observation is not `0`. -/
def numUnsampledAtBoundary (value : Nat → R × R) (taxa : Nat → Taxon R) (n : Nat) : Nat :=
  (List.range n).countP (fun i => decide ((value i).2 = 0 ∧ (taxa i).ageMin ≠ 0))

/-- The number of ranges ending exactly at the boundary, time `0`. -/
def numEndingAtBoundary (value : Nat → R × R) (n : Nat) : Nat :=
  (List.range n).countP (fun i => decide ((value i).2 = 0))

/-- The documented contribution of boundary sampling with probability `rho`:
`ns * log rho`, omitted when `rho = 0`, plus `nu * log (1 - rho)`, omitted when
`rho = 1`. -/
def boundarySamplingTerms (F : FloatOps R) (rho : R) (ns nu : Nat) : R :=
  (if rho = 0 then 0 else (ns : R) * F.log rho)
    + (if rho = 1 then 0 else (nu : R) * F.log (1 - rho))

end BoundaryCounts


/-! ## The overlap cache with the decrement of a zero count reported -/

section OverlapChecked

variable {R : Type} [LinearOrder R]

/-- The body of the inner loop of `updateGamma` with the `size_t` wrap-around reported:
the result is `none` when `gamma_i[i] += -1` or `gamma_i[j] += -1` is applied to a count
that is `0`, and the result of `updateGammaPair` otherwise. -/
def updateGammaPairChecked (value : Nat → R × R) (force : Bool) (i : Nat)
    (c : GammaCache) (j : Nat) : Option GammaCache :=
  if i = j then some c
  else
    let ai := (value i).1
    let bi := (value i).2
    let aj := (value j).1
    let bj := (value j).2
    let linki : Bool := decide (ai < aj ∧ ai > bj)
    let linkj : Bool := decide (aj < ai ∧ aj > bi)
    let g1 :=
      if (c.gamma_links i j != linki) && (force == false) then
        setCount c.gamma_i i ((c.gamma_i i + (if linki then 1 else sizeMod - 1)) % sizeMod)
      else c.gamma_i
    if (c.gamma_links i j != linki) && (force == false) && (linki == false)
        && (c.gamma_i i == 0) then none
    else if (c.gamma_links j i != linkj) && (force == false) && (linkj == false)
        && (g1 j == 0) then none
    else some (updateGammaPair value force i c j)

/-- The body of the outer loop of `updateGamma` over the checked inner loop. -/
def updateGammaRowChecked (value : Nat → R × R) (n : Nat) (force : Bool)
    (c : GammaCache) (i : Nat) : Option GammaCache :=
  if c.dirty_gamma i || force then
    let c1 : GammaCache :=
      if force == true then { c with gamma_i := setCount c.gamma_i i 0 } else c
    (List.range n).foldlM (updateGammaPairChecked value force i) c1
  else some c

/-- The function `updateGamma(force)` with the wrap-around of a count reported as
`none`. -/
def updateGammaChecked (value : Nat → R × R) (n : Nat) (force : Bool) (c : GammaCache) :
    Option GammaCache :=
  (List.range n).foldlM (updateGammaRowChecked value n force) c

end OverlapChecked


/-! ## The inverse Wishart log-density: `RbStatistics::InverseWishart` -/

/-- What `RbStatistics::InverseWishart` reads of a `MatrixReal`: `getDim()`,
`isPositive()`, `getLogDet()`, the entries `[i][j]` and the entries of
`computeInverse()`. -/
structure MatrixReal (R : Type) where
  dim : Nat
  isPositive : Bool
  logDet : R
  entry : Nat → Nat → R
  inverse : Nat → Nat → R

section InverseWishart

variable {R : Type} [LinearOrderedField R]

/-- The function `lnPdf(const MatrixReal &sigma0, size_t df, const MatrixReal &z)`. -/
def lnPdfMatrix (sigma0 : MatrixReal R) (df : Nat) (z : MatrixReal R) : LnProb R :=
  if !z.isPositive then LnProb.neginf
  else
    let ret0 : R := 0
    let ret1 := ret0 + 1 / 2 * (df : R) * sigma0.logDet
    let ret2 := ret1 - 1 / 2 * (((df + sigma0.dim + 1) % sizeMod : Nat) : R) * z.logDet
    let trace : R :=
      (List.range sigma0.dim).foldl
        (fun tr i =>
          (List.range sigma0.dim).foldl
            (fun tr2 j => tr2 + sigma0.entry i j * z.inverse j i) tr)
        0
    LnProb.finite (ret2 - 1 / 2 * trace)

/-- The read `kappa[i]` of a `std::vector<double>`; reading past the end is undefined in
the source and is reported as a fault here. -/
def readKappa (kappa : List R) (i : Nat) : Except String R :=
  match kappa.get? i with
  | some x => Except.ok x
  | none => Except.error "undefined: vector read out of range"

/-- The function `lnPdf(const std::vector<double>& kappa, size_t df, const MatrixReal &z)`. -/
def lnPdfVector (F : FloatOps R) (kappa : List R) (df : Nat) (z : MatrixReal R) :
    Except String (LnProb R) :=
  let dim := z.dim
  if z.isPositive == false then Except.ok LnProb.neginf
  else do
    let ret1 ← (List.range dim).foldlM
      (fun (ret : R) i => do
        let k ← readKappa kappa i
        pure (ret + 1 / 2 * (df : R) * F.log k))
      0
    let ret2 := ret1 - 1 / 2 * (((df + dim + 1) % sizeMod : Nat) : R) * z.logDet
    let trace ← (List.range dim).foldlM
      (fun (tr : R) i => do
        let k ← readKappa kappa i
        pure (tr + k * z.inverse i i))
      0
    pure (LnProb.finite (ret2 - 1 / 2 * trace))

/-- The function `lnPdf(double kappa, size_t df, const MatrixReal &z)`. -/
def lnPdfScalar (F : FloatOps R) (kappa : R) (df : Nat) (z : MatrixReal R) : LnProb R :=
  let dim := z.dim
  if !z.isPositive then LnProb.neginf
  else
    let ret0 : R := 0
    let ret1 := ret0 + 1 / 2 * (df : R) * (dim : R) * F.log kappa
    let ret2 := ret1 - 1 / 2 * (((df + dim + 1) % sizeMod : Nat) : R) * z.logDet
    let trace : R := (List.range dim).foldl (fun tr i => tr + kappa * z.inverse i i) 0
    LnProb.finite (ret2 - 1 / 2 * trace)

/-- The call `exp(x)` on a value returned by `lnPdf`: `exp` of negative infinity is
`0`. -/
def expLn (F : FloatOps R) : LnProb R → R
  | LnProb.neginf => 0
  | LnProb.finite x => F.exp x

/-- The function `pdf(const MatrixReal &sigma0, size_t df, const MatrixReal &z)`. -/
def pdfMatrix (F : FloatOps R) (sigma0 : MatrixReal R) (df : Nat) (z : MatrixReal R) : R :=
  expLn F (lnPdfMatrix sigma0 df z)

/-- The function `pdf(const std::vector<double>& kappa, size_t df, const MatrixReal &z)`. -/
def pdfVector (F : FloatOps R) (kappa : List R) (df : Nat) (z : MatrixReal R) :
    Except String R :=
  match lnPdfVector F kappa df z with
  | Except.error msg => Except.error msg
  | Except.ok x => Except.ok (expLn F x)

/-- The function `pdf(double kappa, size_t df, const MatrixReal &z)`. -/
def pdfScalar (F : FloatOps R) (kappa : R) (df : Nat) (z : MatrixReal R) : R :=
  expLn F (lnPdfScalar F kappa df z)

end InverseWishart


/-- The interval caches `a` and `b` hold the same rates, interval time and boundary
values at index `k`. -/
def SameAt {R : Type} (a b : IntervalCache R) (k : Nat) : Prop :=
  a.birth k = b.birth k ∧ a.death k = b.death k ∧ a.fossil k = b.fossil k
  ∧ a.times k = b.times k ∧ a.q_i k = b.q_i k ∧ a.q_tilde_i k = b.q_tilde_i k
  ∧ a.p_i k = b.p_i k


/-- The count matrices `m` and `m2` have the same shape, all entries within the range
of `int`, and the same positive entries. -/
def SamePresence (m m2 : List (List Int)) : Prop :=
  m.length = m2.length
  ∧ ∀ j, j < m.length → (m.getD j []).length = (m2.getD j []).length
    ∧ ∀ k, k < (m.getD j []).length →
        (-(2 ^ 31) ≤ (m.getD j []).getD k 0 ∧ (m.getD j []).getD k 0 < 2 ^ 31)
        ∧ (-(2 ^ 31) ≤ (m2.getD j []).getD k 0 ∧ (m2.getD j []).getD k 0 < 2 ^ 31)
        ∧ (0 < (m.getD j []).getD k 0 ↔ 0 < (m2.getD j []).getD k 0)

instance (m m2 : List (List Int)) : Decidable (SamePresence m m2) := by
  unfold SamePresence
  infer_instance

/-- The parameters `P` with the per-species per-interval matrix `m` as observation
counts. -/
def Params.withCounts {R : Type} (P : Params R) (m : List (List Int)) : Params R :=
  { P with counts := Counts.perSpeciesInterval m }

/-- The engine `e` with the per-species per-interval matrix `m` as observation counts. -/
def Engine.withCounts {R : Type} (e : Engine R) (m : List (List Int)) : Engine R :=
  { e with par := e.par.withCounts m }


section ModesDefs

variable {R : Type} [LinearOrderedField R]

/-- The number of fossils that marginalized mode counts for a range with oldest
observation `o` and youngest observation `y`: one for `o > 0`, and one more when `y` is
a second, positive observation time. -/
def kappaImplied (o y : R) : Int :=
  (if o > 0 then 1 else 0) + (if o ≠ y ∧ y > 0 then 1 else 0)

/-- The engine `e` in exact-count mode with the counts `cnt`. -/
def Engine.withExactCounts (e : Engine R) (cnt : Counts) : Engine R :=
  { e with par := { e.par with counts := cnt, marginalize_k := false } }

end ModesDefs


/-! ## The documented closed form for a single interval -/

section ClosedForm

variable {R : Type} [LinearOrderedField R]

end ClosedForm


/-! ## Concrete inputs -/

/-- Three ranges: `(start, end)` = `(10, 0)`, `(5, 3)`, `(4, 1)`. -/
def rangesA : Nat → ℚ × ℚ :=
  fun i => if i = 0 then (10, 0) else if i = 1 then (5, 3) else (4, 1)

/-- The ranges `rangesA` after range 1 has moved to `(12, 3)`. -/
def rangesB : Nat → ℚ × ℚ :=
  fun i => if i = 0 then (10, 0) else if i = 1 then (12, 3) else (4, 1)

/-- The cache of a full recompute on `rangesA`, with range 1 flagged dirty. -/
def cacheA : GammaCache :=
  { updateGamma rangesA 3 true coldCache with dirty_gamma := fun i => decide (i = 1) }

/-- A cache holding arbitrary stale data. -/
def staleCache : GammaCache :=
  { gamma_i := fun _ => 7, gamma_links := fun _ _ => true, dirty_gamma := fun _ => false }

/-- Two ranges: `(10, 0)` and `(5, 3)`; the start of range 1 lies inside range 0. -/
def rangesC : Nat → ℚ × ℚ :=
  fun i => if i = 0 then (10, 0) else (5, 3)

/-- An internal `times` array with four intervals: `30, 20, 10, 0`. -/
def timesA : Nat → ℚ :=
  fun i => if i = 0 then 30 else if i = 1 then 20 else if i = 2 then 10 else 0

/-- Constructor arguments with scalar rates, no counts, one taxon and the timeline
`tl`. -/
def argsWithTimeline (tl : List ℚ) : Args ℚ :=
  { inspeciation := some (Rate.homogeneous 1), inextinction := some (Rate.homogeneous (1 / 2)),
    inpsi := some (Rate.homogeneous (1 / 5)), incounts := Counts.marginalized, inrho := 1,
    intimes := some tl, incondition := "time", numTaxa := 1,
    intaxa := fun _ => { ageMax := 1, ageMin := 0 }, pa := false }

/-- Constructor arguments with a vector of three speciation rates and one breakpoint. -/
def argsBadShape : Args ℚ :=
  { argsWithTimeline [1] with inspeciation := some (Rate.heterogeneous [1, 2, 3]) }

/-- A stand-in interpretation of the elementary functions, used to run the embedding on
rational inputs; no statement depends on the choice. -/
def stubOps : FloatOps ℚ :=
  { log := fun x => x - 1, exp := fun x => x + 1, sqrt := fun x => x, isFinite := fun _ => true }

/-- Constructor arguments with the ascending timeline `[1]` and the speciation rates
`[10, 20]`: rate `10` for the interval from time `0` to the breakpoint `1`, rate `20`
for the interval older than `1`. -/
def argsAscending : Args ℚ :=
  { argsWithTimeline [1] with inspeciation := some (Rate.heterogeneous [10, 20]) }

/-- Parameters of an engine with the ascending timeline `[1]` and the speciation rates
`[10, 20]`, no observation counts, two taxa. -/
def paramsAscending : Params ℚ :=
  { lambda := Rate.heterogeneous [10, 20], mu := Rate.homogeneous (1 / 2),
    psi := Rate.homogeneous (1 / 5), counts := Counts.marginalized, homogeneous_rho := 1,
    timeline := some [1], condition := "time", numTaxa := 2,
    taxa := fun _ => { ageMax := 1, ageMin := 0 }, presence_absence := false,
    ascending := true, num_intervals := 2, marginalize_k := true }

/-- The interval cache as the constructor allocates it for two intervals. -/
def initialCache : IntervalCache ℚ :=
  { p_i := fun _ => 1, q_i := fun _ => 1, q_tilde_i := fun _ => 1,
    birth := fun _ => 0, death := fun _ => 0, fossil := fun _ => 0, times := fun _ => 0,
    oldest_intervals := fun _ => 1, youngest_intervals := fun _ => 1 }

/-- An engine on `paramsAscending` whose range 1 has start `3` below its end `5`. -/
def engineBadRange : Engine ℚ :=
  { par := paramsAscending,
    value := fun i => if i = 0 then (10, 0) else (3, 5),
    cache := initialCache, gamma := coldCache }

/-- Parameters of an engine in the presence/absence regime: two taxa, two intervals,
one row of indicators per taxon. -/
def paramsPresence : Params ℚ :=
  { paramsAscending with
    lambda := Rate.homogeneous 1,
    counts := Counts.perSpeciesInterval [[1, 0], [0, 1]],
    presence_absence := true, marginalize_k := false }

/-- An engine on `paramsPresence` whose range 1 has start `3` below its end `5`. -/
def enginePresenceBadRange : Engine ℚ :=
  { engineBadRange with par := paramsPresence }

/-- Constructor arguments with exact counts per species and interval whose second row
has one entry instead of two: two taxa, the timeline `[1]`, rows `[1, 0]` and `[1]`. -/
def argsRagged : Args ℚ :=
  { argsWithTimeline [1] with
    incounts := Counts.perSpeciesInterval [[1, 0], [1]], numTaxa := 2 }

/-- The arguments `argsRagged` in the presence/absence regime. -/
def argsRaggedPresence : Args ℚ :=
  { argsRagged with pa := true }

/-- Overlap cache with no range flagged dirty. -/
def cleanCache : GammaCache :=
  { gamma_i := fun _ => 0, gamma_links := fun _ _ => false, dirty_gamma := fun _ => false }

/-- Parameters in the presence/absence regime with one taxon and the ascending timeline
`[10]`: the taxon is present in the interval older than `10` (internal index `0`) and
absent from the interval between `0` and `10` (internal index `1`). -/
def paramsImpossible : Params ℚ :=
  { lambda := Rate.homogeneous 1, mu := Rate.homogeneous (1 / 2),
    psi := Rate.homogeneous (1 / 5), counts := Counts.perSpeciesInterval [[0, 1]],
    homogeneous_rho := 1, timeline := some [10], condition := "time", numTaxa := 1,
    taxa := fun _ => { ageMax := 5, ageMin := 0 }, presence_absence := true,
    ascending := true, num_intervals := 2, marginalize_k := false }

/-- An engine on `paramsImpossible` whose only range starts at `5`, inside the youngest
interval, and ends at `0`. -/
def engineImpossible : Engine ℚ :=
  { par := paramsImpossible, value := fun _ => (5, 0), cache := initialCache,
    gamma := coldCache }


/-- Constructor arguments of the scenario with three taxa and one interval: scalar rates
`1`, `1 / 2` and `1 / 5`, boundary sampling probability `1`, no timeline, no counts. -/
def argsThree : Args ℚ :=
  { inspeciation := some (Rate.homogeneous 1), inextinction := some (Rate.homogeneous (1 / 2)),
    inpsi := some (Rate.homogeneous (1 / 5)), incounts := Counts.marginalized, inrho := 1,
    intimes := none, incondition := "time", numTaxa := 3,
    intaxa := fun _ => { ageMax := 1, ageMin := 0 }, pa := false }

/-- Three ranges, each with start `2` and end `0`. -/
def rangesThree : Nat → ℚ × ℚ :=
  fun _ => (2, 0)

/-- The parameters that the constructor derives from `argsThree`: one interval, fossil
counts marginalized. -/
def paramsThree : Params ℚ :=
  { lambda := Rate.homogeneous 1, mu := Rate.homogeneous (1 / 2),
    psi := Rate.homogeneous (1 / 5), counts := Counts.marginalized, homogeneous_rho := 1,
    timeline := none, condition := "time", numTaxa := 3,
    taxa := fun _ => { ageMax := 1, ageMin := 0 }, presence_absence := false,
    ascending := false, num_intervals := 1, marginalize_k := true }

/-- The engine that the constructor builds from `argsThree` and `rangesThree`. -/
def engineThree : Engine ℚ :=
  { par := paramsThree, value := rangesThree,
    cache :=
      { p_i := fun _ => 1, q_i := fun _ => 1, q_tilde_i := fun _ => 1,
        birth := fun _ => 0, death := fun _ => 0, fossil := fun _ => 0, times := fun _ => 0,
        oldest_intervals := fun _ => 0, youngest_intervals := fun _ => 0 },
    gamma := updateGamma rangesThree 3 true coldCache }


/-- An engine on the ranges `rangesA` with the overlap cache `cacheA`: one interval,
scalar rates, and age ranges `(1, 0)`, `(4, 4)`, `(3, 2)` inside the three ranges. -/
def engineOverlap : Engine ℚ :=
  { engineThree with
    par := { paramsThree with
             taxa := fun i =>
               if i = 0 then { ageMax := 1, ageMin := 0 }
               else if i = 1 then { ageMax := 4, ageMin := 4 }
               else { ageMax := 3, ageMin := 2 } },
    value := rangesA, gamma := cacheA }


/-- An engine with boundary sampling probability `1 / 2` on three ranges: `(10, 0)` with
youngest observation `0`, `(5, 0)` with youngest observation `2`, and `(4, 1)`. -/
def engineSampling : Engine ℚ :=
  { engineThree with
    par := { paramsThree with
             homogeneous_rho := 1 / 2,
             taxa := fun i =>
               if i = 0 then { ageMax := 1, ageMin := 0 } else { ageMax := 3, ageMin := 2 } },
    value := fun i => if i = 0 then (10, 0) else if i = 1 then (5, 0) else (4, 1),
    gamma := coldCache }

/-- An interpretation of the elementary functions with a non-finite value: `log` of a
non-positive number is the sentinel `-100`, and `isFinite` holds strictly between
`-10` and `10`. -/
def guardOps : FloatOps ℚ :=
  { log := fun x => if x ≤ 0 then -100 else x - 1, exp := fun x => x + 3,
    sqrt := fun x => x, isFinite := fun x => decide (-10 < x ∧ x < 10) }

/-- Constructor arguments without any sampling, in the presence/absence regime: the
timeline `[10]` (two intervals), speciation rate `1`, extinction rate `2`, fossilization
rate `0`, boundary sampling probability `0`; one taxon, never observed; condition
"time". -/
def argsNoSampling : Args ℚ :=
  { inspeciation := some (Rate.homogeneous 1), inextinction := some (Rate.homogeneous 2),
    inpsi := some (Rate.homogeneous 0), incounts := Counts.perSpeciesInterval [[0, 0]],
    inrho := 0, intimes := some [10], incondition := "time", numTaxa := 1,
    intaxa := fun _ => { ageMax := 0, ageMin := 0 }, pa := true }

/-- The engine that the constructor builds from `argsNoSampling` and the range
`(2, 0)`. -/
def engineNoSampling : Engine ℚ :=
  { par :=
      { lambda := Rate.homogeneous 1, mu := Rate.homogeneous 2, psi := Rate.homogeneous 0,
        counts := Counts.perSpeciesInterval [[0, 0]], homogeneous_rho := 0,
        timeline := some [10], condition := "time", numTaxa := 1,
        taxa := fun _ => { ageMax := 0, ageMin := 0 }, presence_absence := true,
        ascending := true, num_intervals := 2, marginalize_k := false },
    value := fun _ => (2, 0),
    cache := initialCache,
    gamma := updateGamma (fun _ => ((2 : ℚ), (0 : ℚ))) 1 true coldCache }

/-- Constructor arguments that request presence/absence data without any counts. -/
def argsPresenceNoCounts : Args ℚ :=
  { argsWithTimeline [1] with pa := true }

/-- Constructor arguments that request presence/absence data with counts per interval. -/
def argsPresencePerInterval : Args ℚ :=
  { argsWithTimeline [1] with pa := true, incounts := Counts.perInterval [1, 0] }


/-- An interval cache whose `times` array is `30, 20, 10, 0`. -/
def cacheTimesA : IntervalCache ℚ :=
  { initialCache with times := timesA }


/-- An overlap cache that violates the count/matrix invariant: every link is set while
every count is `0`. -/
def brokenCache : GammaCache :=
  { gamma_i := fun _ => 0, gamma_links := fun _ _ => true, dirty_gamma := fun _ => true }


/-- The matrix `[[2, 0], [0, 1]]`, positive, with its inverse; `logDet` holds the value
that the stand-in logarithm gives for the determinant `2`. -/
def matrixTwo : MatrixReal ℚ :=
  { dim := 2, isPositive := true, logDet := 1,
    entry := fun i j => if i = j then (if i = 0 then 2 else 1) else 0,
    inverse := fun i j => if i = j then (if i = 0 then 1 / 2 else 1) else 0 }

/-- The matrix `matrixTwo` flagged as not positive. -/
def matrixNotPositive : MatrixReal ℚ :=
  { matrixTwo with isPositive := false }


/-- An engine in the presence/absence regime on `paramsPresence`: two ranges with start
`2` and end `0`. -/
def enginePresence : Engine ℚ :=
  { par := paramsPresence, value := fun _ => (2, 0), cache := initialCache,
    gamma := coldCache }


/-- Constructor arguments for one taxon with age range `(1, 0)`, no timeline, rates `1`,
`1 / 2`, `1 / 5`, and no counts (marginalized mode). -/
def argsSingle : Args ℚ :=
  { argsThree with numTaxa := 1 }

/-- The engine that the constructor builds from `argsSingle` and the range `(2, 0)`. -/
def engineSingle : Engine ℚ :=
  { par := { paramsThree with numTaxa := 1 }, value := rangesThree,
    cache := engineThree.cache, gamma := updateGamma rangesThree 1 true coldCache }

/-- The arguments `argsSingle` with the exact scalar count `1`, the count that
marginalized mode implies for the age range `(1, 0)`. -/
def argsSingleExact : Args ℚ :=
  { argsSingle with incounts := Counts.total 1 }


theorem foldl_range_succ {β : Type} (f : β → Nat → β) (b : β) (m : Nat) :
    (List.range (m + 1)).foldl f b = f ((List.range m).foldl f b) m := by
  rw [List.range_succ, List.foldl_append]
  rfl

theorem rowCount_zero (row : Nat → Bool) (i : Nat) : rowCount 0 row i = 0 := by
  simp [rowCount]

theorem rowCount_succ (m : Nat) (row : Nat → Bool) (i : Nat) :
    rowCount (m + 1) row i = rowCount m row i + (if m ≠ i ∧ row m = true then 1 else 0) := by
  unfold rowCount
  rw [List.range_succ, List.countP_append]
  congr 1
  by_cases h1 : m = i <;> by_cases h2 : row m = true <;> simp [List.countP_cons, h1, h2]

theorem rowCount_le (n : Nat) (row : Nat → Bool) (i : Nat) : rowCount n row i ≤ n := by
  unfold rowCount
  calc List.countP _ (List.range n) ≤ (List.range n).length := List.countP_le_length _
    _ = n := List.length_range n

theorem rowCount_congr (n : Nat) (row row2 : Nat → Bool) (i : Nat)
    (h : ∀ y, y < n → y ≠ i → row2 y = row y) : rowCount n row2 i = rowCount n row i := by
  induction n with
  | zero => simp [rowCount_zero]
  | succ m ih =>
    rw [rowCount_succ, rowCount_succ, ih (fun y hy hne => h y (Nat.lt_succ_of_lt hy) hne)]
    by_cases hm : m = i
    · simp [hm]
    · rw [h m (Nat.lt_succ_self m) hm]

/-- Two rows that differ at most at index `j` have counts that differ by the entry at `j`. -/
theorem rowCount_update (n : Nat) (row row2 : Nat → Bool) (i j : Nat)
    (hj : j < n) (hji : j ≠ i) (h : ∀ y, y ≠ j → row2 y = row y) :
    rowCount n row2 i + (if row j = true then 1 else 0)
      = rowCount n row i + (if row2 j = true then 1 else 0) := by
  induction n with
  | zero => omega
  | succ m ih =>
    rw [rowCount_succ, rowCount_succ]
    by_cases hjm : j = m
    · subst hjm
      have hc : rowCount j row2 i = rowCount j row i :=
        rowCount_congr j row row2 i (fun y hy _ => h y (Nat.ne_of_lt hy))
      rw [hc]
      simp only [hji, ne_eq, not_false_eq_true, true_and]
      omega
    · have hlt : j < m := by omega
      have hm : row2 m = row m := h m (fun e => hjm e.symm)
      have := ih hlt
      rw [hm]
      omega

section OverlapLemmas

variable {R : Type} [LinearOrder R]

theorem updateGammaPair_dirty (value : Nat → R × R) (force : Bool) (i j : Nat) (c : GammaCache) :
    (updateGammaPair value force i c j).dirty_gamma = c.dirty_gamma := by
  unfold updateGammaPair
  split <;> rfl

/-- The cells of `gamma_links` written by one pass of the inner loop body. -/
theorem updateGammaPair_links (value : Nat → R × R) (force : Bool) (i j : Nat) (c : GammaCache)
    (a b : Nat) :
    (updateGammaPair value force i c j).gamma_links a b =
      if i ≠ j ∧ ((a = i ∧ b = j) ∨ (a = j ∧ b = i)) then link value a b
      else c.gamma_links a b := by
  unfold updateGammaPair
  by_cases hij : i = j
  · simp [hij]
  · simp only [hij, if_false, ne_eq, not_false_eq_true, true_and, setLink, link]
    by_cases h1 : a = j ∧ b = i
    · simp [h1]
    · by_cases h2 : a = i ∧ b = j
      · obtain ⟨ha, hb⟩ := h2
        subst ha; subst hb
        simp [hij]
      · simp [h1, h2]

theorem foldPair_dirty (value : Nat → R × R) (force : Bool) (i m : Nat) (c : GammaCache) :
    ((List.range m).foldl (updateGammaPair value force i) c).dirty_gamma = c.dirty_gamma := by
  induction m with
  | zero => rfl
  | succ k ih => rw [foldl_range_succ, updateGammaPair_dirty, ih]

theorem foldPair_links (value : Nat → R × R) (force : Bool) (i m : Nat) (c : GammaCache)
    (a b : Nat) :
    ((List.range m).foldl (updateGammaPair value force i) c).gamma_links a b =
      if (a = i ∧ b < m ∧ b ≠ i) ∨ (b = i ∧ a < m ∧ a ≠ i) then link value a b
      else c.gamma_links a b := by
  induction m with
  | zero => simp
  | succ k ih =>
    rw [foldl_range_succ, updateGammaPair_links, ih]
    by_cases h1 : i ≠ k ∧ ((a = i ∧ b = k) ∨ (a = k ∧ b = i))
    · rw [if_pos h1, if_pos]
      rcases h1 with ⟨hik, h | h⟩
      · left; exact ⟨h.1, by omega, by omega⟩
      · right; exact ⟨h.2, by omega, by omega⟩
    · rw [if_neg h1]
      by_cases h2 : (a = i ∧ b < k ∧ b ≠ i) ∨ (b = i ∧ a < k ∧ a ≠ i)
      · rw [if_pos h2, if_pos]
        rcases h2 with h | h
        · left; exact ⟨h.1, by omega, h.2.2⟩
        · right; exact ⟨h.1, by omega, h.2.2⟩
      · rw [if_neg h2, if_neg]
        intro h3
        rcases h3 with ⟨ha, hb, hne⟩ | ⟨hb, ha, hne⟩
        · by_cases hbk : b = k
          · exact h1 ⟨by omega, Or.inl ⟨ha, hbk⟩⟩
          · exact h2 (Or.inl ⟨ha, by omega, hne⟩)
        · by_cases hak : a = k
          · exact h1 ⟨by omega, Or.inr ⟨hak, hb⟩⟩
          · exact h2 (Or.inr ⟨hb, by omega, hne⟩)

theorem updateGammaRow_dirty (value : Nat → R × R) (n : Nat) (force : Bool) (c : GammaCache)
    (i : Nat) : (updateGammaRow value n force c i).dirty_gamma = c.dirty_gamma := by
  unfold updateGammaRow
  split
  · rw [foldPair_dirty]
    split <;> rfl
  · rfl

theorem updateGammaRow_links (value : Nat → R × R) (n : Nat) (force : Bool) (c : GammaCache)
    (i a b : Nat) :
    (updateGammaRow value n force c i).gamma_links a b =
      if (c.dirty_gamma i || force) = true ∧ ((a = i ∧ b < n ∧ b ≠ i) ∨ (b = i ∧ a < n ∧ a ≠ i))
      then link value a b else c.gamma_links a b := by
  unfold updateGammaRow
  by_cases hd : (c.dirty_gamma i || force) = true
  · rw [if_pos hd, foldPair_links]
    have hc1 : (if (force == true) = true then
        ({ c with gamma_i := setCount c.gamma_i i 0 } : GammaCache) else c).gamma_links a b
          = c.gamma_links a b := by
      split <;> rfl
    rw [hc1]
    simp only [hd, true_and]
  · rw [if_neg hd]
    simp [hd]

theorem foldRow_dirty (value : Nat → R × R) (n : Nat) (force : Bool) (m : Nat) (c : GammaCache) :
    ((List.range m).foldl (updateGammaRow value n force) c).dirty_gamma = c.dirty_gamma := by
  induction m with
  | zero => rfl
  | succ k ih => rw [foldl_range_succ, updateGammaRow_dirty, ih]

theorem foldRow_links (value : Nat → R × R) (n : Nat) (force : Bool) (m : Nat) (c : GammaCache)
    (a b : Nat) :
    ((List.range m).foldl (updateGammaRow value n force) c).gamma_links a b =
      if a ≠ b ∧ ((a < m ∧ b < n ∧ (c.dirty_gamma a || force) = true)
                  ∨ (b < m ∧ a < n ∧ (c.dirty_gamma b || force) = true))
      then link value a b else c.gamma_links a b := by
  induction m with
  | zero => simp
  | succ k ih =>
    rw [foldl_range_succ, updateGammaRow_links, ih, foldRow_dirty]
    by_cases h1 : (c.dirty_gamma k || force) = true
        ∧ ((a = k ∧ b < n ∧ b ≠ k) ∨ (b = k ∧ a < n ∧ a ≠ k))
    · rw [if_pos h1, if_pos]
      rcases h1 with ⟨hd, ⟨ha, hb, hne⟩ | ⟨hb, ha, hne⟩⟩
      · subst ha
        exact ⟨fun e => hne e.symm, Or.inl ⟨by omega, hb, hd⟩⟩
      · subst hb
        exact ⟨hne, Or.inr ⟨by omega, ha, hd⟩⟩
    · rw [if_neg h1]
      by_cases h2 : a ≠ b ∧ ((a < k ∧ b < n ∧ (c.dirty_gamma a || force) = true)
                  ∨ (b < k ∧ a < n ∧ (c.dirty_gamma b || force) = true))
      · rw [if_pos h2, if_pos]
        rcases h2 with ⟨hne, ⟨ha, hb, hd⟩ | ⟨hb, ha, hd⟩⟩
        · exact ⟨hne, Or.inl ⟨by omega, hb, hd⟩⟩
        · exact ⟨hne, Or.inr ⟨by omega, ha, hd⟩⟩
      · rw [if_neg h2, if_neg]
        intro h3
        rcases h3 with ⟨hne, ⟨ha, hb, hd⟩ | ⟨hb, ha, hd⟩⟩
        · by_cases hak : a = k
          · subst hak
            exact h1 ⟨hd, Or.inl ⟨rfl, hb, fun e => hne e.symm⟩⟩
          · exact h2 ⟨hne, Or.inl ⟨by omega, hb, hd⟩⟩
        · by_cases hbk : b = k
          · subst hbk
            exact h1 ⟨hd, Or.inr ⟨rfl, ha, hne⟩⟩
          · exact h2 ⟨hne, Or.inr ⟨by omega, ha, hd⟩⟩

/-- Closed form of `gamma_links` after `updateGamma`, in both modes. -/
theorem updateGamma_links (value : Nat → R × R) (n : Nat) (force : Bool) (c : GammaCache)
    (a b : Nat) :
    (updateGamma value n force c).gamma_links a b =
      if a ≠ b ∧ a < n ∧ b < n ∧ (force || c.dirty_gamma a || c.dirty_gamma b) = true
      then link value a b else c.gamma_links a b := by
  unfold updateGamma
  rw [foldRow_links]
  congr 1
  apply propext
  simp only [Bool.or_eq_true]
  constructor
  · rintro ⟨hne, ⟨ha, hb, hd⟩ | ⟨hb, ha, hd⟩⟩
    · exact ⟨hne, ha, hb, by tauto⟩
    · exact ⟨hne, ha, hb, by tauto⟩
  · rintro ⟨hne, ha, hb, (hd | hd) | hd⟩
    · exact ⟨hne, Or.inl ⟨ha, hb, Or.inr hd⟩⟩
    · exact ⟨hne, Or.inl ⟨ha, hb, Or.inl hd⟩⟩
    · exact ⟨hne, Or.inr ⟨hb, ha, Or.inl hd⟩⟩

theorem updateGamma_dirty (value : Nat → R × R) (n : Nat) (force : Bool) (c : GammaCache) :
    (updateGamma value n force c).dirty_gamma = c.dirty_gamma :=
  foldRow_dirty value n force n c

/-! ### Counts in forced mode -/

theorem updateGammaPair_gamma_force (value : Nat → R × R) (i j : Nat) (c : GammaCache) (k : Nat) :
    (updateGammaPair value true i c j).gamma_i k =
      if i ≠ j ∧ k = i then (c.gamma_i i + (if link value i j = true then 1 else 0)) % sizeMod
      else c.gamma_i k := by
  unfold updateGammaPair
  by_cases hij : i = j
  · simp [hij]
  · by_cases hk : k = i
    · subst hk
      simp [hij, setCount, link]
    · simp [hij, hk, setCount]

theorem foldPair_gamma_force (value : Nat → R × R) (i m : Nat) (c : GammaCache) (k : Nat)
    (h0 : c.gamma_i i = 0) :
    ((List.range m).foldl (updateGammaPair value true i) c).gamma_i k =
      if k = i then rowCount m (link value i) i % sizeMod else c.gamma_i k := by
  induction m with
  | zero =>
    by_cases hk : k = i
    · subst hk; simp [rowCount_zero, h0]
    · simp [hk]
  | succ m ih =>
    rw [foldl_range_succ, updateGammaPair_gamma_force]
    by_cases hk : k = i
    · subst hk
      have ih2 := ih
      rw [if_pos rfl] at ih2
      rw [if_pos rfl, rowCount_succ]
      by_cases him : k = m
      · subst him
        simp [ih2]
      · have hmk : m ≠ k := fun e => him e.symm
        rw [if_pos ⟨him, rfl⟩, ih2]
        simp only [hmk, ne_eq, not_false_eq_true, true_and]
        rw [Nat.mod_add_mod]
    · rw [if_neg (fun h => hk h.2), ih, if_neg hk, if_neg hk]

theorem updateGammaRow_gamma_force (value : Nat → R × R) (n : Nat) (c : GammaCache) (i k : Nat) :
    (updateGammaRow value n true c i).gamma_i k =
      if k = i then rowCount n (link value i) i % sizeMod else c.gamma_i k := by
  unfold updateGammaRow
  simp only [Bool.or_true, if_true, beq_self_eq_true]
  rw [foldPair_gamma_force value i n _ k (by simp [setCount])]
  by_cases hk : k = i
  · simp [hk]
  · simp [hk, setCount]

theorem foldRow_gamma_force (value : Nat → R × R) (n m : Nat) (c : GammaCache) (k : Nat) :
    ((List.range m).foldl (updateGammaRow value n true) c).gamma_i k =
      if k < m then rowCount n (link value k) k % sizeMod else c.gamma_i k := by
  induction m with
  | zero => simp
  | succ m ih =>
    rw [foldl_range_succ, updateGammaRow_gamma_force, ih]
    by_cases hk : k = m
    · subst hk; simp
    · rw [if_neg hk]
      by_cases hlt : k < m
      · rw [if_pos hlt, if_pos (by omega)]
      · rw [if_neg hlt, if_neg (by omega)]

/-- Closed form of `gamma_i` after `updateGamma(true)`. -/
theorem updateGamma_gamma_force (value : Nat → R × R) (n : Nat) (c : GammaCache) (k : Nat) :
    (updateGamma value n true c).gamma_i k =
      if k < n then rowCount n (link value k) k % sizeMod else c.gamma_i k :=
  foldRow_gamma_force value n n c k

theorem rowCount_link_eq_overlapCount (value : Nat → R × R) (n i : Nat) :
    rowCount n (link value i) i = overlapCount value n i := by
  unfold rowCount overlapCount link
  congr 1
  funext j
  by_cases h1 : j = i <;> by_cases h2 : (value i).1 < (value j).1 <;>
    by_cases h3 : (value j).2 < (value i).1 <;> simp [h1, h2, h3]

/-! ### Counts in incremental mode -/

theorem adjust_count (g rc : Nat) (old new : Bool) (hrc : rc < sizeMod)
    (h : rc + (if old = true then 1 else 0) = g + (if new = true then 1 else 0)) :
    (if ((old != new) && (false == false)) = true
      then (g + (if new = true then 1 else sizeMod - 1)) % sizeMod else g) = rc := by
  have hM : sizeMod = 2 ^ 64 := rfl
  cases old <;> cases new <;> simp at h ⊢
  · omega
  · rw [← h]; exact Nat.mod_eq_of_lt hrc
  · subst h
    have : rc + 1 + (sizeMod - 1) = rc + sizeMod := by omega
    rw [this, Nat.add_mod_right]
    exact Nat.mod_eq_of_lt hrc
  · omega

theorem updateGammaPair_gamma_incr (value : Nat → R × R) (i j : Nat) (c : GammaCache) (k : Nat)
    (hij : i ≠ j) :
    (updateGammaPair value false i c j).gamma_i k =
      if k = j then
        (if ((c.gamma_links j i != link value j i) && (false == false)) = true
          then (c.gamma_i j + (if link value j i = true then 1 else sizeMod - 1)) % sizeMod
          else c.gamma_i j)
      else if k = i then
        (if ((c.gamma_links i j != link value i j) && (false == false)) = true
          then (c.gamma_i i + (if link value i j = true then 1 else sizeMod - 1)) % sizeMod
          else c.gamma_i i)
      else c.gamma_i k := by
  have hji : j ≠ i := fun e => hij e.symm
  unfold updateGammaPair link
  simp only [hij, if_false]
  generalize decide ((value i).1 < (value j).1 ∧ (value i).1 > (value j).2) = li
  generalize decide ((value j).1 < (value i).1 ∧ (value j).1 > (value i).2) = lj
  generalize c.gamma_links i j = oi
  generalize c.gamma_links j i = oj
  by_cases hkj : k = j
  · subst hkj
    cases oi <;> cases oj <;> cases li <;> cases lj <;> simp [setCount, hji]
  · by_cases hki : k = i
    · subst hki
      cases oi <;> cases oj <;> cases li <;> cases lj <;> simp [setCount, hkj]
    · cases oi <;> cases oj <;> cases li <;> cases lj <;> simp [setCount, hkj, hki]

/-- One pass of the inner loop body in incremental mode keeps every count equal to the
number of true entries of its row. -/
theorem updateGammaPair_countsMatch (value : Nat → R × R) (n i j : Nat) (c : GammaCache)
    (hn : n < sizeMod) (hi : i < n) (hj : j < n) (h : CountsMatch n c) :
    CountsMatch n (updateGammaPair value false i c j) := by
  by_cases hij : i = j
  · unfold updateGammaPair
    simpa [hij] using h
  · have hji : j ≠ i := fun e => hij e.symm
    intro k hk
    rw [updateGammaPair_gamma_incr value i j c k hij]
    have hrow : ∀ a y, (updateGammaPair value false i c j).gamma_links a y =
        if i ≠ j ∧ ((a = i ∧ y = j) ∨ (a = j ∧ y = i)) then link value a y
        else c.gamma_links a y := fun a y => updateGammaPair_links value false i j c a y
    have hlt : ∀ a, rowCount n ((updateGammaPair value false i c j).gamma_links a) a < sizeMod :=
      fun a => lt_of_le_of_lt (rowCount_le n _ a) hn
    by_cases hkj : k = j
    · subst hkj
      rw [if_pos rfl]
      apply adjust_count _ _ _ _ (hlt k)
      have hu := rowCount_update n (c.gamma_links k)
        ((updateGammaPair value false i c k).gamma_links k) k i hi hij
        (fun y hy => by rw [hrow]; rw [if_neg]; rintro ⟨_, h1 | h1⟩ <;> tauto)
      have hnew : (updateGammaPair value false i c k).gamma_links k i = link value k i := by
        rw [hrow]; exact if_pos ⟨hij, Or.inr ⟨rfl, rfl⟩⟩
      rw [hu, hnew, h k hk]
    · rw [if_neg hkj]
      by_cases hki : k = i
      · subst hki
        rw [if_pos rfl]
        apply adjust_count _ _ _ _ (hlt k)
        have hu := rowCount_update n (c.gamma_links k)
          ((updateGammaPair value false k c j).gamma_links k) k j hj hji
          (fun y hy => by rw [hrow]; rw [if_neg]; rintro ⟨_, h1 | h1⟩ <;> tauto)
        have hnew : (updateGammaPair value false k c j).gamma_links k j = link value k j := by
          rw [hrow]; exact if_pos ⟨hij, Or.inl ⟨rfl, rfl⟩⟩
        rw [hu, hnew, h k hk]
      · rw [if_neg hki, h k hk]
        apply (rowCount_congr n _ _ k _).symm
        intro y _ _
        rw [hrow, if_neg]
        rintro ⟨_, h1 | h1⟩ <;> tauto

theorem foldPair_countsMatch (value : Nat → R × R) (n i m : Nat) (c : GammaCache)
    (hn : n < sizeMod) (hi : i < n) (hm : m ≤ n) (h : CountsMatch n c) :
    CountsMatch n ((List.range m).foldl (updateGammaPair value false i) c) := by
  induction m with
  | zero => exact h
  | succ m ih =>
    rw [foldl_range_succ]
    exact updateGammaPair_countsMatch value n i m _ hn hi (by omega) (ih (by omega))

theorem updateGammaRow_countsMatch (value : Nat → R × R) (n i : Nat) (c : GammaCache)
    (hn : n < sizeMod) (hi : i < n) (h : CountsMatch n c) :
    CountsMatch n (updateGammaRow value n false c i) := by
  unfold updateGammaRow
  split
  · exact foldPair_countsMatch value n i n _ hn hi (le_refl n) h
  · exact h

theorem foldRow_countsMatch (value : Nat → R × R) (n m : Nat) (c : GammaCache)
    (hn : n < sizeMod) (hm : m ≤ n) (h : CountsMatch n c) :
    CountsMatch n ((List.range m).foldl (updateGammaRow value n false) c) := by
  induction m with
  | zero => exact h
  | succ m ih =>
    rw [foldl_range_succ]
    exact updateGammaRow_countsMatch value n m _ hn (by omega) (ih (by omega))

/-- The function `updateGamma(false)` preserves the count/matrix invariant. -/
theorem updateGamma_incr_countsMatch (value : Nat → R × R) (n : Nat) (c : GammaCache)
    (hn : n < sizeMod) (h : CountsMatch n c) :
    CountsMatch n (updateGamma value n false c) :=
  foldRow_countsMatch value n n c hn (le_refl n) h

theorem GammaCache.eq_of_fields (a b : GammaCache) (h1 : a.gamma_i = b.gamma_i)
    (h2 : a.gamma_links = b.gamma_links) (h3 : a.dirty_gamma = b.dirty_gamma) : a = b := by
  cases a; cases b
  simp only at h1 h2 h3
  subst h1; subst h2; subst h3
  rfl

/-- The result of `updateGamma(true)` does not depend on the counts, the off-diagonal
links or the dirty flags held before. -/
theorem updateGamma_force_indep (value : Nat → R × R) (n : Nat) (c c2 : GammaCache) :
    (∀ i, i < n → (updateGamma value n true c).gamma_i i = (updateGamma value n true c2).gamma_i i)
    ∧ (∀ i j, i < n → j < n → i ≠ j →
        (updateGamma value n true c).gamma_links i j
          = (updateGamma value n true c2).gamma_links i j) := by
  constructor
  · intro i hi
    rw [updateGamma_gamma_force, updateGamma_gamma_force, if_pos hi, if_pos hi]
  · intro i j hi hj hne
    rw [updateGamma_links, updateGamma_links, if_pos ⟨hne, hi, hj, by simp⟩,
      if_pos ⟨hne, hi, hj, by simp⟩]

/-- C1. Incremental and full overlap updates agree. The cache `c` is consistent with the
old ranges `V0` (`gamma_links` is the link predicate off the diagonal, each count is the
number of true off-diagonal entries of its row), `dirty_gamma` flags every range that
differs between `V0` and `V1`, and `n = taxa.size()` is a `size_t`. Then
`updateGamma(false)` on `V1` yields the counts and off-diagonal links that
`updateGamma(true)` on `V1` yields from any cache `c2`. -/
theorem updateGamma_incremental_eq_full (V0 V1 : Nat → R × R) (n : Nat) (c c2 : GammaCache)
    (hn : n < sizeMod)
    (hlinks : ∀ i j, i < n → j < n → i ≠ j → c.gamma_links i j = link V0 i j)
    (hcount : ∀ i, i < n → c.gamma_i i = rowCount n (c.gamma_links i) i)
    (hdirty : ∀ i, i < n → V0 i ≠ V1 i → c.dirty_gamma i = true) :
    (∀ i, i < n → (updateGamma V1 n false c).gamma_i i = (updateGamma V1 n true c2).gamma_i i)
    ∧ (∀ i j, i < n → j < n → i ≠ j →
        (updateGamma V1 n false c).gamma_links i j
          = (updateGamma V1 n true c2).gamma_links i j) := by
  have hL : ∀ i j, i < n → j < n → i ≠ j →
      (updateGamma V1 n false c).gamma_links i j = link V1 i j := by
    intro i j hi hj hne
    rw [updateGamma_links]
    by_cases hd : (false || c.dirty_gamma i || c.dirty_gamma j) = true
    · rw [if_pos ⟨hne, hi, hj, hd⟩]
    · rw [if_neg (fun h => hd h.2.2.2), hlinks i j hi hj hne]
      simp only [Bool.false_or, Bool.or_eq_true, not_or, Bool.not_eq_true] at hd
      have hi0 : V0 i = V1 i := by
        by_contra hne2
        have := hdirty i hi hne2
        rw [hd.1] at this
        exact Bool.false_ne_true this
      have hj0 : V0 j = V1 j := by
        by_contra hne2
        have := hdirty j hj hne2
        rw [hd.2] at this
        exact Bool.false_ne_true this
      unfold link
      rw [hi0, hj0]
  have hF : ∀ i j, i < n → j < n → i ≠ j →
      (updateGamma V1 n true c2).gamma_links i j = link V1 i j := by
    intro i j hi hj hne
    rw [updateGamma_links, if_pos ⟨hne, hi, hj, by simp⟩]
  constructor
  · intro i hi
    have hinv := updateGamma_incr_countsMatch V1 n c hn hcount i hi
    rw [hinv, updateGamma_gamma_force, if_pos hi]
    have hc : rowCount n ((updateGamma V1 n false c).gamma_links i) i = rowCount n (link V1 i) i :=
      rowCount_congr n _ _ i (fun y hy hne => hL i y hi hy (fun e => hne e.symm))
    rw [hc]
    exact (Nat.mod_eq_of_lt (lt_of_le_of_lt (rowCount_le n _ i) hn)).symm
  · intro i j hi hj hne
    rw [hL i j hi hj hne, hF i j hi hj hne]

/-- A concrete instance of C1: range 1 of `rangesA` moves and is flagged dirty. -/
theorem updateGamma_incremental_eq_full_witness :
    (∀ i, i < 3 →
      (updateGamma rangesB 3 false cacheA).gamma_i i
        = (updateGamma rangesB 3 true coldCache).gamma_i i)
    ∧ (∀ i j, i < 3 → j < 3 → i ≠ j →
        (updateGamma rangesB 3 false cacheA).gamma_links i j
          = (updateGamma rangesB 3 true coldCache).gamma_links i j) :=
  updateGamma_incremental_eq_full rangesA rangesB 3 cacheA coldCache (by decide)
    (by
      intro i j hi hj hne
      interval_cases i <;> interval_cases j <;> rfl)
    (by
      intro i hi
      interval_cases i <;> rfl)
    (by
      intro i hi hne
      interval_cases i
      · exact absurd rfl hne
      · rfl
      · exact absurd rfl hne)

/-- C2. Full recompute computes the documented count from any prior cache `c`: after
`updateGamma(true)` every `gamma_i[i]` is the number of ranges `j ≠ i` with
`end(j) < start(i) < start(j)`; a second forced refresh changes nothing; and the counts
and the off-diagonal links (all links, when the never-written diagonal of the prior
cache is false as the constructor leaves it) are those of a full recompute on the cache
the constructor allocates. -/
theorem updateGamma_force_correct (value : Nat → R × R) (n : Nat) (c : GammaCache)
    (hn : n < sizeMod) :
    (∀ i, i < n → (updateGamma value n true c).gamma_i i = overlapCount value n i)
    ∧ updateGamma value n true (updateGamma value n true c) = updateGamma value n true c
    ∧ (∀ i, i < n →
        (updateGamma value n true c).gamma_i i = (updateGamma value n true coldCache).gamma_i i)
    ∧ (∀ i j, i < n → j < n → i ≠ j →
        (updateGamma value n true c).gamma_links i j
          = (updateGamma value n true coldCache).gamma_links i j)
    ∧ ((∀ i, i < n → c.gamma_links i i = false) → ∀ i j, i < n → j < n →
        (updateGamma value n true c).gamma_links i j
          = (updateGamma value n true coldCache).gamma_links i j) := by
  refine ⟨?_, ?_, (updateGamma_force_indep value n c coldCache).1,
    (updateGamma_force_indep value n c coldCache).2, ?_⟩
  · intro i hi
    rw [updateGamma_gamma_force, if_pos hi, rowCount_link_eq_overlapCount]
    exact Nat.mod_eq_of_lt (lt_of_le_of_lt
      (by rw [← rowCount_link_eq_overlapCount]; exact rowCount_le n _ i) hn)
  · apply GammaCache.eq_of_fields
    · funext k
      rw [updateGamma_gamma_force]
      by_cases hk : k < n
      · rw [if_pos hk, updateGamma_gamma_force, if_pos hk]
      · rw [if_neg hk]
    · funext a b
      rw [updateGamma_links]
      by_cases hab : a ≠ b ∧ a < n ∧ b < n
      · rw [if_pos ⟨hab.1, hab.2.1, hab.2.2, by simp⟩, updateGamma_links,
          if_pos ⟨hab.1, hab.2.1, hab.2.2, by simp⟩]
      · rw [if_neg (fun h => hab ⟨h.1, h.2.1, h.2.2.1⟩)]
    · rw [updateGamma_dirty]
  · intro hdiag i j hi hj
    by_cases hne : i = j
    · subst hne
      rw [updateGamma_links, updateGamma_links, if_neg (fun h => h.1 rfl),
        if_neg (fun h => h.1 rfl), hdiag i hi]
      rfl
    · exact (updateGamma_force_indep value n c coldCache).2 i j hi hj hne

/-- A concrete instance of C2: a full recompute on `rangesA` from a stale cache. -/
theorem updateGamma_force_correct_witness :
    (updateGamma rangesA 3 true staleCache).gamma_i 2 = 2
    ∧ updateGamma rangesA 3 true (updateGamma rangesA 3 true staleCache)
        = updateGamma rangesA 3 true staleCache :=
  ⟨((updateGamma_force_correct rangesA 3 staleCache (by decide)).1 2 (by decide)).trans
      (by decide),
    (updateGamma_force_correct rangesA 3 staleCache (by decide)).2.1⟩

/-- C3 as stated fails: on the ranges `(10, 0)` and `(5, 3)` range 1 links to range 0,
so one range links to range 0, but the stored count of range 0 is zero. -/
theorem gamma_i_ne_linkedByCount :
    (updateGamma rangesC 2 true coldCache).gamma_i 0 = 0
    ∧ linkedByCount rangesC 2 0 = 1
    ∧ ¬ (∀ j, j < 2 → (updateGamma rangesC 2 true coldCache).gamma_i j
          = linkedByCount rangesC 2 j) := by
  refine ⟨by decide, by decide, ?_⟩
  intro h
  exact absurd (h 0 (by decide)) (by decide)

/-- C3, amended. After a full recompute the stored count `gamma_i[j]` is the number of
ranges `i ≠ j` that range `j` links to, i.e. those with `link j i`: the start of `j` lies
strictly between the end and the start of `i`. -/
theorem updateGamma_force_counts_links_from (value : Nat → R × R) (n : Nat) (c : GammaCache)
    (hn : n < sizeMod) (j : Nat) (hj : j < n) :
    (updateGamma value n true c).gamma_i j
      = (List.range n).countP (fun i => decide (i ≠ j) && link value j i) := by
  rw [updateGamma_gamma_force, if_pos hj]
  exact Nat.mod_eq_of_lt (lt_of_le_of_lt (rowCount_le n _ j) hn)

/-- A concrete instance of the amended C3 on `rangesC`: range 1 links to one range. -/
theorem updateGamma_force_counts_links_from_witness :
    (updateGamma rangesC 2 true coldCache).gamma_i 1
      = (List.range 2).countP (fun i => decide (i ≠ 1) && link rangesC 1 i) :=
  updateGamma_force_counts_links_from rangesC 2 coldCache (by decide) 1 (by decide)

end OverlapLemmas

/-! ## Interval lookup -/

section LookupLemmas

variable {R : Type} [LinearOrder R]

/-- The binary search returns the partition point of a non-decreasing sequence. -/
theorem upperBoundLoop_spec (r : Nat → R) (t : R) (n : Nat)
    (hmono : ∀ a b, a ≤ b → b < n → r a ≤ r b) :
    ∀ fuel first count, count ≤ fuel → first + count ≤ n →
      (∀ a, a < first → r a ≤ t) → (∀ a, first + count ≤ a → a < n → t < r a) →
      first ≤ upperBoundLoop r t fuel first count
      ∧ upperBoundLoop r t fuel first count ≤ first + count
      ∧ (∀ a, a < upperBoundLoop r t fuel first count → r a ≤ t)
      ∧ (∀ a, upperBoundLoop r t fuel first count ≤ a → a < n → t < r a) := by
  intro fuel
  induction fuel with
  | zero =>
    intro first count hc hn hlo hhi
    have hc0 : count = 0 := by omega
    subst hc0
    exact ⟨le_refl _, by simp [upperBoundLoop], by simpa [upperBoundLoop] using hlo,
      by simpa [upperBoundLoop] using hhi⟩
  | succ fuel ih =>
    intro first count hc hn hlo hhi
    unfold upperBoundLoop
    by_cases hc0 : count = 0
    · subst hc0
      simp only [if_true]
      exact ⟨le_refl _, by omega, hlo, by simpa using hhi⟩
    · simp only [hc0, if_false]
      have hstep : count / 2 < count := Nat.div_lt_self (by omega) (by decide)
      by_cases hlt : t < r (first + count / 2)
      · simp only [hlt, if_true]
        have := ih first (count / 2) (by omega) (by omega) hlo
          (fun a ha han => lt_of_lt_of_le hlt (hmono _ a ha han))
        exact ⟨this.1, by omega, this.2.2.1, this.2.2.2⟩
      · simp only [hlt, if_false]
        have hle : r (first + count / 2) ≤ t := not_lt.mp hlt
        have := ih (first + count / 2 + 1) (count - (count / 2 + 1)) (by omega) (by omega)
          (fun a ha => le_trans (hmono a _ (by omega) (by omega)) hle)
          (fun a ha han => hhi a (by omega) han)
        exact ⟨by omega, by omega, this.2.2.1, this.2.2.2⟩

/-- On a non-increasing `times` array, `l(t)` is the first index whose entry is at most
`t`: every earlier entry is greater than `t`, every later entry is at most `t`. -/
theorem l_spec (times : Nat → R) (n : Nat) (t : R)
    (hmono : ∀ i j, i ≤ j → j < n → times j ≤ times i) :
    l times n t ≤ n
    ∧ (∀ j, j < l times n t → t < times j)
    ∧ (∀ j, l times n t ≤ j → j < n → times j ≤ t) := by
  have h := upperBoundLoop_spec (fun k => times (n - 1 - k)) t n
    (fun a b hab hb => hmono (n - 1 - b) (n - 1 - a) (by omega) (by omega))
    n 0 n (le_refl n) (by omega) (fun a ha => absurd ha (Nat.not_lt_zero a))
    (fun a ha han => absurd han (by omega))
  obtain ⟨_, hk, hlo, hhi⟩ := h
  simp only [Nat.zero_add] at hk
  unfold l upper_bound
  refine ⟨Nat.sub_le _ _, ?_, ?_⟩
  · intro j hj
    have := hhi (n - 1 - j) (by omega) (by omega)
    have e : n - 1 - (n - 1 - j) = j := by omega
    simpa [e] using this
  · intro j hj hjn
    have := hlo (n - 1 - j) (by omega)
    have e : n - 1 - (n - 1 - j) = j := by omega
    simpa [e] using this

/-- With the last entry at most `t`, the lookup is in range. -/
theorem l_lt (times : Nat → R) (n : Nat) (t : R) (hn : 0 < n)
    (hmono : ∀ i j, i ≤ j → j < n → times j ≤ times i) (hlast : times (n - 1) ≤ t) :
    l times n t < n := by
  obtain ⟨hle, hlo, _⟩ := l_spec times n t hmono
  by_contra hge
  have heq : l times n t = n := by omega
  have := hlo (n - 1) (by omega)
  exact absurd hlast (not_le.mpr this)

/-- The index returned by `l(t)` is the only one with `times[i-1] > t ≥ times[i]`. -/
theorem l_unique (times : Nat → R) (n : Nat) (t : R)
    (hmono : ∀ i j, i ≤ j → j < n → times j ≤ times i)
    (i : Nat) (hi : i < n) (h1 : times i ≤ t) (h2 : i = 0 ∨ t < times (i - 1)) :
    i = l times n t := by
  obtain ⟨_, hlo, hhi⟩ := l_spec times n t hmono
  rcases Nat.lt_trichotomy i (l times n t) with h | h | h
  · exact absurd h1 (not_le.mpr (hlo i h))
  · exact h
  · rcases h2 with h0 | h2
    · omega
    · have := hhi (i - 1) (by omega) (by omega)
      exact absurd this (not_le.mpr h2)

/-- Whatever the order of the sequence, the search ends right of position `0` when the
element at position `0` is at most `t`. -/
theorem upperBoundLoop_pos (r : Nat → R) (t : R) (h0 : r 0 ≤ t) :
    ∀ fuel first count, count ≤ fuel → (first = 0 → 0 < count) →
      1 ≤ upperBoundLoop r t fuel first count := by
  intro fuel
  induction fuel with
  | zero =>
    intro first count hc hf
    unfold upperBoundLoop
    omega
  | succ fuel ih =>
    intro first count hc hf
    unfold upperBoundLoop
    by_cases hc0 : count = 0
    · simp only [hc0, if_true]
      omega
    · simp only [hc0, if_false]
      have hstep : count / 2 < count := Nat.div_lt_self (by omega) (by decide)
      by_cases hlt : t < r (first + count / 2)
      · simp only [hlt, if_true]
        apply ih first (count / 2) (by omega)
        intro hfirst
        by_contra hz
        have hz0 : count / 2 = 0 := by omega
        rw [hfirst, hz0] at hlt
        exact absurd h0 (not_le.mpr hlt)
      · simp only [hlt, if_false]
        exact ih (first + count / 2 + 1) (count - (count / 2 + 1)) (by omega) (by omega)

/-- With the last entry of `times` at most `t`, `l(t)` is below `num_intervals`, whatever
the order of the other entries. -/
theorem l_lt_of_last_le (times : Nat → R) (n : Nat) (t : R) (hn : 0 < n)
    (hlast : times (n - 1) ≤ t) : l times n t < n := by
  have h := upperBoundLoop_pos (fun k => times (n - 1 - k)) t (by simpa using hlast)
    n 0 n (le_refl n) (fun _ => hn)
  unfold l upper_bound
  omega

end LookupLemmas

section LookupClaims

variable {R : Type} [LinearOrder R] [Zero R]

/-- C6. Interval lookup postcondition: on a non-increasing `times` array with last entry
`0` and for `t ≥ 0`, `l(t)` is an index `i < num_intervals` with `times[i] ≤ t` and
(`i = 0` or `times[i-1] > t`), and it is the only index with that property (in
particular when the breakpoints are strictly decreasing). -/
theorem l_postcondition (times : Nat → R) (n : Nat) (t : R) (hn : 0 < n)
    (hmono : ∀ i j, i ≤ j → j < n → times j ≤ times i)
    (hlast : times (n - 1) = 0) (ht : 0 ≤ t) :
    l times n t < n
    ∧ times (l times n t) ≤ t
    ∧ (l times n t = 0 ∨ t < times (l times n t - 1))
    ∧ (∀ i, i < n → times i ≤ t → (i = 0 ∨ t < times (i - 1)) → i = l times n t) := by
  have hlt : l times n t < n := l_lt times n t hn hmono (by rw [hlast]; exact ht)
  obtain ⟨_, hlo, hhi⟩ := l_spec times n t hmono
  refine ⟨hlt, hhi _ (le_refl _) hlt, ?_, fun i hi h1 h2 => l_unique times n t hmono i hi h1 h2⟩
  by_cases h0 : l times n t = 0
  · exact Or.inl h0
  · exact Or.inr (hlo _ (by omega))

theorem timesA_mono : ∀ i j, i ≤ j → j < 4 → timesA j ≤ timesA i := by
  intro i j hij hj
  interval_cases j <;> interval_cases i <;> decide

theorem timesA_strict : ∀ i j, i < j → j < 4 → timesA j < timesA i := by
  intro i j hij hj
  interval_cases j <;> interval_cases i <;> decide

/-- A concrete instance of C6: `t = 15` on the breakpoints `30, 20, 10, 0` lies in
interval 2. -/
theorem l_postcondition_witness :
    l timesA 4 15 = 2
    ∧ l timesA 4 15 < 4
    ∧ timesA (l timesA 4 15) ≤ 15 :=
  ⟨by decide,
    (l_postcondition timesA 4 15 (by decide) timesA_mono (by decide) (by decide)).1,
    (l_postcondition timesA 4 15 (by decide) timesA_mono (by decide) (by decide)).2.1⟩

/-- C7. Interval lookup is monotonic and total: on strictly decreasing breakpoints
followed by `0`, `l` is antitone on `t ≥ 0`; every `t ≥ 0` lies in exactly one interval
`i < num_intervals` (`times[i] ≤ t`, and `t < times[i-1]` unless `i = 0`), which is
`l(t)`; and every index `i < num_intervals` is `l(t)` for some `t ≥ 0`. -/
theorem l_monotone_total (times : Nat → R) (n : Nat) (hn : 0 < n)
    (hstrict : ∀ i j, i < j → j < n → times j < times i) (hlast : times (n - 1) = 0) :
    (∀ t1 t2, 0 ≤ t1 → t1 ≤ t2 → l times n t2 ≤ l times n t1)
    ∧ (∀ t, 0 ≤ t → l times n t < n
        ∧ ∃! i, i < n ∧ times i ≤ t ∧ (i = 0 ∨ t < times (i - 1)))
    ∧ (∀ i, i < n → ∃ t, 0 ≤ t ∧ l times n t = i) := by
  have hmono : ∀ i j, i ≤ j → j < n → times j ≤ times i := by
    intro i j hij hj
    rcases Nat.eq_or_lt_of_le hij with h | h
    · rw [h]
    · exact le_of_lt (hstrict i j h hj)
  refine ⟨?_, ?_, ?_⟩
  · intro t1 t2 h1 h12
    have hlt1 : l times n t1 < n := l_lt times n t1 hn hmono (by rw [hlast]; exact h1)
    obtain ⟨_, _, hhi1⟩ := l_spec times n t1 hmono
    obtain ⟨_, hlo2, _⟩ := l_spec times n t2 hmono
    by_contra hgt
    have h := hlo2 (l times n t1) (by omega)
    have h' := hhi1 (l times n t1) (le_refl _) hlt1
    exact absurd (lt_of_lt_of_le h h') (not_lt.mpr h12)
  · intro t ht
    have p1 : l times n t < n := l_lt times n t hn hmono (by rw [hlast]; exact ht)
    obtain ⟨_, hlo, hhi⟩ := l_spec times n t hmono
    have p3 : l times n t = 0 ∨ t < times (l times n t - 1) := by
      by_cases h0 : l times n t = 0
      · exact Or.inl h0
      · exact Or.inr (hlo _ (by omega))
    exact ⟨p1, l times n t, ⟨p1, hhi _ (le_refl _) p1, p3⟩,
      fun i hi => l_unique times n t hmono i hi.1 hi.2.1 hi.2.2⟩
  · intro i hi
    refine ⟨times i, ?_, ?_⟩
    · rw [← hlast]
      exact hmono i (n - 1) (by omega) (by omega)
    · refine (l_unique times n (times i) hmono i hi (le_refl _) ?_).symm
      by_cases h0 : i = 0
      · exact Or.inl h0
      · exact Or.inr (hstrict (i - 1) i (by omega) hi)

/-- A concrete instance of C7 on the breakpoints `30, 20, 10, 0`. -/
theorem l_monotone_total_witness :
    (∀ t1 t2 : ℚ, 0 ≤ t1 → t1 ≤ t2 → l timesA 4 t2 ≤ l timesA 4 t1)
    ∧ (∀ t : ℚ, 0 ≤ t → l timesA 4 t < 4
        ∧ ∃! i, i < 4 ∧ timesA i ≤ t ∧ (i = 0 ∨ t < timesA (i - 1)))
    ∧ (∀ i, i < 4 → ∃ t, 0 ≤ t ∧ l timesA 4 t = i) :=
  l_monotone_total timesA 4 (by decide) timesA_strict (by decide)

end LookupClaims

section GetterClaims

variable {R : Type} [Zero R]

/-- C9. Rate resolution, for each of `getSpeciationRate`, `getExtinctionRate` and
`getFossilizationRate`: a scalar yields that scalar at every index; a vector `v` of
length `m` yields `v[m-1-i]` when `ascending` holds and `v[i]` otherwise for `i < m`;
and the index-out-of-bounds error is raised exactly when `i ≥ m`. -/
theorem rate_resolution (ascending : Bool) (x : R) (v : List R) (i : Nat) :
    (getSpeciationRate ascending (Rate.homogeneous x) i = Except.ok x
      ∧ getExtinctionRate ascending (Rate.homogeneous x) i = Except.ok x
      ∧ getFossilizationRate ascending (Rate.homogeneous x) i = Except.ok x)
    ∧ (∀ h : i < v.length,
        (getSpeciationRate true (Rate.heterogeneous v) i
            = Except.ok (v.get ⟨v.length - 1 - i, by omega⟩)
          ∧ getSpeciationRate false (Rate.heterogeneous v) i = Except.ok (v.get ⟨i, h⟩))
        ∧ (getExtinctionRate true (Rate.heterogeneous v) i
            = Except.ok (v.get ⟨v.length - 1 - i, by omega⟩)
          ∧ getExtinctionRate false (Rate.heterogeneous v) i = Except.ok (v.get ⟨i, h⟩))
        ∧ (getFossilizationRate true (Rate.heterogeneous v) i
            = Except.ok (v.get ⟨v.length - 1 - i, by omega⟩)
          ∧ getFossilizationRate false (Rate.heterogeneous v) i = Except.ok (v.get ⟨i, h⟩)))
    ∧ ((getSpeciationRate ascending (Rate.heterogeneous v) i
          = Except.error "Speciation rate index out of bounds" ↔ v.length ≤ i)
      ∧ (getExtinctionRate ascending (Rate.heterogeneous v) i
          = Except.error "Extinction rate index out of bounds" ↔ v.length ≤ i)
      ∧ (getFossilizationRate ascending (Rate.heterogeneous v) i
          = Except.error "Fossil sampling rate index out of bounds" ↔ v.length ≤ i))
    ∧ (i < v.length →
        (∃ y, getSpeciationRate ascending (Rate.heterogeneous v) i = Except.ok y)
        ∧ (∃ y, getExtinctionRate ascending (Rate.heterogeneous v) i = Except.ok y)
        ∧ (∃ y, getFossilizationRate ascending (Rate.heterogeneous v) i = Except.ok y)) := by
  refine ⟨⟨rfl, rfl, rfl⟩, ?_, ?_, ?_⟩
  · intro h
    have h2 : v.length - 1 - i < v.length := by omega
    have hn : ¬ i ≥ v.length := by omega
    simp [getSpeciationRate, getExtinctionRate, getFossilizationRate, hn,
      List.getElem?_eq_getElem h, List.getElem?_eq_getElem h2]
  · by_cases h : i ≥ v.length
    · simp [getSpeciationRate, getExtinctionRate, getFossilizationRate, h]
    · simp [getSpeciationRate, getExtinctionRate, getFossilizationRate, h]
  · intro h
    have hn : ¬ i ≥ v.length := by omega
    simp [getSpeciationRate, getExtinctionRate, getFossilizationRate, hn]

end GetterClaims

/-! ## The constructor -/

section ConstructorShape

variable {R : Type}

theorem checkRate_heterogeneous (typeMsg pre : String) (v tl : List R) :
    checkRate typeMsg pre (some (Rate.heterogeneous v)) (some tl) =
      if v.length ≠ tl.length + 1 then
        Except.error (pre ++ toString v.length
          ++ ") does not match number of time intervals (" ++ toString (tl.length + 1) ++ ")")
      else Except.ok (Rate.heterogeneous v) := rfl

theorem checkRate_ok_shape (typeMsg pre : String) (arg : Option (Rate R))
    (timeline : Option (List R)) (r : Rate R)
    (h : checkRate typeMsg pre arg timeline = Except.ok r) :
    arg = some r ∧ ∀ v, r = Rate.heterogeneous v →
      ∃ tl, timeline = some tl ∧ v.length = tl.length + 1 := by
  unfold checkRate at h
  cases arg with
  | none => simp at h
  | some a =>
    cases a with
    | homogeneous x =>
      simp only [Except.ok.injEq] at h
      subst h
      exact ⟨rfl, fun v hv => by cases hv⟩
    | heterogeneous w =>
      cases timeline with
      | none => simp at h
      | some tl =>
        simp only at h
        by_cases hl : w.length ≠ tl.length + 1
        · rw [if_pos hl] at h; cases h
        · rw [if_neg hl, Except.ok.injEq] at h
          subst h
          refine ⟨rfl, fun v hv => ?_⟩
          cases hv
          exact ⟨tl, rfl, not_not.mp hl⟩

end ConstructorShape

section ConstructorClaims

variable {R : Type} [LinearOrderedField R]

/-- The ordering check accepts exactly the timelines sorted in ascending order; it never
yields `ascending = false`. -/
theorem orderingCheck_eq (times : List R) :
    orderingCheck times =
      if times = times.insertionSort (fun a b => a ≤ b) then Except.ok true
      else Except.error "Interval times must be provided in order" := by
  unfold orderingCheck
  by_cases h : times = times.insertionSort (fun a b => a ≤ b)
  · simp only [if_pos h]
  · rw [if_neg h, if_neg h, if_pos h]

/-- C5, evaluated at a failing input: the constructor rejects the descending timeline
`[2, 1]` with "Interval times must be provided in order", although it is sorted in
descending order. -/
theorem construct_rejects_descending_timeline :
    List.Sorted (fun a b : ℚ => b ≤ a) [2, 1]
    ∧ construct (argsWithTimeline [2, 1]) rangesC
        = Except.error "Interval times must be provided in order" := by
  constructor
  · simp
  · rfl

theorem construct_ok_rates (a : Args R) (drawn : Nat → R × R) (e : Engine R)
    (h : construct a drawn = Except.ok e) :
    checkRate "Speciation rate must be of type RealPos or RealPos[]"
        "Number of speciation rates (" a.inspeciation a.intimes = Except.ok e.par.lambda
    ∧ checkRate "Extinction rate must be of type RealPos or RealPos[]"
        "Number of extinction rates (" a.inextinction a.intimes = Except.ok e.par.mu
    ∧ checkRate "Fossilization rate must be of type RealPos or RealPos[]"
        "Number of fossilization rates (" a.inpsi a.intimes = Except.ok e.par.psi := by
  unfold construct at h
  cases h1 : checkRate "Speciation rate must be of type RealPos or RealPos[]"
      "Number of speciation rates (" a.inspeciation a.intimes with
  | error m => rw [h1] at h; cases h
  | ok r1 =>
    cases h2 : checkRate "Extinction rate must be of type RealPos or RealPos[]"
        "Number of extinction rates (" a.inextinction a.intimes with
    | error m => rw [h1, h2] at h; cases h
    | ok r2 =>
      cases h3 : checkRate "Fossilization rate must be of type RealPos or RealPos[]"
          "Number of fossilization rates (" a.inpsi a.intimes with
      | error m => rw [h1, h2, h3] at h; cases h
      | ok r3 =>
        rw [h1, h2, h3] at h
        simp only [bind, Except.bind] at h
        cases h4 : checkCounts a.incounts r3 a.intimes a.numTaxa a.pa with
        | error m => rw [h4] at h; cases h
        | ok mk =>
          rw [h4] at h
          simp only at h
          split at h
          · cases h
          · simp only [pure, Except.pure, Except.ok.injEq] at h
            subst h
            exact ⟨rfl, rfl, rfl⟩

theorem construct_error_of_speciation (a : Args R) (drawn : Nat → R × R) (msg : String)
    (h : checkRate "Speciation rate must be of type RealPos or RealPos[]"
      "Number of speciation rates (" a.inspeciation a.intimes = Except.error msg) :
    construct a drawn = Except.error msg := by
  unfold construct
  rw [h]
  rfl

theorem construct_error_of_extinction (a : Args R) (drawn : Nat → R × R) (msg : String)
    (r1 : Rate R)
    (h1 : checkRate "Speciation rate must be of type RealPos or RealPos[]"
      "Number of speciation rates (" a.inspeciation a.intimes = Except.ok r1)
    (h : checkRate "Extinction rate must be of type RealPos or RealPos[]"
      "Number of extinction rates (" a.inextinction a.intimes = Except.error msg) :
    construct a drawn = Except.error msg := by
  unfold construct
  rw [h1, h]
  rfl

theorem construct_error_of_fossilization (a : Args R) (drawn : Nat → R × R) (msg : String)
    (r1 r2 : Rate R)
    (h1 : checkRate "Speciation rate must be of type RealPos or RealPos[]"
      "Number of speciation rates (" a.inspeciation a.intimes = Except.ok r1)
    (h2 : checkRate "Extinction rate must be of type RealPos or RealPos[]"
      "Number of extinction rates (" a.inextinction a.intimes = Except.ok r2)
    (h : checkRate "Fossilization rate must be of type RealPos or RealPos[]"
      "Number of fossilization rates (" a.inpsi a.intimes = Except.error msg) :
    construct a drawn = Except.error msg := by
  unfold construct
  rw [h1, h2, h]
  rfl

/-- A successful construction implies that every vector-valued rate has one entry more
than the timeline has breakpoints. -/
theorem construct_ok_lengths (a : Args R) (drawn : Nat → R × R) (e : Engine R)
    (h : construct a drawn = Except.ok e) (v : List R)
    (hv : a.inspeciation = some (Rate.heterogeneous v)
      ∨ a.inextinction = some (Rate.heterogeneous v)
      ∨ a.inpsi = some (Rate.heterogeneous v)) :
    ∃ tl, a.intimes = some tl ∧ v.length = tl.length + 1 := by
  obtain ⟨h1, h2, h3⟩ := construct_ok_rates a drawn e h
  rcases hv with hv | hv | hv
  · obtain ⟨ha, hs⟩ := checkRate_ok_shape _ _ _ _ _ h1
    rw [hv] at ha
    exact hs v (Option.some.inj ha).symm
  · obtain ⟨ha, hs⟩ := checkRate_ok_shape _ _ _ _ _ h2
    rw [hv] at ha
    exact hs v (Option.some.inj ha).symm
  · obtain ⟨ha, hs⟩ := checkRate_ok_shape _ _ _ _ _ h3
    rw [hv] at ha
    exact hs v (Option.some.inj ha).symm

/-- C10. Shape mismatch is rejected at construction. For a vector-valued rate `v` and a
timeline `tl` of `k` breakpoints, the check of each rate fails iff the length of `v`
differs from `k + 1`, with a message that names the rate and carries the actual length
and `k + 1`; the constructor then fails with that message (for the extinction and
fossilization rates, when the checks before it pass), and in any case fails; a
constructor that succeeds has only vector-valued rates of length `k + 1`; and a
vector-valued rate without a timeline fails. -/
theorem construct_shape_mismatch (a : Args R) (drawn : Nat → R × R) (v tl : List R) :
    ((checkRate "Speciation rate must be of type RealPos or RealPos[]"
          "Number of speciation rates (" (some (Rate.heterogeneous v)) (some tl)
        = Except.error ("Number of speciation rates (" ++ toString v.length
            ++ ") does not match number of time intervals (" ++ toString (tl.length + 1) ++ ")")
        ↔ v.length ≠ tl.length + 1)
      ∧ (checkRate "Extinction rate must be of type RealPos or RealPos[]"
          "Number of extinction rates (" (some (Rate.heterogeneous v)) (some tl)
        = Except.error ("Number of extinction rates (" ++ toString v.length
            ++ ") does not match number of time intervals (" ++ toString (tl.length + 1) ++ ")")
        ↔ v.length ≠ tl.length + 1)
      ∧ (checkRate "Fossilization rate must be of type RealPos or RealPos[]"
          "Number of fossilization rates (" (some (Rate.heterogeneous v)) (some tl)
        = Except.error ("Number of fossilization rates (" ++ toString v.length
            ++ ") does not match number of time intervals (" ++ toString (tl.length + 1) ++ ")")
        ↔ v.length ≠ tl.length + 1))
    ∧ (a.intimes = some tl → v.length ≠ tl.length + 1 →
        (a.inspeciation = some (Rate.heterogeneous v) →
          construct a drawn = Except.error ("Number of speciation rates (" ++ toString v.length
            ++ ") does not match number of time intervals (" ++ toString (tl.length + 1) ++ ")"))
        ∧ (a.inextinction = some (Rate.heterogeneous v) →
          (∃ r1, checkRate "Speciation rate must be of type RealPos or RealPos[]"
            "Number of speciation rates (" a.inspeciation a.intimes = Except.ok r1) →
          construct a drawn = Except.error ("Number of extinction rates (" ++ toString v.length
            ++ ") does not match number of time intervals (" ++ toString (tl.length + 1) ++ ")"))
        ∧ (a.inpsi = some (Rate.heterogeneous v) →
          (∃ r1, checkRate "Speciation rate must be of type RealPos or RealPos[]"
            "Number of speciation rates (" a.inspeciation a.intimes = Except.ok r1) →
          (∃ r2, checkRate "Extinction rate must be of type RealPos or RealPos[]"
            "Number of extinction rates (" a.inextinction a.intimes = Except.ok r2) →
          construct a drawn = Except.error ("Number of fossilization rates ("
            ++ toString v.length
            ++ ") does not match number of time intervals (" ++ toString (tl.length + 1) ++ ")"))
        ∧ ((a.inspeciation = some (Rate.heterogeneous v)
              ∨ a.inextinction = some (Rate.heterogeneous v)
              ∨ a.inpsi = some (Rate.heterogeneous v)) →
            ∃ msg, construct a drawn = Except.error msg))
    ∧ (∀ e, construct a drawn = Except.ok e →
        (a.inspeciation = some (Rate.heterogeneous v)
          ∨ a.inextinction = some (Rate.heterogeneous v)
          ∨ a.inpsi = some (Rate.heterogeneous v)) →
        ∃ k, a.intimes = some k ∧ v.length = k.length + 1)
    ∧ (a.intimes = none →
        (a.inspeciation = some (Rate.heterogeneous v) →
          construct a drawn = Except.error no_timeline_err)
        ∧ ((a.inspeciation = some (Rate.heterogeneous v)
              ∨ a.inextinction = some (Rate.heterogeneous v)
              ∨ a.inpsi = some (Rate.heterogeneous v)) →
            ∃ msg, construct a drawn = Except.error msg)) := by
  have hblock : ∀ typeMsg pre : String,
      (checkRate typeMsg pre (some (Rate.heterogeneous v)) (some tl)
        = Except.error (pre ++ toString v.length
            ++ ") does not match number of time intervals (" ++ toString (tl.length + 1) ++ ")")
        ↔ v.length ≠ tl.length + 1) := by
    intro typeMsg pre
    rw [checkRate_heterogeneous]
    by_cases hl : v.length ≠ tl.length + 1
    · simp [hl]
    · simp [hl]
  have hfail : ∀ tl2 : Option (List R), a.intimes = tl2 →
      (∀ k, tl2 = some k → v.length ≠ k.length + 1) →
      (a.inspeciation = some (Rate.heterogeneous v)
        ∨ a.inextinction = some (Rate.heterogeneous v)
        ∨ a.inpsi = some (Rate.heterogeneous v)) →
      ∃ msg, construct a drawn = Except.error msg := by
    intro tl2 ht hne hv
    cases hc : construct a drawn with
    | error msg => exact ⟨msg, rfl⟩
    | ok e =>
      obtain ⟨k, hk, hlen⟩ := construct_ok_lengths a drawn e hc v hv
      rw [ht] at hk
      exact absurd hlen (hne k hk)
  refine ⟨⟨hblock _ _, hblock _ _, hblock _ _⟩, ?_, ?_, ?_⟩
  · intro ht hne
    refine ⟨?_, ?_, ?_, ?_⟩
    · intro hv
      apply construct_error_of_speciation
      rw [hv, ht]
      exact (hblock _ _).mpr hne
    · rintro hv ⟨r1, h1⟩
      apply construct_error_of_extinction a drawn _ r1 h1
      rw [hv, ht]
      exact (hblock _ _).mpr hne
    · rintro hv ⟨r1, h1⟩ ⟨r2, h2⟩
      apply construct_error_of_fossilization a drawn _ r1 r2 h1 h2
      rw [hv, ht]
      exact (hblock _ _).mpr hne
    · intro hv
      exact hfail (some tl) ht (fun k hk => by cases hk; exact hne) hv
  · intro e he hv
    exact construct_ok_lengths a drawn e he v hv
  · intro ht
    refine ⟨?_, ?_⟩
    · intro hv
      apply construct_error_of_speciation
      rw [hv, ht]
      rfl
    · intro hv
      exact hfail none ht (fun k hk => by cases hk) hv

/-- A concrete instance of C10: three speciation rates with one breakpoint. -/
theorem construct_shape_mismatch_witness :
    construct argsBadShape rangesC
      = Except.error "Number of speciation rates (3) does not match number of time intervals (2)" :=
  (construct_shape_mismatch argsBadShape rangesC [1, 2, 3] [1]).2.1 rfl (by decide) |>.1 rfl

end ConstructorClaims

/-! ## The interval cache: `updateIntervals` -/

section ExceptLoops

theorem foldlM_except_nil {σ α : Type} (f : σ → α → Except String σ) (s : σ) :
    List.foldlM f s [] = Except.ok s := rfl

theorem foldlM_except_cons {σ α : Type} (f : σ → α → Except String σ) (s : σ) (x : α)
    (xs : List α) :
    List.foldlM f s (x :: xs) =
      match f s x with
      | Except.error msg => Except.error msg
      | Except.ok s1 => List.foldlM f s1 xs := by
  rw [List.foldlM_cons]
  cases f s x <;> rfl

/-- A loop whose body succeeds on every element succeeds. -/
theorem foldlM_except_ok {σ α : Type} (f : σ → α → Except String σ) (Good : α → Prop)
    (hstep : ∀ s x, Good x → ∃ s1, f s x = Except.ok s1) :
    ∀ (xs : List α), (∀ x, x ∈ xs → Good x) → ∀ s, ∃ s1, List.foldlM f s xs = Except.ok s1 := by
  intro xs
  induction xs with
  | nil => intro _ s; exact ⟨s, rfl⟩
  | cons x xs ih =>
    intro hg s
    obtain ⟨s1, h1⟩ := hstep s x (hg x (List.mem_cons_self x xs))
    rw [foldlM_except_cons, h1]
    exact ih (fun y hy => hg y (List.mem_cons_of_mem x hy)) s1

/-- A reflexive and transitive relation kept by every successful pass of the body is kept
by the loop. -/
theorem foldlM_except_rel {σ α : Type} (f : σ → α → Except String σ) (Rel : σ → σ → Prop)
    (hrefl : ∀ s, Rel s s) (htrans : ∀ a b c, Rel a b → Rel b c → Rel a c)
    (hstep : ∀ s x s1, f s x = Except.ok s1 → Rel s s1) :
    ∀ (xs : List α) (s s1 : σ), List.foldlM f s xs = Except.ok s1 → Rel s s1 := by
  intro xs
  induction xs with
  | nil =>
    intro s s1 h
    rw [foldlM_except_nil] at h
    cases h
    exact hrefl s
  | cons x xs ih =>
    intro s s1 h
    rw [foldlM_except_cons] at h
    cases hx : f s x with
    | error msg => rw [hx] at h; cases h
    | ok s2 =>
      rw [hx] at h
      exact htrans _ _ _ (hstep s x s2 hx) (ih s2 s1 h)

end ExceptLoops

section IntervalShape

variable {R : Type}

theorem markOccurrence_rates (P : Params R) (i : Nat) (st st1 : IntervalCache R × (Nat → Bool))
    (j : Nat) (h : markOccurrence P i st j = Except.ok st1) :
    st1.1.birth = st.1.birth ∧ st1.1.death = st.1.death ∧ st1.1.fossil = st.1.fossil
      ∧ st1.1.times = st.1.times := by
  unfold markOccurrence at h
  cases hc : getFossilCountAt P.counts P.ascending i j with
  | error msg => rw [hc] at h; cases h
  | ok count =>
    rw [hc] at h
    simp only at h
    split at h
    · split at h <;> (cases h; exact ⟨rfl, rfl, rfl, rfl⟩)
    · cases h; exact ⟨rfl, rfl, rfl, rfl⟩

theorem getFossilCountAt_ok (P : Params R) (hwf : P.WellFormed)
    (hpa : P.presence_absence = true) (i j : Nat) (hi : i < P.num_intervals)
    (hj : j < P.numTaxa) :
    ∃ count, getFossilCountAt P.counts P.ascending i j = Except.ok count := by
  obtain ⟨m, hm, hlen, hrows⟩ := hwf.2.2.2.2.2.2 hpa
  rw [hm]
  unfold getFossilCountAt
  have hj2 : ¬ j ≥ m.length := by omega
  have hjm : j < m.length := by omega
  have hrow : (m.getD j []).length = P.num_intervals := by
    apply hrows
    rw [List.getD_eq_getElem _ _ hjm]
    exact List.getElem_mem hjm
  have hi2 : ¬ i ≥ (m.getD j []).length := by omega
  simp only [hj2, if_false, hi2]
  exact ⟨_, rfl⟩

theorem markOccurrence_fold_rates (P : Params R) (i : Nat) (xs : List Nat)
    (st st1 : IntervalCache R × (Nat → Bool))
    (h : List.foldlM (markOccurrence P i) st xs = Except.ok st1) :
    st1.1.birth = st.1.birth ∧ st1.1.death = st.1.death ∧ st1.1.fossil = st.1.fossil
      ∧ st1.1.times = st.1.times :=
  foldlM_except_rel (markOccurrence P i)
    (fun a b => b.1.birth = a.1.birth ∧ b.1.death = a.1.death ∧ b.1.fossil = a.1.fossil
      ∧ b.1.times = a.1.times)
    (fun _ => ⟨rfl, rfl, rfl, rfl⟩)
    (fun _ _ _ hab hbc => ⟨hbc.1.trans hab.1, hbc.2.1.trans hab.2.1,
      hbc.2.2.1.trans hab.2.2.1, hbc.2.2.2.trans hab.2.2.2⟩)
    (fun s x s1 hs => markOccurrence_rates P i s s1 x hs) xs st st1 h

theorem markOccurrence_ok (P : Params R) (hwf : P.WellFormed)
    (hpa : P.presence_absence = true) (i : Nat) (hi : i < P.num_intervals)
    (st : IntervalCache R × (Nat → Bool)) (j : Nat) (hj : j < P.numTaxa) :
    ∃ st1, markOccurrence P i st j = Except.ok st1 := by
  obtain ⟨count, hc⟩ := getFossilCountAt_ok P hwf hpa i j hi hj
  unfold markOccurrence
  rw [hc]
  simp only
  split
  · split
    · exact ⟨_, rfl⟩
    · exact ⟨_, rfl⟩
  · exact ⟨_, rfl⟩

end IntervalShape

section IntervalLemmas

variable {R : Type} [LinearOrderedField R]

/-- A successful pass of the body of `updateIntervals` stores the resolved rates and
interval time at index `i`. -/
theorem updateIntervalsStep_ok (F : FloatOps R) (P : Params R)
    (st st1 : IntervalCache R × (Nat → Bool)) (i : Nat)
    (h : updateIntervalsStep F P st i = Except.ok st1) :
    ∃ b d f ti, getSpeciationRate P.ascending P.lambda i = Except.ok b
      ∧ getExtinctionRate P.ascending P.mu i = Except.ok d
      ∧ getFossilizationRate P.ascending P.psi i = Except.ok f
      ∧ getIntervalTime P.num_intervals P.timeline P.ascending i = Except.ok ti
      ∧ st1.1.birth = setAt st.1.birth i b ∧ st1.1.death = setAt st.1.death i d
      ∧ st1.1.fossil = setAt st.1.fossil i f ∧ st1.1.times = setAt st.1.times i ti := by
  unfold updateIntervalsStep at h
  cases hb : getSpeciationRate P.ascending P.lambda i with
  | error msg => rw [hb] at h; cases h
  | ok b =>
  cases hd : getExtinctionRate P.ascending P.mu i with
  | error msg => rw [hb, hd] at h; cases h
  | ok d =>
  cases hf : getFossilizationRate P.ascending P.psi i with
  | error msg => rw [hb, hd, hf] at h; cases h
  | ok f =>
  cases ht : getIntervalTime P.num_intervals P.timeline P.ascending i with
  | error msg => rw [hb, hd, hf, ht] at h; cases h
  | ok ti =>
    refine ⟨b, d, f, ti, rfl, rfl, rfl, rfl, ?_⟩
    rw [hb, hd, hf, ht] at h
    simp only [bind, Except.bind] at h
    by_cases hi : i > 0
    · simp only [hi, if_true] at h
      cases ht1 : getIntervalTime P.num_intervals P.timeline P.ascending (i - 1) with
      | error msg => rw [ht1] at h; cases h
      | ok t1 =>
        rw [ht1] at h
        simp only [pure, Except.pure] at h
        by_cases hpa : P.presence_absence = true
        · simp only [hpa, if_true] at h
          exact markOccurrence_fold_rates P i _ _ _ h
        · simp only [hpa] at h
          cases h
          exact ⟨rfl, rfl, rfl, rfl⟩
    · simp only [hi, if_false, pure, Except.pure] at h
      by_cases hpa : P.presence_absence = true
      · simp only [hpa, if_true] at h
        exact markOccurrence_fold_rates P i _ _ _ h
      · simp only [hpa] at h
        cases h
        exact ⟨rfl, rfl, rfl, rfl⟩

/-- After a successful run of the loop of `updateIntervals` over the indices `xs`, the
entries at the indices of `xs` hold the resolved rates and interval times; the other
entries are unchanged. -/
theorem updateIntervals_fold_ok (F : FloatOps R) (P : Params R) :
    ∀ (xs : List Nat) (st st1 : IntervalCache R × (Nat → Bool)),
      List.foldlM (updateIntervalsStep F P) st xs = Except.ok st1 →
      ∀ k,
        (k ∈ xs →
          getSpeciationRate P.ascending P.lambda k = Except.ok (st1.1.birth k)
          ∧ getExtinctionRate P.ascending P.mu k = Except.ok (st1.1.death k)
          ∧ getFossilizationRate P.ascending P.psi k = Except.ok (st1.1.fossil k)
          ∧ getIntervalTime P.num_intervals P.timeline P.ascending k = Except.ok (st1.1.times k))
        ∧ (k ∉ xs →
          st1.1.birth k = st.1.birth k ∧ st1.1.death k = st.1.death k
          ∧ st1.1.fossil k = st.1.fossil k ∧ st1.1.times k = st.1.times k) := by
  intro xs
  induction xs with
  | nil =>
    intro st st1 h k
    rw [foldlM_except_nil] at h
    cases h
    exact ⟨fun hk => absurd hk (List.not_mem_nil k), fun _ => ⟨rfl, rfl, rfl, rfl⟩⟩
  | cons i rest ih =>
    intro st st1 h k
    rw [foldlM_except_cons] at h
    cases hs : updateIntervalsStep F P st i with
    | error msg => rw [hs] at h; cases h
    | ok st2 =>
      rw [hs] at h
      obtain ⟨b, d, f, ti, hb, hd, hf, ht, e1, e2, e3, e4⟩ := updateIntervalsStep_ok F P st st2 i hs
      obtain ⟨ihin, ihout⟩ := ih st2 st1 h k
      constructor
      · intro hk
        by_cases hkr : k ∈ rest
        · exact ihin hkr
        · have hki : k = i := by
            rcases List.mem_cons.mp hk with h1 | h1
            · exact h1
            · exact absurd h1 hkr
          obtain ⟨o1, o2, o3, o4⟩ := ihout hkr
          subst hki
          rw [o1, o2, o3, o4, e1, e2, e3, e4]
          simp only [setAt, if_true]
          exact ⟨hb, hd, hf, ht⟩
      · intro hk
        have hkr : k ∉ rest := fun hm => hk (List.mem_cons_of_mem i hm)
        have hki : k ≠ i := fun e => hk (by rw [e]; exact List.mem_cons_self i rest)
        obtain ⟨o1, o2, o3, o4⟩ := ihout hkr
        rw [o1, o2, o3, o4, e1, e2, e3, e4]
        simp [setAt, hki]

/-- After a successful `updateIntervals`, `birth`, `death`, `fossil` and `times` hold at
every index below `num_intervals` what the four getters resolve there. -/
theorem updateIntervals_ok (F : FloatOps R) (P : Params R) (c c1 : IntervalCache R)
    (h : updateIntervals F P c = Except.ok c1) (k : Nat) (hk : k < P.num_intervals) :
    getSpeciationRate P.ascending P.lambda k = Except.ok (c1.birth k)
    ∧ getExtinctionRate P.ascending P.mu k = Except.ok (c1.death k)
    ∧ getFossilizationRate P.ascending P.psi k = Except.ok (c1.fossil k)
    ∧ getIntervalTime P.num_intervals P.timeline P.ascending k = Except.ok (c1.times k) := by
  unfold updateIntervals at h
  cases hf : List.foldlM (updateIntervalsStep F P) (c, fun _ => true)
      (List.range P.num_intervals).reverse with
  | error msg => rw [hf] at h; cases h
  | ok st1 =>
    rw [hf] at h
    simp only [Except.ok.injEq] at h
    subst h
    exact (updateIntervals_fold_ok F P _ _ _ hf k).1
      (List.mem_reverse.mpr (List.mem_range.mpr hk))

theorem updateIntervals_times_last (F : FloatOps R) (P : Params R) (c c1 : IntervalCache R)
    (h : updateIntervals F P c = Except.ok c1) (hn : 1 ≤ P.num_intervals) :
    c1.times (P.num_intervals - 1) = 0 := by
  have := (updateIntervals_ok F P c c1 h (P.num_intervals - 1) (by omega)).2.2.2
  unfold getIntervalTime at this
  simp only [if_true, Except.ok.injEq] at this
  exact this.symm

/-! ### `updateIntervals` does not raise on well-formed parameters -/

theorem getSpeciationRate_ok (ascending : Bool) (lambda : Rate R) (n i : Nat)
    (h : ∀ v, lambda = Rate.heterogeneous v → v.length = n) (hi : i < n) :
    ∃ b, getSpeciationRate ascending lambda i = Except.ok b := by
  cases lambda with
  | homogeneous x => exact ⟨x, rfl⟩
  | heterogeneous v =>
    have hl := h v rfl
    have hn : ¬ i ≥ v.length := by omega
    simp [getSpeciationRate, hn]

theorem getExtinctionRate_ok (ascending : Bool) (mu : Rate R) (n i : Nat)
    (h : ∀ v, mu = Rate.heterogeneous v → v.length = n) (hi : i < n) :
    ∃ b, getExtinctionRate ascending mu i = Except.ok b := by
  cases mu with
  | homogeneous x => exact ⟨x, rfl⟩
  | heterogeneous v =>
    have hl := h v rfl
    have hn : ¬ i ≥ v.length := by omega
    simp [getExtinctionRate, hn]

theorem getFossilizationRate_ok (ascending : Bool) (psi : Rate R) (n i : Nat)
    (h : ∀ v, psi = Rate.heterogeneous v → v.length = n) (hi : i < n) :
    ∃ b, getFossilizationRate ascending psi i = Except.ok b := by
  cases psi with
  | homogeneous x => exact ⟨x, rfl⟩
  | heterogeneous v =>
    have hl := h v rfl
    have hn : ¬ i ≥ v.length := by omega
    simp [getFossilizationRate, hn]

theorem getIntervalTime_ok (P : Params R) (hwf : P.WellFormed) (i : Nat)
    (hi : i < P.num_intervals) :
    ∃ t, getIntervalTime P.num_intervals P.timeline P.ascending i = Except.ok t := by
  obtain ⟨h1, h2, _⟩ := hwf
  unfold getIntervalTime
  by_cases hlast : i = P.num_intervals - 1
  · simp [hlast]
  · simp only [hlast, if_false]
    cases htl : P.timeline with
    | none =>
      rw [htl] at h2
      simp only at h2
      omega
    | some tl =>
      rw [htl] at h2
      simp only at h2
      have hn : ¬ i ≥ tl.length := by omega
      simp [hn]

theorem updateIntervalsStep_succeeds (F : FloatOps R) (P : Params R) (hwf : P.WellFormed)
    (st : IntervalCache R × (Nat → Bool)) (i : Nat) (hi : i < P.num_intervals) :
    ∃ st1, updateIntervalsStep F P st i = Except.ok st1 := by
  obtain ⟨b, hb⟩ := getSpeciationRate_ok P.ascending P.lambda P.num_intervals i hwf.2.2.1 hi
  obtain ⟨d, hd⟩ := getExtinctionRate_ok P.ascending P.mu P.num_intervals i hwf.2.2.2.1 hi
  obtain ⟨f, hf⟩ := getFossilizationRate_ok P.ascending P.psi P.num_intervals i hwf.2.2.2.2.1 hi
  obtain ⟨ti, ht⟩ := getIntervalTime_ok P hwf i hi
  unfold updateIntervalsStep
  rw [hb, hd, hf, ht]
  simp only [bind, Except.bind]
  have hpaok : ∀ c2 : IntervalCache R,
      ∃ st1, (if P.presence_absence = true then
          List.foldlM (markOccurrence P i) (c2, st.2) (List.range P.numTaxa)
        else (pure (c2, st.2) : Except String (IntervalCache R × (Nat → Bool))))
          = Except.ok st1 := by
    intro c2
    by_cases hpa : P.presence_absence = true
    · rw [if_pos hpa]
      exact foldlM_except_ok (markOccurrence P i) (fun j => j < P.numTaxa)
        (fun s x hx => markOccurrence_ok P hwf hpa i hi s x hx) _
        (fun x hx => List.mem_range.mp hx) _
    · rw [if_neg hpa]
      exact ⟨_, rfl⟩
  by_cases hi0 : i > 0
  · obtain ⟨t1, ht1⟩ := getIntervalTime_ok P hwf (i - 1) (by omega)
    simp only [hi0, if_true, ht1, pure, Except.pure]
    exact hpaok _
  · simp only [hi0, if_false, pure, Except.pure]
    exact hpaok _

/-- On well-formed parameters `updateIntervals` returns. -/
theorem updateIntervals_succeeds (F : FloatOps R) (P : Params R) (hwf : P.WellFormed)
    (c : IntervalCache R) : ∃ c1, updateIntervals F P c = Except.ok c1 := by
  obtain ⟨st1, h⟩ := foldlM_except_ok (updateIntervalsStep F P) (fun i => i < P.num_intervals)
    (fun s x hx => updateIntervalsStep_succeeds F P hwf s x hx)
    (List.range P.num_intervals).reverse
    (fun x hx => List.mem_range.mp (List.mem_reverse.mp hx)) (c, fun _ => true)
  unfold updateIntervals
  rw [h]
  exact ⟨_, rfl⟩

/-! ### Canonical indexing -/

/-- C8 as stated fails. The ascending timeline `[1]` is accepted; after
`updateIntervals` the internal `times` array is `1, 0`, so `l(0) = 1`, not `0`, and
index `0` holds the rate `20` of the oldest interval while the interval that contains
time `0` has rate `10`. -/
theorem index_zero_is_not_boundary :
    ∃ e c, construct argsAscending rangesC = Except.ok e
      ∧ updateIntervals stubOps e.par e.cache = Except.ok c
      ∧ e.par.num_intervals = 2
      ∧ l c.times e.par.num_intervals 0 = 1
      ∧ l c.times e.par.num_intervals 0 ≠ 0
      ∧ c.birth 0 = 20
      ∧ c.birth (l c.times e.par.num_intervals 0) = 10 :=
  ⟨_, _, rfl, rfl, rfl, by decide, by decide, by decide, by decide⟩

theorem sorted_le_getD (tl : List R) (h : tl.Sorted (fun a b => a ≤ b)) (a b : Nat)
    (hab : a ≤ b) (hb : b < tl.length) : tl.getD a 0 ≤ tl.getD b 0 := by
  have ha : a < tl.length := by omega
  rw [List.getD_eq_getElem _ _ ha, List.getD_eq_getElem _ _ hb]
  rcases Nat.eq_or_lt_of_le hab with e | hlt
  · subst e; exact le_refl _
  · exact @List.Sorted.rel_get_of_lt _ _ _ h ⟨a, ha⟩ ⟨b, hb⟩ hlt

theorem sorted_ge_getD (tl : List R) (h : tl.Sorted (fun a b => b ≤ a)) (a b : Nat)
    (hab : a ≤ b) (hb : b < tl.length) : tl.getD b 0 ≤ tl.getD a 0 := by
  have ha : a < tl.length := by omega
  rw [List.getD_eq_getElem _ _ ha, List.getD_eq_getElem _ _ hb]
  rcases Nat.eq_or_lt_of_le hab with e | hlt
  · subst e; exact le_refl _
  · exact @List.Sorted.rel_get_of_lt _ _ _ h ⟨a, ha⟩ ⟨b, hb⟩ hlt

/-- The interval time of an index below the last is a breakpoint of the timeline. -/
theorem getIntervalTime_breakpoint (P : Params R) (hwf : P.WellFormed) (k : Nat)
    (hk : k < P.num_intervals - 1) :
    (P.timeline.getD []).length = P.num_intervals - 1
    ∧ getIntervalTime P.num_intervals P.timeline P.ascending k =
      Except.ok (if P.ascending = true
        then (P.timeline.getD []).getD ((P.timeline.getD []).length - 1 - k) 0
        else (P.timeline.getD []).getD k 0) := by
  obtain ⟨h1, h2, _⟩ := hwf
  have hlast : k ≠ P.num_intervals - 1 := by omega
  unfold getIntervalTime
  simp only [hlast, if_false]
  cases htl : P.timeline with
  | none =>
    rw [htl] at h2
    simp only at h2
    omega
  | some tl =>
    rw [htl] at h2
    simp only at h2
    have hn : ¬ k ≥ tl.length := by omega
    simp only [hn, if_false, Option.getD_some]
    simp only [and_true]
    omega

/-- The internal `times` array built from positive breakpoints sorted in the direction
recorded by `ascending` is non-increasing, with positive entries before the last. -/
theorem times_after_update (F : FloatOps R) (P : Params R) (c c1 : IntervalCache R)
    (hwf : P.WellFormed) (h : updateIntervals F P c = Except.ok c1)
    (hpos : ∀ x, x ∈ P.timeline.getD [] → 0 < x)
    (hasc : P.ascending = true → (P.timeline.getD []).Sorted (fun a b => a ≤ b))
    (hdesc : P.ascending = false → (P.timeline.getD []).Sorted (fun a b => b ≤ a)) :
    (∀ i, i < P.num_intervals - 1 → 0 < c1.times i)
    ∧ (∀ i j, i ≤ j → j < P.num_intervals → c1.times j ≤ c1.times i) := by
  have hn : 1 ≤ P.num_intervals := hwf.1
  have hlast := updateIntervals_times_last F P c c1 h hn
  have hval : ∀ k, k < P.num_intervals - 1 →
      (P.timeline.getD []).length = P.num_intervals - 1
      ∧ c1.times k = (if P.ascending = true
        then (P.timeline.getD []).getD ((P.timeline.getD []).length - 1 - k) 0
        else (P.timeline.getD []).getD k 0) := by
    intro k hk
    obtain ⟨hl, hg⟩ := getIntervalTime_breakpoint P hwf k hk
    have := (updateIntervals_ok F P c c1 h k (by omega)).2.2.2
    rw [hg] at this
    exact ⟨hl, (Except.ok.inj this).symm⟩
  have hposi : ∀ i, i < P.num_intervals - 1 → 0 < c1.times i := by
    intro i hi
    obtain ⟨hl, hv⟩ := hval i hi
    rw [hv]
    apply hpos
    by_cases ha : P.ascending = true
    · rw [if_pos ha, List.getD_eq_getElem _ _ (by omega)]
      exact List.getElem_mem _
    · rw [if_neg ha, List.getD_eq_getElem _ _ (by omega)]
      exact List.getElem_mem _
  refine ⟨hposi, ?_⟩
  intro i j hij hj
  by_cases hjl : j = P.num_intervals - 1
  · rw [hjl, hlast]
    by_cases hil : i = P.num_intervals - 1
    · rw [hil, hlast]
    · exact le_of_lt (hposi i (by omega))
  · obtain ⟨hl, hvj⟩ := hval j (by omega)
    obtain ⟨_, hvi⟩ := hval i (by omega)
    rw [hvi, hvj]
    by_cases ha : P.ascending = true
    · rw [if_pos ha, if_pos ha]
      exact sorted_le_getD _ (hasc ha) _ _ (by omega) (by omega)
    · rw [if_neg ha, if_neg ha]
      have hf : P.ascending = false := by simpa using ha
      exact sorted_ge_getD _ (hdesc hf) _ _ hij (by omega)

/-- C8, amended. For a timeline of positive breakpoints sorted in the direction that
`ascending` records, `updateIntervals` returns and afterwards the internal index
`num_intervals - 1` denotes the interval that contains time `0`:
`times[num_intervals - 1] = 0` and `l(0) = num_intervals - 1`; the rates resolved at
that index are the first entry of a supplied rate vector when `ascending` is set and the
last entry otherwise. -/
theorem boundary_interval_is_last (F : FloatOps R) (P : Params R) (c : IntervalCache R)
    (hwf : P.WellFormed)
    (hpos : ∀ x, x ∈ P.timeline.getD [] → 0 < x)
    (hasc : P.ascending = true → (P.timeline.getD []).Sorted (fun a b => a ≤ b))
    (hdesc : P.ascending = false → (P.timeline.getD []).Sorted (fun a b => b ≤ a)) :
    ∃ c1, updateIntervals F P c = Except.ok c1
      ∧ c1.times (P.num_intervals - 1) = 0
      ∧ l c1.times P.num_intervals 0 = P.num_intervals - 1
      ∧ (∀ v, P.lambda = Rate.heterogeneous v →
          c1.birth (P.num_intervals - 1)
            = if P.ascending = true then v.getD 0 0 else v.getD (v.length - 1) 0)
      ∧ (∀ v, P.mu = Rate.heterogeneous v →
          c1.death (P.num_intervals - 1)
            = if P.ascending = true then v.getD 0 0 else v.getD (v.length - 1) 0)
      ∧ (∀ v, P.psi = Rate.heterogeneous v →
          c1.fossil (P.num_intervals - 1)
            = if P.ascending = true then v.getD 0 0 else v.getD (v.length - 1) 0) := by
  obtain ⟨c1, h⟩ := updateIntervals_succeeds F P hwf c
  have hn : 1 ≤ P.num_intervals := hwf.1
  have hlast := updateIntervals_times_last F P c c1 h hn
  obtain ⟨hposi, hmono⟩ := times_after_update F P c c1 hwf h hpos hasc hdesc
  obtain ⟨hb, hd, hf, _⟩ := updateIntervals_ok F P c c1 h (P.num_intervals - 1) (by omega)
  refine ⟨c1, h, hlast, ?_, ?_, ?_, ?_⟩
  · refine (l_unique c1.times P.num_intervals 0 hmono (P.num_intervals - 1) (by omega)
      (le_of_eq hlast) ?_).symm
    by_cases h0 : P.num_intervals - 1 = 0
    · exact Or.inl h0
    · exact Or.inr (hposi _ (by omega))
  · intro v hv
    have hl := hwf.2.2.1 v hv
    rw [hv] at hb
    have hn2 : ¬ P.num_intervals - 1 ≥ v.length := by omega
    have e0 : v.length - 1 - (P.num_intervals - 1) = 0 := by omega
    simp only [getSpeciationRate, hn2, if_false, e0, Except.ok.injEq] at hb
    rw [← hb, hl]
  · intro v hv
    have hl := hwf.2.2.2.1 v hv
    rw [hv] at hd
    have hn2 : ¬ P.num_intervals - 1 ≥ v.length := by omega
    have e0 : v.length - 1 - (P.num_intervals - 1) = 0 := by omega
    simp only [getExtinctionRate, hn2, if_false, e0, Except.ok.injEq] at hd
    rw [← hd, hl]
  · intro v hv
    have hl := hwf.2.2.2.2.1 v hv
    rw [hv] at hf
    have hn2 : ¬ P.num_intervals - 1 ≥ v.length := by omega
    have e0 : v.length - 1 - (P.num_intervals - 1) = 0 := by omega
    simp only [getFossilizationRate, hn2, if_false, e0, Except.ok.injEq] at hf
    rw [← hf, hl]

theorem paramsAscending_wellFormed : paramsAscending.WellFormed := by
  refine ⟨by decide, rfl, ?_, ?_, ?_, ?_, ?_⟩
  · intro v hv
    cases hv
    rfl
  · intro v hv
    cases hv
  · intro v hv
    cases hv
  · exact ⟨fun _ => rfl, fun _ => rfl⟩
  · intro h
    cases h

/-- A concrete instance of the amended C8 on the ascending timeline `[1]`. -/
theorem boundary_interval_is_last_witness :
    ∃ c1, updateIntervals stubOps paramsAscending initialCache = Except.ok c1
      ∧ c1.times (paramsAscending.num_intervals - 1) = 0
      ∧ l c1.times paramsAscending.num_intervals 0 = paramsAscending.num_intervals - 1 :=
  let ⟨c1, h1, h2, h3, _⟩ := boundary_interval_is_last stubOps paramsAscending initialCache
    paramsAscending_wellFormed
    (by
      intro x hx
      have hx1 : x = 1 := by simpa [paramsAscending] using hx
      rw [hx1]
      decide)
    (fun _ => by simp [paramsAscending])
    (fun h => by cases h)
  ⟨c1, h1, h2, h3⟩

end IntervalLemmas

/-! ## The likelihood: `computeLnProbability` -/

section LikelihoodLemmas

variable {R : Type} [LinearOrderedField R]

theorem constraintViolated_of_le (pa : Bool) (b d o y : R) (yi di : Nat) (h : b ≤ d) :
    constraintViolated pa b d o y yi di = true := by
  unfold constraintViolated
  have hnot : ¬ b > d := not_lt.mpr h
  cases pa
  · have hn : ¬ (b > o ∧ o ≥ y ∧ (y > d ∨ (y = d ∧ y = 0)) ∧ d ≥ 0) := by
      rintro ⟨h1, h2, h3, _⟩
      have hyd : d ≤ y := by
        rcases h3 with h3 | h3
        · exact le_of_lt h3
        · exact le_of_eq h3.1.symm
      exact hnot (lt_of_le_of_lt (le_trans hyd h2) h1)
    simp [hn]
  · have hn : ¬ (b > d ∧ ((y = 0 ∧ d = 0) ∨ (y ≠ 0 ∧ d ≥ 0 ∧ yi ≤ di))) := fun hc => hnot hc.1
    simp [hn]

theorem constraint_ok_bounds (pa : Bool) (b d o y : R) (yi di : Nat)
    (h : ¬ constraintViolated pa b d o y yi di = true) : d < b ∧ 0 ≤ d := by
  unfold constraintViolated at h
  cases pa
  · simp only [Bool.false_eq_true, if_false, Bool.not_eq_true', decide_eq_false_iff_not,
      not_not] at h
    obtain ⟨h1, h2, h3, h4⟩ := h
    refine ⟨?_, h4⟩
    have hyd : d ≤ y := by
      rcases h3 with h3 | h3
      · exact le_of_lt h3
      · exact le_of_eq h3.1.symm
    exact lt_of_le_of_lt (le_trans hyd h2) h1
  · simp only [if_true, Bool.not_eq_true', decide_eq_false_iff_not, not_not] at h
    obtain ⟨h1, h2⟩ := h
    refine ⟨h1, ?_⟩
    rcases h2 with h2 | h2
    · exact le_of_eq h2.2.symm
    · exact h2.2.1

theorem rangeBody_eq (F : FloatOps R) (e : Engine R) (acc : RangeAcc R) (i : Nat) :
    rangeBody F e acc i =
      if F.isFinite acc.lnProbTimes = false then Except.ok none
      else if constraintViolated e.par.presence_absence (e.value i).1 (e.value i).2
          (e.par.taxa i).ageMax (e.par.taxa i).ageMin
          (if e.par.presence_absence = true then e.cache.youngest_intervals i
            else l e.cache.times e.par.num_intervals (e.par.taxa i).ageMin)
          (l e.cache.times e.par.num_intervals (e.value i).2) = true then Except.ok none
      else rangeTerms F e acc i (e.value i).1 (e.value i).2 (e.par.taxa i).ageMax
          (e.par.taxa i).ageMin (l e.cache.times e.par.num_intervals (e.value i).1)
          (l e.cache.times e.par.num_intervals (e.value i).2)
          (if e.par.presence_absence = true then e.cache.oldest_intervals i
            else l e.cache.times e.par.num_intervals (e.par.taxa i).ageMax)
          (if e.par.presence_absence = true then e.cache.youngest_intervals i
            else l e.cache.times e.par.num_intervals (e.par.taxa i).ageMin) := rfl

/-- A range whose start does not exceed its end makes the loop body return negative
infinity. -/
theorem rangeBody_violated (F : FloatOps R) (e : Engine R) (acc : RangeAcc R) (i : Nat)
    (h : (e.value i).1 ≤ (e.value i).2) : rangeBody F e acc i = Except.ok none := by
  rw [rangeBody_eq]
  by_cases hfin : F.isFinite acc.lnProbTimes = false
  · rw [if_pos hfin]
  · rw [if_neg hfin, if_pos (constraintViolated_of_le _ _ _ _ _ _ _ h)]

theorem paMiddle_ok (F : FloatOps R) (P : Params R) (hwf : P.WellFormed)
    (hpa : P.presence_absence = true) (c : IntervalCache R) (i : Nat) (hi : i < P.numTaxa)
    (st : (Nat → R) × Bool) (j : Nat) (hj : j < P.num_intervals) :
    ∃ st1, paMiddle F P c i st j = Except.ok st1 := by
  obtain ⟨count, hc⟩ := getFossilCountAt_ok P hwf hpa j i hj hi
  unfold paMiddle
  rw [hc]
  simp only
  split
  · split
    · exact ⟨_, rfl⟩
    · exact ⟨_, rfl⟩
  · exact ⟨_, rfl⟩

theorem paTerms_ok (F : FloatOps R) (P : Params R) (hwf : P.WellFormed)
    (hpa : P.presence_absence = true) (c : IntervalCache R) (i : Nat) (hi : i < P.numTaxa)
    (b d : R) (bi di : Nat) (hbi : bi < P.num_intervals) (hdi : di < P.num_intervals)
    (L : Nat → R) : ∃ L2, paTerms F P c i b d bi di L = Except.ok L2 := by
  obtain ⟨cb, hcb⟩ := getFossilCountAt_ok P hwf hpa bi i hbi hi
  obtain ⟨cd, hcd⟩ := getFossilCountAt_ok P hwf hpa di i hdi hi
  obtain ⟨td, htd⟩ := getIntervalTime_ok P hwf di hdi
  unfold paTerms
  by_cases hbd : bi = di
  · rw [if_pos hbd, hcb]
    simp only [bind, Except.bind]
    split
    · rw [htd]
      exact ⟨_, rfl⟩
    · exact ⟨_, rfl⟩
  · rw [if_neg hbd, hcb]
    simp only [bind, Except.bind]
    obtain ⟨st2, hst2⟩ := foldlM_except_ok (paMiddle F P c i) (fun j => j < P.num_intervals)
      (fun s x hx => paMiddle_ok F P hwf hpa c i hi s x hx)
      (List.range' (bi + 1) (di - (bi + 1)))
      (fun x hx => by
        have := List.mem_range'_1.mp hx
        omega)
      (if cb > 0 then
        (setAt L bi (L bi +
          (F.log (integrateQ F P c bi b - integrateQ F P c bi (c.times bi))
            + F.log (c.fossil bi))), false)
      else (L, true))
    rw [hst2, hcd]
    simp only
    split
    · split
      · exact ⟨_, rfl⟩
      · exact ⟨_, rfl⟩
    · exact ⟨_, rfl⟩

theorem rangeTerms_ok (F : FloatOps R) (e : Engine R) (hwf : e.par.WellFormed)
    (acc : RangeAcc R) (i : Nat) (hi : i < e.par.numTaxa) (b d o y : R) (bi di oi yi : Nat)
    (hbi : bi < e.par.num_intervals) (hdi : di < e.par.num_intervals) :
    ∃ r, rangeTerms F e acc i b d o y bi di oi yi = Except.ok r := by
  unfold rangeTerms
  by_cases hm : e.par.marginalize_k = true
  · simp only [hm, if_true]
    exact ⟨_, rfl⟩
  · by_cases hpa : e.par.presence_absence = true
    · obtain ⟨L2, hL2⟩ := paTerms_ok F e.par hwf hpa e.cache i hi b d bi di hbi hdi acc.L
      simp only [hm, hpa, if_true, hL2]
      exact ⟨_, rfl⟩
    · simp only [hm, hpa]
      exact ⟨_, rfl⟩

/-- On well-formed parameters, with `times[num_intervals - 1] = 0`, the loop body does
not raise. -/
theorem rangeBody_ok (F : FloatOps R) (e : Engine R) (hwf : e.par.WellFormed)
    (hlast : e.cache.times (e.par.num_intervals - 1) = 0) (acc : RangeAcc R) (i : Nat)
    (hi : i < e.par.numTaxa) : ∃ r, rangeBody F e acc i = Except.ok r := by
  rw [rangeBody_eq]
  by_cases hfin : F.isFinite acc.lnProbTimes = false
  · rw [if_pos hfin]
    exact ⟨_, rfl⟩
  · rw [if_neg hfin]
    by_cases hcv : constraintViolated e.par.presence_absence (e.value i).1 (e.value i).2
          (e.par.taxa i).ageMax (e.par.taxa i).ageMin
          (if e.par.presence_absence = true then e.cache.youngest_intervals i
            else l e.cache.times e.par.num_intervals (e.par.taxa i).ageMin)
          (l e.cache.times e.par.num_intervals (e.value i).2) = true
    · rw [if_pos hcv]
      exact ⟨_, rfl⟩
    · rw [if_neg hcv]
      obtain ⟨hdb, hd0⟩ := constraint_ok_bounds _ _ _ _ _ _ _ hcv
      have hn : 0 < e.par.num_intervals := hwf.1
      exact rangeTerms_ok F e hwf acc i hi _ _ _ _ _ _ _ _
        (l_lt_of_last_le _ _ _ hn (by rw [hlast]; exact le_of_lt (lt_of_le_of_lt hd0 hdb)))
        (l_lt_of_last_le _ _ _ hn (by rw [hlast]; exact hd0))

theorem rangeLoop_neginf (F : FloatOps R) (e : Engine R) (hwf : e.par.WellFormed)
    (hlast : e.cache.times (e.par.num_intervals - 1) = 0) (i : Nat)
    (hbd : (e.value i).1 ≤ (e.value i).2) :
    ∀ (xs : List Nat), (∀ x, x ∈ xs → x < e.par.numTaxa) → i ∈ xs →
      ∀ acc, rangeLoop F e xs acc = Except.ok none := by
  intro xs
  induction xs with
  | nil => intro _ hi; exact absurd hi (List.not_mem_nil i)
  | cons x rest ih =>
    intro hall hi acc
    unfold rangeLoop
    obtain ⟨r, hr⟩ := rangeBody_ok F e hwf hlast acc x (hall x (List.mem_cons_self x rest))
    by_cases hxi : x = i
    · rw [hxi, rangeBody_violated F e acc i hbd]
    · have hir : i ∈ rest := by
        rcases List.mem_cons.mp hi with h1 | h1
        · exact absurd h1.symm hxi
        · exact h1
      rw [hr]
      cases r with
      | none => rfl
      | some acc2 => exact ih (fun y hy => hall y (List.mem_cons_of_mem x hy)) hir acc2

theorem paramsPresence_wellFormed : paramsPresence.WellFormed := by
  refine ⟨by decide, rfl, ?_, ?_, ?_, ?_, ?_⟩
  · intro v hv
    cases hv
  · intro v hv
    cases hv
  · intro v hv
    cases hv
  · constructor
    · intro h
      cases h
    · intro h
      cases h
  · intro _
    refine ⟨[[1, 0], [0, 1]], rfl, rfl, ?_⟩
    intro row hrow
    simp only [List.mem_cons, List.mem_singleton, List.not_mem_nil, or_false] at hrow
    rcases hrow with h | h <;> rw [h] <;> rfl

/-- C4. A range whose start time does not exceed its end time gives zero likelihood: on
well-formed parameters, in the presence/absence regime or not, if some range `i` has
start `b ≤` end `d`, then `computeLnProbability` returns negative infinity, whatever the
other ranges, the parameters and the caches are. -/
theorem computeLnProbability_neginf_of_start_le_end (F : FloatOps R) (e : Engine R)
    (hwf : e.par.WellFormed) (i : Nat) (hi : i < e.par.numTaxa)
    (hbd : (e.value i).1 ≤ (e.value i).2) :
    ∃ e1, computeLnProbability F e = Except.ok (LnProb.neginf, e1) := by
  obtain ⟨c1, hc1⟩ := updateIntervals_succeeds F e.par hwf e.cache
  have hlast := updateIntervals_times_last F e.par e.cache c1 hc1 hwf.1
  have hloop := rangeLoop_neginf F
    { e with cache := c1, gamma := updateGamma e.value e.par.numTaxa false e.gamma }
    hwf hlast i hbd (List.range e.par.numTaxa) (fun x hx => List.mem_range.mp hx)
    (List.mem_range.mpr hi)
  unfold computeLnProbability
  rw [hc1]
  simp only
  rw [hloop]
  exact ⟨_, rfl⟩

/-- Two concrete instances of C4, outside and inside the presence/absence regime: range 1
has start `3` and end `5`. -/
theorem computeLnProbability_neginf_of_start_le_end_witness :
    (∃ e1, computeLnProbability stubOps engineBadRange = Except.ok (LnProb.neginf, e1))
    ∧ (∃ e1, computeLnProbability stubOps enginePresenceBadRange
        = Except.ok (LnProb.neginf, e1)) :=
  ⟨computeLnProbability_neginf_of_start_le_end stubOps engineBadRange
      paramsAscending_wellFormed 1 (by decide) (by decide),
    computeLnProbability_neginf_of_start_le_end stubOps enginePresenceBadRange
      paramsPresence_wellFormed 1 (by decide) (by decide)⟩

end LikelihoodLemmas

/-! ## Dirty flags and count-data shape -/

/-- C14, evaluated at a failing input: with `n = 3` taxa and the touched element
`(1, 0)`, element index `2 * 1 + 0 = 2`, `touchSpecialization` computes
`touched_range = 2 / 3 = 0`: it flags range `0` and leaves `dirty_gamma[1]` false. -/
theorem touchSpecialization_flags_wrong_range :
    (touchSpecialization 3 true [2 * 1 + 0] cleanCache).dirty_gamma 1 = false
    ∧ (touchSpecialization 3 true [2 * 1 + 0] cleanCache).dirty_gamma 0 = true := by
  constructor <;> rfl

/-- C11, evaluated at a failing input: the constructor accepts per-species counts whose
second row has one entry while `num_intervals = 2` (only the first row is compared with
the number of intervals); `getFossilCount(0)` then reads past the end of that row. -/
theorem construct_accepts_ragged_counts :
    ∃ e, construct argsRagged rangesC = Except.ok e
      ∧ e.par.counts = Counts.perSpeciesInterval [[1, 0], [1]]
      ∧ e.par.num_intervals = 2
      ∧ e.par.numTaxa = 2
      ∧ getFossilCount e.par.counts e.par.ascending 0
          = Except.error "undefined: vector read out of range" :=
  ⟨_, rfl, rfl, rfl, rfl, rfl⟩

/-- C16, evaluated at a failing input: presence/absence data whose second row has one
entry pass every check of the constructor, and `computeLnProbability` then raises
"Fossil count index out of bounds" from `getFossilCount(1, 1)` in `updateIntervals`,
whatever the elementary functions are. -/
theorem computeLnProbability_raises_on_ragged_counts :
    ∃ e, construct argsRaggedPresence rangesC = Except.ok e
      ∧ ∀ F : FloatOps ℚ,
          computeLnProbability F e = Except.error "Fossil count index out of bounds" :=
  ⟨_, rfl, fun _ => rfl⟩

/-- C15, evaluated at a failing input: in the presence/absence regime the only range
starts at `5` in the youngest interval (`l(5) = 1`) while its taxon is present in the
older interval `0`, so `oldest_intervals[0] = 0 < l(b)`; the constraint check passes and
`computeLnProbability` returns a finite value instead of negative infinity. -/
theorem computeLnProbability_accepts_impossible_presence :
    ∃ c x e1, updateIntervals stubOps paramsImpossible initialCache = Except.ok c
      ∧ c.oldest_intervals 0 = 0
      ∧ l c.times 2 5 = 1
      ∧ constraintViolated true (5 : ℚ) 0 5 0 (c.youngest_intervals 0) (l c.times 2 0) = false
      ∧ computeLnProbability stubOps engineImpossible = Except.ok (LnProb.finite x, e1) := by
  refine ⟨_, _, _, rfl, ?_, ?_, ?_, rfl⟩
  · decide
  · decide
  · decide


/-! ## The constructor: count data and data regime -/

section CountChecks

variable {R : Type}

/-- What the checks on the observation counts establish when they pass. -/
theorem checkCounts_ok (counts : Counts) (psi : Rate R) (timeline : Option (List R))
    (numTaxa : Nat) (pa mk : Bool)
    (h : checkCounts counts psi timeline numTaxa pa = Except.ok mk) :
    (mk = true ↔ counts = Counts.marginalized)
    ∧ ¬ (mk = true ∧ pa = true)
    ∧ (pa = true → ∃ m, counts = Counts.perSpeciesInterval m)
    ∧ (∀ v, counts = Counts.perInterval v →
        ∃ tl, timeline = some tl ∧ v.length = tl.length + 1)
    ∧ (∀ m, counts = Counts.perSpeciesInterval m →
        ∃ tl front rest, timeline = some tl ∧ m = front :: rest ∧ m.length = numTaxa
          ∧ front.length = tl.length + 1) := by
  unfold checkCounts at h
  cases counts with
  | marginalized =>
    cases pa
    · simp only [Bool.and_false, Bool.false_eq_true, if_false, Except.ok.injEq] at h
      subst h
      simp
    · simp at h
  | total k =>
    cases pa
    · cases psi with
      | homogeneous x =>
        simp only [Bool.and_false, Bool.false_eq_true, if_false, Except.ok.injEq] at h
        subst h
        simp
      | heterogeneous v => simp at h
    · simp at h
  | perInterval v =>
    cases pa
    · cases timeline with
      | none => simp at h
      | some tl =>
        by_cases hl : v.length ≠ tl.length + 1
        · simp [hl] at h
        · simp only [Bool.and_false, Bool.false_eq_true, if_false, hl, Except.ok.injEq] at h
          subst h
          refine ⟨by simp, by simp, by simp, ?_, by simp⟩
          intro w hw
          cases hw
          exact ⟨tl, rfl, not_not.mp hl⟩
    · simp at h
  | perSpeciesInterval m =>
    cases timeline with
    | none => cases pa <;> simp at h
    | some tl =>
      cases m with
      | nil => cases pa <;> simp at h <;> split_ifs at h
      | cons front rest =>
        by_cases hm : rest.length + 1 = numTaxa
        · by_cases hf : front.length = tl.length + 1
          · have hmk : mk = false := by
              cases pa <;> simp [hm, hf] at h <;> exact h
            subst hmk
            refine ⟨by simp, by simp, fun _ => ⟨_, rfl⟩, by simp, ?_⟩
            intro w hw
            cases hw
            exact ⟨tl, front, rest, rfl, rfl, hm, hf⟩
          · cases pa <;> simp [hm, hf] at h
        · cases pa <;> simp [hm] at h

end CountChecks

section ConstructorRegime

variable {R : Type} [LinearOrderedField R]

/-- What a successful construction leaves in the engine. -/
theorem construct_ok_par (a : Args R) (drawn : Nat → R × R) (e : Engine R)
    (h : construct a drawn = Except.ok e) :
    e.par.counts = a.incounts ∧ e.par.presence_absence = a.pa ∧ e.par.numTaxa = a.numTaxa
    ∧ e.par.timeline = a.intimes
    ∧ e.par.num_intervals = (match a.intimes with
        | none => 1
        | some tl => tl.length + 1)
    ∧ checkCounts a.incounts e.par.psi a.intimes a.numTaxa a.pa = Except.ok e.par.marginalize_k
    ∧ e.value = drawn
    ∧ e.gamma = updateGamma drawn a.numTaxa true coldCache := by
  unfold construct at h
  cases h1 : checkRate "Speciation rate must be of type RealPos or RealPos[]"
      "Number of speciation rates (" a.inspeciation a.intimes with
  | error m => rw [h1] at h; cases h
  | ok r1 =>
    cases h2 : checkRate "Extinction rate must be of type RealPos or RealPos[]"
        "Number of extinction rates (" a.inextinction a.intimes with
    | error m => rw [h1, h2] at h; cases h
    | ok r2 =>
      cases h3 : checkRate "Fossilization rate must be of type RealPos or RealPos[]"
          "Number of fossilization rates (" a.inpsi a.intimes with
      | error m => rw [h1, h2, h3] at h; cases h
      | ok r3 =>
        rw [h1, h2, h3] at h
        simp only [bind, Except.bind] at h
        cases h4 : checkCounts a.incounts r3 a.intimes a.numTaxa a.pa with
        | error m => rw [h4] at h; cases h
        | ok mk =>
          rw [h4] at h
          simp only at h
          split at h
          · cases h
          · simp only [pure, Except.pure, Except.ok.injEq] at h
            subst h
            exact ⟨rfl, rfl, rfl, rfl, rfl, h4, rfl, rfl⟩

theorem construct_error_of_counts (a : Args R) (drawn : Nat → R × R) (msg : String)
    (r1 r2 r3 : Rate R)
    (h1 : checkRate "Speciation rate must be of type RealPos or RealPos[]"
      "Number of speciation rates (" a.inspeciation a.intimes = Except.ok r1)
    (h2 : checkRate "Extinction rate must be of type RealPos or RealPos[]"
      "Number of extinction rates (" a.inextinction a.intimes = Except.ok r2)
    (h3 : checkRate "Fossilization rate must be of type RealPos or RealPos[]"
      "Number of fossilization rates (" a.inpsi a.intimes = Except.ok r3)
    (h : checkCounts a.incounts r3 a.intimes a.numTaxa a.pa = Except.error msg) :
    construct a drawn = Except.error msg := by
  unfold construct
  rw [h1, h2, h3]
  simp only [bind, Except.bind]
  rw [h]

/-- The flags of a constructed engine: `marginalize_k` tells whether no counts were
supplied, it excludes `presence_absence`, and presence/absence data are per species and
interval. -/
theorem construct_ok_regime (a : Args R) (drawn : Nat → R × R) (e : Engine R)
    (h : construct a drawn = Except.ok e) :
    (e.par.marginalize_k = true ↔ e.par.counts = Counts.marginalized)
    ∧ ¬ (e.par.marginalize_k = true ∧ e.par.presence_absence = true)
    ∧ (e.par.presence_absence = true → ∃ m, e.par.counts = Counts.perSpeciesInterval m) := by
  obtain ⟨hc, hpa, _, _, _, hck, _⟩ := construct_ok_par a drawn e h
  obtain ⟨k1, k2, k3, _⟩ := checkCounts_ok _ _ _ _ _ _ hck
  rw [hc, hpa]
  exact ⟨k1, k2, k3⟩

/-- C12. Data-regime resolution. The constructor fails when presence/absence is
requested with no count data (with "Cannot marginalize fossil presence absence data"
once the rate checks pass) and when it is requested with counts that are not per species
and interval (with "Presence absence data must be provided by species and interval");
after a successful construction `marginalize_k` and `presence_absence` are never both
true, and exactly one of the regimes marginalized (`marginalize_k`), presence/absence
(`presence_absence`) and exact counts (neither flag, counts supplied) is active. -/
theorem construct_data_regime (a : Args R) (drawn : Nat → R × R) :
    (a.pa = true → a.incounts = Counts.marginalized →
      (∃ msg, construct a drawn = Except.error msg)
      ∧ (∀ r1 r2 r3,
          checkRate "Speciation rate must be of type RealPos or RealPos[]"
            "Number of speciation rates (" a.inspeciation a.intimes = Except.ok r1 →
          checkRate "Extinction rate must be of type RealPos or RealPos[]"
            "Number of extinction rates (" a.inextinction a.intimes = Except.ok r2 →
          checkRate "Fossilization rate must be of type RealPos or RealPos[]"
            "Number of fossilization rates (" a.inpsi a.intimes = Except.ok r3 →
          construct a drawn
            = Except.error "Cannot marginalize fossil presence absence data"))
    ∧ (a.pa = true → (∀ m, a.incounts ≠ Counts.perSpeciesInterval m) →
      (∃ msg, construct a drawn = Except.error msg)
      ∧ (a.incounts ≠ Counts.marginalized → ∀ r1 r2 r3,
          checkRate "Speciation rate must be of type RealPos or RealPos[]"
            "Number of speciation rates (" a.inspeciation a.intimes = Except.ok r1 →
          checkRate "Extinction rate must be of type RealPos or RealPos[]"
            "Number of extinction rates (" a.inextinction a.intimes = Except.ok r2 →
          checkRate "Fossilization rate must be of type RealPos or RealPos[]"
            "Number of fossilization rates (" a.inpsi a.intimes = Except.ok r3 →
          construct a drawn
            = Except.error "Presence absence data must be provided by species and interval"))
    ∧ (∀ e, construct a drawn = Except.ok e →
        ¬ (e.par.marginalize_k = true ∧ e.par.presence_absence = true)
        ∧ (e.par.marginalize_k = true ↔ e.par.counts = Counts.marginalized)
        ∧ (e.par.presence_absence = true → ∃ m, e.par.counts = Counts.perSpeciesInterval m)
        ∧ ((e.par.marginalize_k = true ∧ e.par.presence_absence = false)
          ∨ (e.par.marginalize_k = false ∧ e.par.presence_absence = true)
          ∨ (e.par.marginalize_k = false ∧ e.par.presence_absence = false
              ∧ e.par.counts ≠ Counts.marginalized))) := by
  have hfail : ∀ (P : Engine R → Prop), (∀ e, construct a drawn = Except.ok e → ¬ P e) →
      (∀ e, construct a drawn = Except.ok e → P e) →
      ∃ msg, construct a drawn = Except.error msg := by
    intro P hno hyes
    cases hc : construct a drawn with
    | error msg => exact ⟨msg, rfl⟩
    | ok e => exact absurd (hyes e hc) (hno e hc)
  refine ⟨?_, ?_, ?_⟩
  · intro hpa hm
    constructor
    · apply hfail (fun e => e.par.marginalize_k = true ∧ e.par.presence_absence = true)
      · intro e he
        exact (construct_ok_regime a drawn e he).2.1
      · intro e he
        obtain ⟨hc, hp, _⟩ := construct_ok_par a drawn e he
        refine ⟨?_, by rw [hp, hpa]⟩
        rw [(construct_ok_regime a drawn e he).1, hc, hm]
    · intro r1 r2 r3 h1 h2 h3
      apply construct_error_of_counts a drawn _ r1 r2 r3 h1 h2 h3
      rw [hm, hpa]
      rfl
  · intro hpa hns
    constructor
    · apply hfail (fun e => ∃ m, e.par.counts = Counts.perSpeciesInterval m)
      · intro e he hex
        obtain ⟨hc, _⟩ := construct_ok_par a drawn e he
        obtain ⟨m, hm⟩ := hex
        rw [hc] at hm
        exact hns m hm
      · intro e he
        obtain ⟨_, hp, _⟩ := construct_ok_par a drawn e he
        exact (construct_ok_regime a drawn e he).2.2 (by rw [hp, hpa])
    · intro hnm r1 r2 r3 h1 h2 h3
      apply construct_error_of_counts a drawn _ r1 r2 r3 h1 h2 h3
      rw [hpa]
      cases hc : a.incounts with
      | marginalized => exact absurd hc hnm
      | total k => rfl
      | perInterval v => rfl
      | perSpeciesInterval m => exact absurd hc (hns m)
  · intro e he
    obtain ⟨k1, k2, k3⟩ := construct_ok_regime a drawn e he
    refine ⟨k2, k1, k3, ?_⟩
    cases hmk : e.par.marginalize_k <;> cases hp : e.par.presence_absence
    · refine Or.inr (Or.inr ⟨rfl, rfl, ?_⟩)
      intro hcm
      have := k1.mpr hcm
      rw [hmk] at this
      cases this
    · exact Or.inr (Or.inl ⟨rfl, rfl⟩)
    · exact Or.inl ⟨rfl, rfl⟩
    · exact absurd ⟨hmk, hp⟩ k2


/-- Two instances of C12: presence/absence requested without counts, and with counts per
interval. -/
theorem construct_data_regime_witness :
    construct argsPresenceNoCounts rangesC
      = Except.error "Cannot marginalize fossil presence absence data"
    ∧ construct argsPresencePerInterval rangesC
      = Except.error "Presence absence data must be provided by species and interval" :=
  ⟨((construct_data_regime argsPresenceNoCounts rangesC).1 rfl rfl).2 _ _ _ rfl rfl rfl,
    ((construct_data_regime argsPresencePerInterval rangesC).2.1 rfl
      (fun m h => by cases h)).2 (fun h => by cases h) _ _ _ rfl rfl rfl⟩


end ConstructorRegime


/-! ## The overlap cache across evaluations -/

section OverlapRoundTrip

variable {R : Type} [LinearOrder R]

/-- One pass of the inner loop body in incremental mode changes nothing when both cells
of the pair already hold the link predicate. -/
theorem updateGammaPair_id (value : Nat → R × R) (i j : Nat) (c : GammaCache)
    (h1 : c.gamma_links i j = link value i j) (h2 : c.gamma_links j i = link value j i) :
    updateGammaPair value false i c j = c := by
  by_cases hij : i = j
  · unfold updateGammaPair
    simp [hij]
  · apply GammaCache.eq_of_fields
    · funext k
      rw [updateGammaPair_gamma_incr value i j c k hij, h1, h2]
      by_cases hkj : k = j
      · simp [hkj]
      · by_cases hki : k = i
        · simp [hki, hij]
        · simp [hkj, hki]
    · funext a b
      rw [updateGammaPair_links]
      by_cases hc : i ≠ j ∧ ((a = i ∧ b = j) ∨ (a = j ∧ b = i))
      · rw [if_pos hc]
        rcases hc.2 with ⟨ha, hb⟩ | ⟨ha, hb⟩
        · rw [ha, hb, h1]
        · rw [ha, hb, h2]
      · rw [if_neg hc]
    · exact updateGammaPair_dirty value false i j c

theorem foldPair_id (value : Nat → R × R) (i m : Nat) (c : GammaCache)
    (h : ∀ j, j < m → j ≠ i →
      c.gamma_links i j = link value i j ∧ c.gamma_links j i = link value j i) :
    (List.range m).foldl (updateGammaPair value false i) c = c := by
  induction m with
  | zero => rfl
  | succ k ih =>
    rw [foldl_range_succ, ih (fun j hj hne => h j (by omega) hne)]
    by_cases hki : k = i
    · unfold updateGammaPair
      simp [hki]
    · exact updateGammaPair_id value i k c (h k (by omega) hki).1 (h k (by omega) hki).2

theorem updateGammaRow_id (value : Nat → R × R) (n i : Nat) (c : GammaCache)
    (h : c.dirty_gamma i = true → ∀ j, j < n → j ≠ i →
      c.gamma_links i j = link value i j ∧ c.gamma_links j i = link value j i) :
    updateGammaRow value n false c i = c := by
  unfold updateGammaRow
  by_cases hd : c.dirty_gamma i = true
  · simp only [hd, Bool.or_false, if_true]
    exact foldPair_id value i n c (h hd)
  · simp [hd]

theorem foldRow_id (value : Nat → R × R) (n m : Nat) (c : GammaCache)
    (h : ∀ i, i < m → c.dirty_gamma i = true → ∀ j, j < n → j ≠ i →
      c.gamma_links i j = link value i j ∧ c.gamma_links j i = link value j i) :
    (List.range m).foldl (updateGammaRow value n false) c = c := by
  induction m with
  | zero => rfl
  | succ k ih =>
    rw [foldl_range_succ, ih (fun i hi => h i (by omega))]
    exact updateGammaRow_id value n k c (h k (by omega))

/-- A second `updateGamma(false)` on the same ranges and dirty flags changes nothing,
whatever the cache held before the first. -/
theorem updateGamma_incr_idem (value : Nat → R × R) (n : Nat) (c : GammaCache) :
    updateGamma value n false (updateGamma value n false c) = updateGamma value n false c := by
  apply foldRow_id
  intro i hi hd j hj hne
  rw [updateGamma_dirty] at hd
  constructor
  · rw [updateGamma_links, if_pos ⟨fun e => hne e.symm, hi, hj, by simp [hd]⟩]
  · rw [updateGamma_links, if_pos ⟨hne, hj, hi, by simp [hd]⟩]

/-! ### Counts outside the ranges are not written -/

theorem updateGammaPair_gamma_frame (value : Nat → R × R) (i j : Nat) (c : GammaCache)
    (k : Nat) (hki : k ≠ i) (hkj : k ≠ j) :
    (updateGammaPair value false i c j).gamma_i k = c.gamma_i k := by
  by_cases hij : i = j
  · unfold updateGammaPair
    simp [hij]
  · rw [updateGammaPair_gamma_incr value i j c k hij, if_neg hkj, if_neg hki]

theorem foldPair_gamma_frame (value : Nat → R × R) (n i m : Nat) (c : GammaCache) (k : Nat)
    (hk : n ≤ k) (hi : i < n) (hm : m ≤ n) :
    ((List.range m).foldl (updateGammaPair value false i) c).gamma_i k = c.gamma_i k := by
  induction m with
  | zero => rfl
  | succ j ih =>
    rw [foldl_range_succ, updateGammaPair_gamma_frame value i j _ k (by omega) (by omega),
      ih (by omega)]

theorem updateGammaRow_gamma_frame (value : Nat → R × R) (n i : Nat) (c : GammaCache) (k : Nat)
    (hk : n ≤ k) (hi : i < n) :
    (updateGammaRow value n false c i).gamma_i k = c.gamma_i k := by
  unfold updateGammaRow
  by_cases hd : c.dirty_gamma i = true
  · simp only [hd, Bool.or_false, if_true]
    exact foldPair_gamma_frame value n i n c k hk hi (le_refl n)
  · simp [hd]

theorem foldRow_gamma_frame (value : Nat → R × R) (n m : Nat) (c : GammaCache) (k : Nat)
    (hk : n ≤ k) (hm : m ≤ n) :
    ((List.range m).foldl (updateGammaRow value n false) c).gamma_i k = c.gamma_i k := by
  induction m with
  | zero => rfl
  | succ i ih =>
    rw [foldl_range_succ, updateGammaRow_gamma_frame value n i _ k hk (by omega), ih (by omega)]

theorem updateGamma_incr_gamma_frame (value : Nat → R × R) (n : Nat) (c : GammaCache) (k : Nat)
    (hk : n ≤ k) : (updateGamma value n false c).gamma_i k = c.gamma_i k :=
  foldRow_gamma_frame value n n c k hk (le_refl n)

/-- On a cache consistent with the old ranges `V0`, whose dirty flags cover the ranges
that differ in `V1`, `updateGamma(false)` on `V1` yields a cache consistent with `V1`. -/
theorem updateGamma_incr_consistent (V0 V1 : Nat → R × R) (n : Nat) (c : GammaCache)
    (hn : n < sizeMod)
    (hlinks : ∀ i j, i < n → j < n → i ≠ j → c.gamma_links i j = link V0 i j)
    (hcount : CountsMatch n c)
    (hdirty : ∀ i, i < n → V0 i ≠ V1 i → c.dirty_gamma i = true) :
    (∀ i j, i < n → j < n → i ≠ j → (updateGamma V1 n false c).gamma_links i j = link V1 i j)
    ∧ CountsMatch n (updateGamma V1 n false c) := by
  refine ⟨?_, updateGamma_incr_countsMatch V1 n c hn hcount⟩
  intro i j hi hj hne
  rw [updateGamma_links]
  by_cases hd : (false || c.dirty_gamma i || c.dirty_gamma j) = true
  · rw [if_pos ⟨hne, hi, hj, hd⟩]
  · rw [if_neg (fun h => hd h.2.2.2), hlinks i j hi hj hne]
    simp only [Bool.false_or, Bool.or_eq_true, not_or, Bool.not_eq_true] at hd
    have hi0 : V0 i = V1 i := by
      by_contra hne2
      have := hdirty i hi hne2
      rw [hd.1] at this
      exact Bool.false_ne_true this
    have hj0 : V0 j = V1 j := by
      by_contra hne2
      have := hdirty j hj hne2
      rw [hd.2] at this
      exact Bool.false_ne_true this
    unfold link
    rw [hi0, hj0]

/-- The overlap part of a rejected proposal: flag `k`, move range `k`, update, put the
range back, restore, update. Counts and links return to the values before the
proposal. -/
theorem gamma_round_trip (V0 : Nat → R × R) (n : Nat) (c : GammaCache) (k : Nat)
    (new : R × R) (hn : n < sizeMod)
    (hlinks : ∀ i j, i < n → j < n → i ≠ j → c.gamma_links i j = link V0 i j)
    (hcount : CountsMatch n c) :
    (updateGamma V0 n false (restoreSpecialization
        (updateGamma (setAt V0 k new) n false
          { c with dirty_gamma := setAt c.dirty_gamma k true }))).gamma_i = c.gamma_i
    ∧ (updateGamma V0 n false (restoreSpecialization
        (updateGamma (setAt V0 k new) n false
          { c with dirty_gamma := setAt c.dirty_gamma k true }))).gamma_links
        = c.gamma_links := by
  have hdk : ∀ i, setAt c.dirty_gamma k true i = true ∨ i ≠ k := by
    intro i
    by_cases hik : i = k
    · left; simp [setAt, hik]
    · right; exact hik
  have hV : ∀ i, i ≠ k → setAt V0 k new i = V0 i := by
    intro i hik
    simp [setAt, hik]
  obtain ⟨hl1, hc1⟩ := updateGamma_incr_consistent V0 (setAt V0 k new) n
    { c with dirty_gamma := setAt c.dirty_gamma k true } hn hlinks hcount
    (by
      intro i _ hne
      rcases hdk i with h | h
      · exact h
      · exact absurd (hV i h).symm hne)
  obtain ⟨hl2, hc2⟩ := updateGamma_incr_consistent (setAt V0 k new) V0 n
    (updateGamma (setAt V0 k new) n false { c with dirty_gamma := setAt c.dirty_gamma k true })
    hn hl1 hc1
    (by
      intro i _ hne
      rw [updateGamma_dirty]
      rcases hdk i with h | h
      · exact h
      · exact absurd (hV i h) hne)
  unfold restoreSpecialization
  have hlinksEq : (updateGamma V0 n false
      (updateGamma (setAt V0 k new) n false
        { c with dirty_gamma := setAt c.dirty_gamma k true })).gamma_links = c.gamma_links := by
    funext a b
    by_cases hab : a ≠ b ∧ a < n ∧ b < n
    · rw [hl2 a b hab.2.1 hab.2.2 hab.1, hlinks a b hab.2.1 hab.2.2 hab.1]
    · rw [updateGamma_links, if_neg (fun h => hab ⟨h.1, h.2.1, h.2.2.1⟩), updateGamma_links,
        if_neg (fun h => hab ⟨h.1, h.2.1, h.2.2.1⟩)]
  refine ⟨?_, hlinksEq⟩
  funext i
  by_cases hi : i < n
  · rw [hc2 i hi, hcount i hi, hlinksEq]
  · rw [updateGamma_incr_gamma_frame _ _ _ _ (by omega),
      updateGamma_incr_gamma_frame _ _ _ _ (by omega)]

end OverlapRoundTrip


/-! ## Repeated evaluation: `updateIntervals` -/

section IntervalIdempotence

variable {R : Type}

theorem PointSim.setAt_both {α : Type} (fc fa fb : Nat → α) (h : PointSim fc fa fb) (i : Nat)
    (v : α) : PointSim fc (setAt fa i v) (setAt fb i v) := by
  intro k
  unfold setAt
  by_cases hk : k = i
  · left
    rw [if_pos hk, if_pos hk]
  · rw [if_neg hk, if_neg hk]
    exact h k

theorem intervalCache_eq_of_fields (a b : IntervalCache R) (h1 : a.birth = b.birth)
    (h2 : a.death = b.death) (h3 : a.fossil = b.fossil) (h4 : a.times = b.times)
    (h5 : a.q_i = b.q_i) (h6 : a.q_tilde_i = b.q_tilde_i) (h7 : a.p_i = b.p_i)
    (h8 : a.oldest_intervals = b.oldest_intervals)
    (h9 : a.youngest_intervals = b.youngest_intervals) : a = b := by
  cases a
  cases b
  simp only at h1 h2 h3 h4 h5 h6 h7 h8 h9
  subst h1 h2 h3 h4 h5 h6 h7 h8 h9
  rfl

/-- The presence/absence pass for one species keeps the relation between two runs, and
the second run returns when the first does. -/
theorem markOccurrence_sim (P : Params R) (i : Nat) (c : IntervalCache R) (m : Nat)
    (A B A1 : IntervalCache R × (Nat → Bool)) (j : Nat) (hs : IntervalSim c m A B)
    (h : markOccurrence P i A j = Except.ok A1) :
    ∃ B1, markOccurrence P i B j = Except.ok B1 ∧ IntervalSim c m A1 B1 := by
  unfold markOccurrence at h ⊢
  cases hc : getFossilCountAt P.counts P.ascending i j with
  | error msg => rw [hc] at h; cases h
  | ok count =>
    rw [hc] at h
    simp only at h ⊢
    by_cases hpos : count > 0
    · rw [if_pos hpos] at h
      rw [if_pos hpos]
      by_cases hfl : A.2 j = true
      · have hflB : B.2 j = true := by rw [← hs.flags]; exact hfl
        rw [if_pos hfl] at h
        rw [if_pos hflB]
        cases h
        refine ⟨_, rfl, ?_⟩
        exact
          { flags := by simp only; rw [hs.flags]
            pRead := hs.pRead, birth := hs.birth, death := hs.death, fossil := hs.fossil
            times := hs.times, q_i := hs.q_i, q_tilde_i := hs.q_tilde_i, p_i := hs.p_i
            oldest := PointSim.setAt_both _ _ _ hs.oldest j i
            youngest := PointSim.setAt_both _ _ _ hs.youngest j i }
      · have hflB : ¬ B.2 j = true := by rw [← hs.flags]; exact hfl
        rw [if_neg hfl] at h
        rw [if_neg hflB]
        cases h
        refine ⟨_, rfl, ?_⟩
        exact
          { flags := hs.flags
            pRead := hs.pRead, birth := hs.birth, death := hs.death, fossil := hs.fossil
            times := hs.times, q_i := hs.q_i, q_tilde_i := hs.q_tilde_i, p_i := hs.p_i
            oldest := PointSim.setAt_both _ _ _ hs.oldest j i
            youngest := hs.youngest }
    · rw [if_neg hpos] at h
      rw [if_neg hpos]
      cases h
      exact ⟨_, rfl, hs⟩

/-- A loop whose body keeps a relation between two runs, the second run returning when
the first does, keeps the relation. -/
theorem foldlM_except_sim {σ α : Type} (f : σ → α → Except String σ) (Sim : σ → σ → Prop)
    (hstep : ∀ a b a1 x, Sim a b → f a x = Except.ok a1 →
      ∃ b1, f b x = Except.ok b1 ∧ Sim a1 b1) :
    ∀ (xs : List α) (a b a1 : σ), Sim a b → List.foldlM f a xs = Except.ok a1 →
      ∃ b1, List.foldlM f b xs = Except.ok b1 ∧ Sim a1 b1 := by
  intro xs
  induction xs with
  | nil =>
    intro a b a1 hs h
    rw [foldlM_except_nil] at h
    cases h
    exact ⟨b, rfl, hs⟩
  | cons x xs ih =>
    intro a b a1 hs h
    rw [foldlM_except_cons] at h
    cases hx : f a x with
    | error msg => rw [hx] at h; cases h
    | ok a2 =>
      rw [hx] at h
      obtain ⟨b2, hb2, hs2⟩ := hstep a b a2 x hs hx
      rw [foldlM_except_cons, hb2]
      exact ih a2 b2 a1 hs2 h

theorem markOccurrence_fold_sim (P : Params R) (i : Nat) (c : IntervalCache R) (m : Nat)
    (xs : List Nat) (A B A1 : IntervalCache R × (Nat → Bool)) (hs : IntervalSim c m A B)
    (h : List.foldlM (markOccurrence P i) A xs = Except.ok A1) :
    ∃ B1, List.foldlM (markOccurrence P i) B xs = Except.ok B1 ∧ IntervalSim c m A1 B1 :=
  foldlM_except_sim (markOccurrence P i) (IntervalSim c m)
    (fun a b a1 x hab ha => markOccurrence_sim P i c m a b a1 x hab ha) xs A B A1 hs h


theorem markOccurrence_p_i (P : Params R) (i : Nat) (st st1 : IntervalCache R × (Nat → Bool))
    (j : Nat) (h : markOccurrence P i st j = Except.ok st1) : st1.1.p_i = st.1.p_i := by
  unfold markOccurrence at h
  cases hc : getFossilCountAt P.counts P.ascending i j with
  | error msg => rw [hc] at h; cases h
  | ok count =>
    rw [hc] at h
    simp only at h
    split at h
    · split at h <;> (cases h; rfl)
    · cases h; rfl

theorem markOccurrence_fold_p_i (P : Params R) (i : Nat) (xs : List Nat)
    (st st1 : IntervalCache R × (Nat → Bool))
    (h : List.foldlM (markOccurrence P i) st xs = Except.ok st1) : st1.1.p_i = st.1.p_i :=
  foldlM_except_rel (markOccurrence P i) (fun a b => b.1.p_i = a.1.p_i) (fun _ => rfl)
    (fun _ _ _ hab hbc => hbc.trans hab)
    (fun s x s1 hs => markOccurrence_p_i P i s s1 x hs) xs st st1 h

/-- Writing the same values at index `i` in both runs keeps the relation and moves the
bound down to `i`. -/
theorem IntervalSim.write (c : IntervalCache R) (i : Nat)
    (A B : IntervalCache R × (Nat → Bool)) (hs : IntervalSim c (i + 1) A B)
    (b d f ti qi qt pv : R) :
    IntervalSim c i
      ({ A.1 with birth := setAt A.1.birth i b, death := setAt A.1.death i d,
                  fossil := setAt A.1.fossil i f, times := setAt A.1.times i ti,
                  q_i := setAt A.1.q_i i qi, q_tilde_i := setAt A.1.q_tilde_i i qt,
                  p_i := setAt A.1.p_i i pv }, A.2)
      ({ B.1 with birth := setAt B.1.birth i b, death := setAt B.1.death i d,
                  fossil := setAt B.1.fossil i f, times := setAt B.1.times i ti,
                  q_i := setAt B.1.q_i i qi, q_tilde_i := setAt B.1.q_tilde_i i qt,
                  p_i := setAt B.1.p_i i pv }, B.2) :=
  { flags := hs.flags
    pRead := by
      intro k hk hk1
      simp only [setAt]
      by_cases hki : k = i
      · rw [if_pos hki, if_pos hki]
      · rw [if_neg hki, if_neg hki]
        exact hs.pRead k (by omega) hk1
    birth := PointSim.setAt_both _ _ _ hs.birth i b
    death := PointSim.setAt_both _ _ _ hs.death i d
    fossil := PointSim.setAt_both _ _ _ hs.fossil i f
    times := PointSim.setAt_both _ _ _ hs.times i ti
    q_i := PointSim.setAt_both _ _ _ hs.q_i i qi
    q_tilde_i := PointSim.setAt_both _ _ _ hs.q_tilde_i i qt
    p_i := PointSim.setAt_both _ _ _ hs.p_i i pv
    oldest := hs.oldest
    youngest := hs.youngest }

/-- At index `0` only the rates and the interval time are written. -/
theorem IntervalSim.writeRates (c : IntervalCache R)
    (A B : IntervalCache R × (Nat → Bool)) (hs : IntervalSim c (0 + 1) A B)
    (b d f ti : R) :
    IntervalSim c 0
      ({ A.1 with birth := setAt A.1.birth 0 b, death := setAt A.1.death 0 d,
                  fossil := setAt A.1.fossil 0 f, times := setAt A.1.times 0 ti }, A.2)
      ({ B.1 with birth := setAt B.1.birth 0 b, death := setAt B.1.death 0 d,
                  fossil := setAt B.1.fossil 0 f, times := setAt B.1.times 0 ti }, B.2) :=
  { flags := hs.flags
    pRead := fun k _ hk1 => hs.pRead k (by omega) hk1
    birth := PointSim.setAt_both _ _ _ hs.birth 0 b
    death := PointSim.setAt_both _ _ _ hs.death 0 d
    fossil := PointSim.setAt_both _ _ _ hs.fossil 0 f
    times := PointSim.setAt_both _ _ _ hs.times 0 ti
    q_i := hs.q_i
    q_tilde_i := hs.q_tilde_i
    p_i := hs.p_i
    oldest := hs.oldest
    youngest := hs.youngest }

end IntervalIdempotence

section IntervalIdempotenceField

variable {R : Type} [LinearOrderedField R]

/-- One pass of the body of `updateIntervals` for interval `i` keeps the relation
between two runs, and the second run returns when the first does. -/
theorem updateIntervalsStep_sim (F : FloatOps R) (P : Params R) (c : IntervalCache R) (i : Nat)
    (A B A1 : IntervalCache R × (Nat → Bool)) (hs : IntervalSim c (i + 1) A B)
    (h : updateIntervalsStep F P A i = Except.ok A1) :
    ∃ B1, updateIntervalsStep F P B i = Except.ok B1 ∧ IntervalSim c i A1 B1 := by
  unfold updateIntervalsStep at h ⊢
  cases hb : getSpeciationRate P.ascending P.lambda i with
  | error msg => rw [hb] at h; cases h
  | ok b =>
  cases hd : getExtinctionRate P.ascending P.mu i with
  | error msg => rw [hb, hd] at h; cases h
  | ok d =>
  cases hf : getFossilizationRate P.ascending P.psi i with
  | error msg => rw [hb, hd, hf] at h; cases h
  | ok f =>
  cases ht : getIntervalTime P.num_intervals P.timeline P.ascending i with
  | error msg => rw [hb, hd, hf, ht] at h; cases h
  | ok ti =>
    rw [hb, hd, hf, ht] at h
    simp only [bind, Except.bind] at h ⊢
    have hp : B.1.p_i (i + 1) = A.1.p_i (i + 1) :=
      (hs.pRead (i + 1) (le_refl _) (by omega)).symm
    by_cases hi : i > 0
    · simp only [hi, if_true] at h ⊢
      cases ht1 : getIntervalTime P.num_intervals P.timeline P.ascending (i - 1) with
      | error msg => rw [ht1] at h; cases h
      | ok t1 =>
        rw [ht1] at h
        simp only [pure, Except.pure] at h ⊢
        rw [hp]
        by_cases hpa : P.presence_absence = true
        · simp only [hpa, if_true] at h ⊢
          exact markOccurrence_fold_sim P i c i _ _ _ _
            (IntervalSim.write c i A B hs b d f ti _ _ _) h
        · simp only [hpa] at h ⊢
          cases h
          exact ⟨_, rfl, IntervalSim.write c i A B hs b d f ti _ _ _⟩
    · have hi0 : i = 0 := by omega
      subst hi0
      simp only [hi, if_false, pure, Except.pure] at h ⊢
      by_cases hpa : P.presence_absence = true
      · simp only [hpa, if_true] at h ⊢
        exact markOccurrence_fold_sim P 0 c 0 _ _ _ _
          (IntervalSim.writeRates c A B hs b d f ti) h
      · simp only [hpa] at h ⊢
        cases h
        exact ⟨_, rfl, IntervalSim.writeRates c A B hs b d f ti⟩

theorem range_succ_reverse (m : Nat) :
    (List.range (m + 1)).reverse = m :: (List.range m).reverse := by
  rw [List.range_succ, List.reverse_append, List.reverse_singleton, List.singleton_append]

/-- The loop of `updateIntervals` from index `m - 1` down to `0` keeps the relation
between two runs, and the second run returns when the first does. -/
theorem updateIntervals_fold_sim (F : FloatOps R) (P : Params R) (c : IntervalCache R) :
    ∀ (m : Nat) (A B A1 : IntervalCache R × (Nat → Bool)), IntervalSim c m A B →
      List.foldlM (updateIntervalsStep F P) A (List.range m).reverse = Except.ok A1 →
      ∃ B1, List.foldlM (updateIntervalsStep F P) B (List.range m).reverse = Except.ok B1
        ∧ IntervalSim c 0 A1 B1 := by
  intro m
  induction m with
  | zero =>
    intro A B A1 hs h
    rw [List.range_zero, List.reverse_nil, foldlM_except_nil] at h
    cases h
    exact ⟨B, rfl, hs⟩
  | succ m ih =>
    intro A B A1 hs h
    rw [range_succ_reverse, foldlM_except_cons] at h
    cases hx : updateIntervalsStep F P A m with
    | error msg => rw [hx] at h; cases h
    | ok A2 =>
      rw [hx] at h
      obtain ⟨B2, hB2, hs2⟩ := updateIntervalsStep_sim F P c m A B A2 hs hx
      rw [range_succ_reverse, foldlM_except_cons, hB2]
      exact ih A2 B2 A1 hs2 h

/-- A pass of the body of `updateIntervals` for interval `i` writes `p_i` at most at
index `i`. -/
theorem updateIntervalsStep_p_frame (F : FloatOps R) (P : Params R)
    (st st1 : IntervalCache R × (Nat → Bool)) (i : Nat)
    (h : updateIntervalsStep F P st i = Except.ok st1) (k : Nat) (hk : k ≠ i) :
    st1.1.p_i k = st.1.p_i k := by
  unfold updateIntervalsStep at h
  cases hb : getSpeciationRate P.ascending P.lambda i with
  | error msg => rw [hb] at h; cases h
  | ok b =>
  cases hd : getExtinctionRate P.ascending P.mu i with
  | error msg => rw [hb, hd] at h; cases h
  | ok d =>
  cases hf : getFossilizationRate P.ascending P.psi i with
  | error msg => rw [hb, hd, hf] at h; cases h
  | ok f =>
  cases ht : getIntervalTime P.num_intervals P.timeline P.ascending i with
  | error msg => rw [hb, hd, hf, ht] at h; cases h
  | ok ti =>
    rw [hb, hd, hf, ht] at h
    simp only [bind, Except.bind] at h
    by_cases hi : i > 0
    · simp only [hi, if_true] at h
      cases ht1 : getIntervalTime P.num_intervals P.timeline P.ascending (i - 1) with
      | error msg => rw [ht1] at h; cases h
      | ok t1 =>
        rw [ht1] at h
        simp only [pure, Except.pure] at h
        by_cases hpa : P.presence_absence = true
        · simp only [hpa, if_true] at h
          rw [markOccurrence_fold_p_i P i _ _ _ h]
          simp [setAt, hk]
        · simp only [hpa] at h
          cases h
          simp [setAt, hk]
    · simp only [hi, if_false, pure, Except.pure] at h
      by_cases hpa : P.presence_absence = true
      · simp only [hpa, if_true] at h
        rw [markOccurrence_fold_p_i P i _ _ _ h]
      · simp only [hpa] at h
        cases h
        rfl

theorem updateIntervals_fold_p_frame (F : FloatOps R) (P : Params R) :
    ∀ (xs : List Nat) (st st1 : IntervalCache R × (Nat → Bool)),
      List.foldlM (updateIntervalsStep F P) st xs = Except.ok st1 →
      ∀ k, k ∉ xs → st1.1.p_i k = st.1.p_i k := by
  intro xs
  induction xs with
  | nil =>
    intro st st1 h k _
    rw [foldlM_except_nil] at h
    cases h
    rfl
  | cons i rest ih =>
    intro st st1 h k hk
    rw [foldlM_except_cons] at h
    cases hs : updateIntervalsStep F P st i with
    | error msg => rw [hs] at h; cases h
    | ok st2 =>
      rw [hs] at h
      rw [ih st2 st1 h k (fun hm => hk (List.mem_cons_of_mem i hm))]
      exact updateIntervalsStep_p_frame F P st st2 i hs k
        (fun e => hk (by rw [e]; exact List.mem_cons_self i rest))

/-- A second `updateIntervals` on the cache the first one returned returns that cache
again. -/
theorem updateIntervals_idem (F : FloatOps R) (P : Params R) (c r : IntervalCache R)
    (h : updateIntervals F P c = Except.ok r) : updateIntervals F P r = Except.ok r := by
  unfold updateIntervals at h ⊢
  cases hf : List.foldlM (updateIntervalsStep F P) (c, fun _ => true)
      (List.range P.num_intervals).reverse with
  | error msg => rw [hf] at h; cases h
  | ok stA =>
    rw [hf] at h
    simp only [Except.ok.injEq] at h
    have hframe : ∀ k, P.num_intervals ≤ k → r.p_i k = c.p_i k := by
      intro k hk
      rw [← h]
      exact updateIntervals_fold_p_frame F P _ _ _ hf k
        (fun hm => by
          have := List.mem_range.mp (List.mem_reverse.mp hm)
          omega)
    have hs0 : IntervalSim r P.num_intervals (c, fun _ => true) (r, fun _ => true) :=
      { flags := rfl
        pRead := fun k hk _ => (hframe k hk).symm
        birth := fun _ => Or.inr rfl
        death := fun _ => Or.inr rfl
        fossil := fun _ => Or.inr rfl
        times := fun _ => Or.inr rfl
        q_i := fun _ => Or.inr rfl
        q_tilde_i := fun _ => Or.inr rfl
        p_i := fun _ => Or.inr rfl
        oldest := fun _ => Or.inr rfl
        youngest := fun _ => Or.inr rfl }
    obtain ⟨stB, hB, hsB⟩ := updateIntervals_fold_sim F P r P.num_intervals _ _ stA hs0 hf
    rw [hB]
    simp only [Except.ok.injEq]
    have hpt : ∀ {α : Type} (fa fb : Nat → α), PointSim fa fa fb → fb = fa := by
      intro α fa fb hsim
      funext k
      rcases hsim k with h1 | h1 <;> exact h1
    rw [← h]
    rw [← h] at hsB
    exact intervalCache_eq_of_fields _ _ (hpt _ _ hsB.birth) (hpt _ _ hsB.death)
      (hpt _ _ hsB.fossil) (hpt _ _ hsB.times) (hpt _ _ hsB.q_i) (hpt _ _ hsB.q_tilde_i)
      (hpt _ _ hsB.p_i) (hpt _ _ hsB.oldest) (hpt _ _ hsB.youngest)

end IntervalIdempotenceField

/-! ## Repeated evaluation: `computeLnProbability` -/

section Idempotence

variable {R : Type} [LinearOrderedField R]

/-- The engine that a returning `computeLnProbability` leaves: the parameters and ranges
of the call, the interval cache of `updateIntervals`, the overlap cache of
`updateGamma(false)`. -/
theorem computeLnProbability_state (F : FloatOps R) (e e1 : Engine R) (r : LnProb R)
    (h : computeLnProbability F e = Except.ok (r, e1)) :
    ∃ cache, updateIntervals F e.par e.cache = Except.ok cache
      ∧ e1 = { e with cache := cache,
                      gamma := updateGamma e.value e.par.numTaxa false e.gamma } := by
  unfold computeLnProbability at h
  cases hU : updateIntervals F e.par e.cache with
  | error msg => rw [hU] at h; cases h
  | ok cache =>
    refine ⟨cache, rfl, ?_⟩
    rw [hU] at h
    simp only at h
    repeat' split at h
    all_goals first | (cases h; rfl) | cases h

/-- An evaluation on the engine that an evaluation left is the same computation. -/
theorem computeLnProbability_again (F : FloatOps R) (e : Engine R) (cache : IntervalCache R)
    (hU : updateIntervals F e.par e.cache = Except.ok cache) :
    computeLnProbability F
        { e with cache := cache, gamma := updateGamma e.value e.par.numTaxa false e.gamma }
      = computeLnProbability F e := by
  have hU2 := updateIntervals_idem F e.par e.cache cache hU
  unfold computeLnProbability
  simp only [hU, hU2, updateGamma_incr_idem]

end Idempotence

/-! ## A rejected proposal -/

section RejectedProposal

variable {R : Type} [LinearOrderedField R]

/-- On a cache consistent with the ranges, `updateGamma(false)` changes neither the
counts nor the links, whatever the dirty flags are. -/
theorem updateGamma_incr_fixed (value : Nat → R × R) (n : Nat) (c : GammaCache)
    (hn : n < sizeMod)
    (hlinks : ∀ i j, i < n → j < n → i ≠ j → c.gamma_links i j = link value i j)
    (hcount : CountsMatch n c) :
    (updateGamma value n false c).gamma_i = c.gamma_i
    ∧ (updateGamma value n false c).gamma_links = c.gamma_links := by
  obtain ⟨hl, hc⟩ := updateGamma_incr_consistent value value n c hn hlinks hcount
    (fun i _ hne => absurd rfl hne)
  have hlinksEq : (updateGamma value n false c).gamma_links = c.gamma_links := by
    funext a b
    by_cases hab : a ≠ b ∧ a < n ∧ b < n
    · rw [hl a b hab.2.1 hab.2.2 hab.1, hlinks a b hab.2.1 hab.2.2 hab.1]
    · rw [updateGamma_links, if_neg (fun h => hab ⟨h.1, h.2.1, h.2.2.1⟩)]
  refine ⟨?_, hlinksEq⟩
  funext i
  by_cases hi : i < n
  · rw [hc i hi, hcount i hi, hlinksEq]
  · rw [updateGamma_incr_gamma_frame _ _ _ _ (by omega)]

/-- The body of the loop over ranges reads the overlap cache through `gamma_i` only. -/
theorem rangeBody_gamma_congr (F : FloatOps R) (e : Engine R) (g g2 : GammaCache)
    (hg : g2.gamma_i = g.gamma_i) (acc : RangeAcc R) (i : Nat) :
    rangeBody F { e with gamma := g2 } acc i = rangeBody F { e with gamma := g } acc i := by
  cases g
  cases g2
  simp only at hg
  subst hg
  rfl

theorem rangeLoop_gamma_congr (F : FloatOps R) (e : Engine R) (g g2 : GammaCache)
    (hg : g2.gamma_i = g.gamma_i) :
    ∀ (xs : List Nat) (acc : RangeAcc R),
      rangeLoop F { e with gamma := g2 } xs acc = rangeLoop F { e with gamma := g } xs acc := by
  intro xs
  induction xs with
  | nil => intro acc; rfl
  | cons x rest ih =>
    intro acc
    unfold rangeLoop
    rw [rangeBody_gamma_congr F e g g2 hg acc x]
    cases rangeBody F { e with gamma := g } acc x with
    | error msg => rfl
    | ok o =>
      cases o with
      | none => rfl
      | some acc2 => exact ih acc2

/-- Two engines that differ in the overlap cache only, and whose overlap counts agree
after `updateGamma(false)`, evaluate alike: the same exception or the same value, the
same interval cache. -/
theorem computeLnProbability_gamma_congr (F : FloatOps R) (e : Engine R) (g2 : GammaCache)
    (hg : (updateGamma e.value e.par.numTaxa false g2).gamma_i
      = (updateGamma e.value e.par.numTaxa false e.gamma).gamma_i) :
    computeLnProbability F { e with gamma := g2 }
      = Except.map
          (fun (p : LnProb R × Engine R) =>
            (p.1, { p.2 with gamma := updateGamma e.value e.par.numTaxa false g2 }))
          (computeLnProbability F e) := by
  unfold computeLnProbability
  simp only
  cases hU : updateIntervals F e.par e.cache with
  | error msg => rfl
  | ok cache =>
    simp only
    have hloop := rangeLoop_gamma_congr F { e with cache := cache }
      (updateGamma e.value e.par.numTaxa false e.gamma)
      (updateGamma e.value e.par.numTaxa false g2) hg (List.range e.par.numTaxa)
      { lnProbTimes := 0, num_extant_sampled := 0, num_extant_unsampled := 0,
        maxb := 0, maxl := 0, kappa_prime := fun _ => 0, L := fun _ => 0 }
    simp only at hloop
    rw [hloop]
    cases hL : rangeLoop F
        { par := e.par, value := e.value, cache := cache,
          gamma := updateGamma e.value e.par.numTaxa false e.gamma }
        (List.range e.par.numTaxa)
        { lnProbTimes := 0, num_extant_sampled := 0, num_extant_unsampled := 0,
          maxb := 0, maxl := 0, kappa_prime := fun _ => 0, L := fun _ => 0 } with
    | error msg => rfl
    | ok o =>
      cases o with
      | none => rfl
      | some acc =>
        simp only
        cases hI : List.foldlM (intervalBody F e.par cache acc)
            (acc.lnProbTimes - F.log acc.maxl) (List.range e.par.num_intervals) with
        | error msg => rfl
        | ok s2 =>
          simp only
          repeat' split
          all_goals rfl

/-- C13. Restore round trip on the overlap cache. Let the overlap cache of the engine
`e` be consistent with its ranges (each off-diagonal link holds the link predicate, each
count is the number of links of its row), with any dirty flags. For every range `k` and
every new pair of endpoints, the sequence [flag `k` dirty; change the endpoints of `k`;
`updateGamma(false)`; put the endpoints back; `restoreSpecialization`;
`updateGamma(false)`] leaves `gamma_i` and `gamma_links` equal to their values before
the proposal, and `computeLnProbability` on the restored state raises or returns exactly
what it raises or returns on the state before the proposal, leaving the same interval
cache, counts and links. -/
theorem restore_round_trip (F : FloatOps R) (e : Engine R) (k : Nat) (new : R × R)
    (hn : e.par.numTaxa < sizeMod)
    (hlinks : ∀ i j, i < e.par.numTaxa → j < e.par.numTaxa → i ≠ j →
      e.gamma.gamma_links i j = link e.value i j)
    (hcount : CountsMatch e.par.numTaxa e.gamma) :
    (rejectedProposal e.value e.par.numTaxa e.gamma k new).gamma_i = e.gamma.gamma_i
    ∧ (rejectedProposal e.value e.par.numTaxa e.gamma k new).gamma_links
        = e.gamma.gamma_links
    ∧ Except.map Prod.fst
        (computeLnProbability F
          { e with gamma := rejectedProposal e.value e.par.numTaxa e.gamma k new })
        = Except.map Prod.fst (computeLnProbability F e)
    ∧ ∀ r e1, computeLnProbability F e = Except.ok (r, e1) →
        ∃ e2, computeLnProbability F
            { e with gamma := rejectedProposal e.value e.par.numTaxa e.gamma k new }
            = Except.ok (r, e2)
          ∧ e2.cache = e1.cache ∧ e2.gamma.gamma_i = e1.gamma.gamma_i
          ∧ e2.gamma.gamma_links = e1.gamma.gamma_links := by
  obtain ⟨hgi, hgl⟩ := gamma_round_trip e.value e.par.numTaxa e.gamma k new hn hlinks hcount
  have hgi2 : (rejectedProposal e.value e.par.numTaxa e.gamma k new).gamma_i
      = e.gamma.gamma_i := hgi
  have hgl2 : (rejectedProposal e.value e.par.numTaxa e.gamma k new).gamma_links
      = e.gamma.gamma_links := hgl
  have hlinks2 : ∀ i j, i < e.par.numTaxa → j < e.par.numTaxa → i ≠ j →
      (rejectedProposal e.value e.par.numTaxa e.gamma k new).gamma_links i j
        = link e.value i j := by
    intro i j hi hj hne
    rw [hgl2]
    exact hlinks i j hi hj hne
  have hcount2 : CountsMatch e.par.numTaxa
      (rejectedProposal e.value e.par.numTaxa e.gamma k new) := by
    intro i hi
    rw [hgi2, hgl2]
    exact hcount i hi
  obtain ⟨hf1, hf2⟩ := updateGamma_incr_fixed e.value e.par.numTaxa e.gamma hn hlinks hcount
  obtain ⟨hr1, hr2⟩ := updateGamma_incr_fixed e.value e.par.numTaxa
    (rejectedProposal e.value e.par.numTaxa e.gamma k new) hn hlinks2 hcount2
  have hcongr := computeLnProbability_gamma_congr F e
    (rejectedProposal e.value e.par.numTaxa e.gamma k new) (by rw [hr1, hf1, hgi2])
  refine ⟨hgi2, hgl2, ?_, ?_⟩
  · rw [hcongr]
    cases computeLnProbability F e <;> rfl
  · intro r e1 h
    obtain ⟨cache, _, he1⟩ := computeLnProbability_state F e e1 r h
    rw [hcongr, h]
    refine ⟨_, rfl, rfl, ?_, ?_⟩
    · rw [he1]
      simp only
      rw [hr1, hf1, hgi2]
    · rw [he1]
      simp only
      rw [hr2, hf2, hgl2]

/-- An instance of C13 on three overlapping ranges: the proposal moves range 1 from
`(5, 3)` to `(12, 3)` and is rejected; the evaluation before the proposal returns a
finite value. -/
theorem restore_round_trip_witness :
    (∃ x e1, computeLnProbability stubOps engineOverlap = Except.ok (LnProb.finite x, e1))
    ∧ (rejectedProposal rangesA 3 cacheA 1 (12, 3)).gamma_i = cacheA.gamma_i
    ∧ (rejectedProposal rangesA 3 cacheA 1 (12, 3)).gamma_links = cacheA.gamma_links
    ∧ Except.map Prod.fst
        (computeLnProbability stubOps
          { engineOverlap with gamma := rejectedProposal rangesA 3 cacheA 1 (12, 3) })
        = Except.map Prod.fst (computeLnProbability stubOps engineOverlap)
    ∧ ∀ r e1, computeLnProbability stubOps engineOverlap = Except.ok (r, e1) →
        ∃ e2, computeLnProbability stubOps
            { engineOverlap with gamma := rejectedProposal rangesA 3 cacheA 1 (12, 3) }
            = Except.ok (r, e2)
          ∧ e2.cache = e1.cache ∧ e2.gamma.gamma_i = e1.gamma.gamma_i
          ∧ e2.gamma.gamma_links = e1.gamma.gamma_links :=
  ⟨⟨_, _, rfl⟩,
    restore_round_trip stubOps engineOverlap 1 (12, 3) (by decide)
      (by
        intro i j hi hj hne
        have hi3 : i < 3 := hi
        have hj3 : j < 3 := hj
        interval_cases i <;> interval_cases j <;> rfl)
      (by
        intro i hi
        have hi3 : i < 3 := hi
        interval_cases i <;> rfl)⟩

end RejectedProposal

/-! ## The likelihood in parts -/

section LikelihoodParts

variable {R : Type} [LinearOrderedField R]

/-- The function `computeLnProbability` in parts: when `updateIntervals` leaves `cache`,
the loop over ranges ends with the local variables `acc` and the loop over intervals
with the sum `s2`, the call returns the checked sum of `s2`, the sampling terms and the
survival term, and leaves the refreshed engine. -/
theorem computeLnProbability_of_loops (F : FloatOps R) (e : Engine R) (cache : IntervalCache R)
    (acc : RangeAcc R) (s2 : R)
    (hU : updateIntervals F e.par e.cache = Except.ok cache)
    (hL : rangeLoop F (refreshed e cache) (List.range e.par.numTaxa) initialAcc
      = Except.ok (some acc))
    (hI : (List.range e.par.num_intervals).foldlM (intervalBody F e.par cache acc)
      (acc.lnProbTimes - F.log acc.maxl) = Except.ok s2) :
    computeLnProbability F e
      = Except.ok
          (checkedResult F (conditionOnSurvival F e.par cache acc.maxb
            (addSamplingTerms F e.par.homogeneous_rho acc.num_extant_sampled
              acc.num_extant_unsampled s2)),
            refreshed e cache) := by
  unfold refreshed initialAcc at hL
  unfold computeLnProbability
  simp only [hU, hL, hI]
  unfold checkedResult conditionOnSurvival addSamplingTerms
  simp only
  repeat' split
  all_goals rfl

/-- The converse: a call of `computeLnProbability` that returns a finite value went
through both loops. -/
theorem computeLnProbability_finite_inv (F : FloatOps R) (e e1 : Engine R) (x : R)
    (h : computeLnProbability F e = Except.ok (LnProb.finite x, e1)) :
    ∃ cache acc s2, updateIntervals F e.par e.cache = Except.ok cache
      ∧ rangeLoop F (refreshed e cache) (List.range e.par.numTaxa) initialAcc
          = Except.ok (some acc)
      ∧ (List.range e.par.num_intervals).foldlM (intervalBody F e.par cache acc)
          (acc.lnProbTimes - F.log acc.maxl) = Except.ok s2
      ∧ e1 = refreshed e cache
      ∧ x = conditionOnSurvival F e.par cache acc.maxb
            (addSamplingTerms F e.par.homogeneous_rho acc.num_extant_sampled
              acc.num_extant_unsampled s2)
      ∧ ¬ F.isFinite x = false := by
  cases hU : updateIntervals F e.par e.cache with
  | error msg =>
    unfold computeLnProbability at h
    rw [hU] at h
    cases h
  | ok cache =>
    cases hL : rangeLoop F (refreshed e cache) (List.range e.par.numTaxa) initialAcc with
    | error msg =>
      unfold refreshed initialAcc at hL
      unfold computeLnProbability at h
      simp only [hU, hL] at h
      cases h
    | ok o =>
      cases o with
      | none =>
        unfold refreshed initialAcc at hL
        unfold computeLnProbability at h
        simp only [hU, hL] at h
        cases h
      | some acc =>
        cases hI : (List.range e.par.num_intervals).foldlM (intervalBody F e.par cache acc)
            (acc.lnProbTimes - F.log acc.maxl) with
        | error msg =>
          unfold refreshed initialAcc at hL
          unfold computeLnProbability at h
          simp only [hU, hL, hI] at h
          cases h
        | ok s2 =>
          have hres := computeLnProbability_of_loops F e cache acc s2 hU hL hI
          rw [hres] at h
          simp only [Except.ok.injEq, Prod.mk.injEq] at h
          obtain ⟨hval, he1⟩ := h
          refine ⟨cache, acc, s2, rfl, hL, hI, he1.symm, ?_⟩
          unfold checkedResult at hval
          by_cases hfin : F.isFinite (conditionOnSurvival F e.par cache acc.maxb
              (addSamplingTerms F e.par.homogeneous_rho acc.num_extant_sampled
                acc.num_extant_unsampled s2)) = false
          · rw [if_pos hfin] at hval
            cases hval
          · rw [if_neg hfin] at hval
            simp only [LnProb.finite.injEq] at hval
            rw [← hval]
            exact ⟨rfl, hfin⟩

end LikelihoodParts

/-! ## The local variables of the loop over ranges -/

section RangeLoopVariables

variable {R : Type} [LinearOrderedField R]

/-- The counters and the origin variables after the part of the loop body that follows
the constraint check. -/
theorem rangeTerms_fields (F : FloatOps R) (e : Engine R) (acc acc2 : RangeAcc R) (i : Nat)
    (b d o y : R) (bi di oi yi : Nat)
    (h : rangeTerms F e acc i b d o y bi di oi yi = Except.ok (some acc2)) :
    acc2.num_extant_sampled = acc.num_extant_sampled + (if d = 0 ∧ y = 0 then 1 else 0)
    ∧ acc2.num_extant_unsampled = acc.num_extant_unsampled + (if d = 0 ∧ y ≠ 0 then 1 else 0)
    ∧ acc2.maxb = (if b > acc.maxb then b else acc.maxb)
    ∧ acc2.maxl = (if b > acc.maxb then e.cache.birth bi else acc.maxl) := by
  unfold rangeTerms at h
  simp only at h
  by_cases hm : e.par.marginalize_k = true
  · rw [if_pos hm] at h
    cases h
    exact ⟨rfl, rfl, rfl, rfl⟩
  · rw [if_neg hm] at h
    by_cases hpa : e.par.presence_absence = true
    · rw [if_pos hpa] at h
      cases hp : paTerms F e.par e.cache i b d bi di acc.L with
      | error msg => rw [hp] at h; cases h
      | ok L2 =>
        rw [hp] at h
        cases h
        exact ⟨rfl, rfl, rfl, rfl⟩
    · rw [if_neg hpa] at h
      cases h
      exact ⟨rfl, rfl, rfl, rfl⟩

/-- The counters and the origin variables after one pass of the loop body that does not
return, with the bounds that the constraint check gives. -/
theorem rangeBody_fields (F : FloatOps R) (e : Engine R) (acc acc2 : RangeAcc R) (i : Nat)
    (h : rangeBody F e acc i = Except.ok (some acc2)) :
    acc2.num_extant_sampled = acc.num_extant_sampled
        + (if (e.value i).2 = 0 ∧ (e.par.taxa i).ageMin = 0 then 1 else 0)
    ∧ acc2.num_extant_unsampled = acc.num_extant_unsampled
        + (if (e.value i).2 = 0 ∧ (e.par.taxa i).ageMin ≠ 0 then 1 else 0)
    ∧ acc2.maxb = (if (e.value i).1 > acc.maxb then (e.value i).1 else acc.maxb)
    ∧ acc2.maxl = (if (e.value i).1 > acc.maxb
        then e.cache.birth (l e.cache.times e.par.num_intervals (e.value i).1) else acc.maxl)
    ∧ 0 < (e.value i).1 := by
  rw [rangeBody_eq] at h
  by_cases hfin : F.isFinite acc.lnProbTimes = false
  · rw [if_pos hfin] at h
    cases h
  · rw [if_neg hfin] at h
    by_cases hcv : constraintViolated e.par.presence_absence (e.value i).1 (e.value i).2
          (e.par.taxa i).ageMax (e.par.taxa i).ageMin
          (if e.par.presence_absence = true then e.cache.youngest_intervals i
            else l e.cache.times e.par.num_intervals (e.par.taxa i).ageMin)
          (l e.cache.times e.par.num_intervals (e.value i).2) = true
    · rw [if_pos hcv] at h
      cases h
    · rw [if_neg hcv] at h
      obtain ⟨hdb, hd0⟩ := constraint_ok_bounds _ _ _ _ _ _ _ hcv
      obtain ⟨h1, h2, h3, h4⟩ := rangeTerms_fields F e acc acc2 i _ _ _ _ _ _ _ _ h
      exact ⟨h1, h2, h3, h4, lt_of_le_of_lt hd0 hdb⟩

/-- The two counters after the loop over the ranges `xs`. -/
theorem rangeLoop_counts (F : FloatOps R) (e : Engine R) :
    ∀ (xs : List Nat) (acc acc2 : RangeAcc R),
      rangeLoop F e xs acc = Except.ok (some acc2) →
      acc2.num_extant_sampled = acc.num_extant_sampled
          + xs.countP (fun i => decide ((e.value i).2 = 0 ∧ (e.par.taxa i).ageMin = 0))
      ∧ acc2.num_extant_unsampled = acc.num_extant_unsampled
          + xs.countP (fun i => decide ((e.value i).2 = 0 ∧ (e.par.taxa i).ageMin ≠ 0)) := by
  intro xs
  induction xs with
  | nil =>
    intro acc acc2 h
    unfold rangeLoop at h
    cases h
    exact ⟨rfl, rfl⟩
  | cons x rest ih =>
    intro acc acc2 h
    unfold rangeLoop at h
    cases hb : rangeBody F e acc x with
    | error msg => rw [hb] at h; cases h
    | ok o =>
      cases o with
      | none => rw [hb] at h; cases h
      | some acc1 =>
        rw [hb] at h
        obtain ⟨h1, h2, _⟩ := rangeBody_fields F e acc acc1 x hb
        obtain ⟨i1, i2⟩ := ih acc1 acc2 h
        rw [i1, i2, h1, h2, List.countP_cons, List.countP_cons]
        constructor
        · by_cases hc : (e.value x).2 = 0 ∧ (e.par.taxa x).ageMin = 0
          · simp only [hc, and_self, if_true, decide_True]
            omega
          · simp only [hc, if_false, decide_False, Bool.false_eq_true]
            omega
        · by_cases hc : (e.value x).2 = 0 ∧ (e.par.taxa x).ageMin ≠ 0
          · simp only [hc, ne_eq, not_false_eq_true, and_self, if_true, decide_True]
            omega
          · simp only [hc, if_false, decide_False, Bool.false_eq_true]
            omega

/-- The origin variables after the loop over the ranges `xs`: `maxb` bounds every start
time of `xs`; either both variables are as before the loop, or `maxb` is the start time
of a range of `xs` and `maxl` the speciation rate of the interval that contains it. -/
theorem rangeLoop_origin (F : FloatOps R) (e : Engine R) :
    ∀ (xs : List Nat) (acc acc2 : RangeAcc R),
      rangeLoop F e xs acc = Except.ok (some acc2) →
      (∀ i, i ∈ xs → (e.value i).1 ≤ acc2.maxb ∧ 0 < (e.value i).1)
      ∧ acc.maxb ≤ acc2.maxb
      ∧ ((acc2.maxb = acc.maxb ∧ acc2.maxl = acc.maxl)
          ∨ ∃ i, i ∈ xs ∧ (e.value i).1 = acc2.maxb
              ∧ acc2.maxl = e.cache.birth (l e.cache.times e.par.num_intervals acc2.maxb)) := by
  intro xs
  induction xs with
  | nil =>
    intro acc acc2 h
    unfold rangeLoop at h
    cases h
    exact ⟨fun i hi => absurd hi (List.not_mem_nil i), le_refl _, Or.inl ⟨rfl, rfl⟩⟩
  | cons x rest ih =>
    intro acc acc2 h
    unfold rangeLoop at h
    cases hb : rangeBody F e acc x with
    | error msg => rw [hb] at h; cases h
    | ok o =>
      cases o with
      | none => rw [hb] at h; cases h
      | some acc1 =>
        rw [hb] at h
        obtain ⟨_, _, h3, h4, hpos⟩ := rangeBody_fields F e acc acc1 x hb
        obtain ⟨iall, ile, ior⟩ := ih acc1 acc2 h
        have hx1 : (e.value x).1 ≤ acc1.maxb ∧ acc.maxb ≤ acc1.maxb := by
          rw [h3]
          by_cases hgt : (e.value x).1 > acc.maxb
          · rw [if_pos hgt]
            exact ⟨le_refl _, le_of_lt hgt⟩
          · rw [if_neg hgt]
            exact ⟨not_lt.mp hgt, le_refl _⟩
        refine ⟨?_, le_trans hx1.2 ile, ?_⟩
        · intro i hi
          rcases List.mem_cons.mp hi with hix | hir
          · rw [hix]
            exact ⟨le_trans hx1.1 ile, hpos⟩
          · exact iall i hir
        · rcases ior with ⟨hb2, hl2⟩ | ⟨i, hi, hbi, hli⟩
          · by_cases hgt : (e.value x).1 > acc.maxb
            · right
              rw [if_pos hgt] at h3 h4
              refine ⟨x, List.mem_cons_self x rest, ?_, ?_⟩
              · rw [hb2, h3]
              · rw [hl2, h4, hb2, h3]
            · left
              rw [if_neg hgt] at h3 h4
              exact ⟨hb2.trans h3, hl2.trans h4⟩
          · right
            exact ⟨i, List.mem_cons_of_mem x hi, hbi, hli⟩

/-- The counts of `numSampledAtBoundary` and `numUnsampledAtBoundary` add up to the
count of `numEndingAtBoundary`. -/
theorem boundary_counts_add (value : Nat → R × R) (taxa : Nat → Taxon R) :
    ∀ (xs : List Nat),
      xs.countP (fun i => decide ((value i).2 = 0 ∧ (taxa i).ageMin = 0))
        + xs.countP (fun i => decide ((value i).2 = 0 ∧ (taxa i).ageMin ≠ 0))
      = xs.countP (fun i => decide ((value i).2 = 0)) := by
  intro xs
  induction xs with
  | nil => rfl
  | cons x rest ih =>
    rw [List.countP_cons, List.countP_cons, List.countP_cons, ← ih]
    by_cases hd : (value x).2 = 0
    · by_cases hy : (taxa x).ageMin = 0
      · simp only [hd, hy, and_self, decide_True, if_true, ne_eq, not_true_eq_false,
          and_false, decide_False, Bool.false_eq_true, if_false]
        omega
      · simp only [hd, hy, and_false, decide_False, Bool.false_eq_true, if_false, ne_eq,
          not_false_eq_true, and_self, decide_True, if_true]
        omega
    · simp only [hd, false_and, decide_False, Bool.false_eq_true, if_false]
      omega

end RangeLoopVariables

/-! ## Boundary sampling -/

section BoundarySampling

variable {R : Type} [LinearOrderedField R]

/-- For a probability `rho`, the two sampling statements add the documented terms. -/
theorem addSamplingTerms_eq (F : FloatOps R) (rho : R) (h0 : 0 ≤ rho) (h1 : rho ≤ 1)
    (ns nu : Nat) (s : R) :
    addSamplingTerms F rho ns nu s = s + boundarySamplingTerms F rho ns nu := by
  unfold addSamplingTerms boundarySamplingTerms
  simp only
  by_cases hz : rho = 0
  · have hlt : rho < 1 := by rw [hz]; exact zero_lt_one
    have hne : ¬ rho = 1 := ne_of_lt hlt
    have hng : ¬ rho > 0 := by rw [hz]; exact lt_irrefl 0
    rw [if_neg hng, if_pos hlt, if_pos hz, if_neg hne, zero_add]
  · have hgt : rho > 0 := lt_of_le_of_ne h0 (fun h => hz h.symm)
    by_cases ho : rho = 1
    · have hnl : ¬ rho < 1 := by rw [ho]; exact lt_irrefl 1
      rw [if_pos hgt, if_neg hnl, if_neg hz, if_pos ho, add_zero]
    · have hlt : rho < 1 := lt_of_le_of_ne h1 ho
      rw [if_pos hgt, if_pos hlt, if_neg hz, if_neg ho, add_assoc]

/-- C18. Instantaneous-sampling terms. Let the sampling probability `rho` lie in
`[0, 1]`, and let the evaluation pass the constraint checks: `updateIntervals` leaves
`cache`, the loop over ranges ends with the local variables `acc`, and the loop over
intervals with the sum `s2`. Then `num_extant_sampled` is the number `ns` of ranges
with end time `0` whose youngest observation is `0`, `num_extant_unsampled` the number
`nu` of ranges with end time `0` whose youngest observation is not `0`, `ns + nu` is the
number of ranges ending at time `0`, and `computeLnProbability` returns the checked, possibly
survival-conditioned, sum of `s2` and `ns * log rho` (omitted when `rho = 0`) and
`nu * log (1 - rho)` (omitted when `rho = 1`). -/
theorem boundary_sampling_terms (F : FloatOps R) (e : Engine R) (cache : IntervalCache R)
    (acc : RangeAcc R) (s2 : R)
    (h0 : 0 ≤ e.par.homogeneous_rho) (h1 : e.par.homogeneous_rho ≤ 1)
    (hU : updateIntervals F e.par e.cache = Except.ok cache)
    (hL : rangeLoop F (refreshed e cache) (List.range e.par.numTaxa) initialAcc
      = Except.ok (some acc))
    (hI : (List.range e.par.num_intervals).foldlM (intervalBody F e.par cache acc)
      (acc.lnProbTimes - F.log acc.maxl) = Except.ok s2) :
    acc.num_extant_sampled = numSampledAtBoundary e.value e.par.taxa e.par.numTaxa
    ∧ acc.num_extant_unsampled = numUnsampledAtBoundary e.value e.par.taxa e.par.numTaxa
    ∧ numSampledAtBoundary e.value e.par.taxa e.par.numTaxa
        + numUnsampledAtBoundary e.value e.par.taxa e.par.numTaxa
        = numEndingAtBoundary e.value e.par.numTaxa
    ∧ computeLnProbability F e
        = Except.ok
            (checkedResult F (conditionOnSurvival F e.par cache acc.maxb
              (s2 + boundarySamplingTerms F e.par.homogeneous_rho
                (numSampledAtBoundary e.value e.par.taxa e.par.numTaxa)
                (numUnsampledAtBoundary e.value e.par.taxa e.par.numTaxa))),
              refreshed e cache) := by
  obtain ⟨hs, hu⟩ := rangeLoop_counts F (refreshed e cache) (List.range e.par.numTaxa)
    initialAcc acc hL
  have hs2 : acc.num_extant_sampled = numSampledAtBoundary e.value e.par.taxa e.par.numTaxa := by
    rw [hs]
    exact Nat.zero_add _
  have hu2 : acc.num_extant_unsampled
      = numUnsampledAtBoundary e.value e.par.taxa e.par.numTaxa := by
    rw [hu]
    exact Nat.zero_add _
  refine ⟨hs2, hu2, boundary_counts_add e.value e.par.taxa (List.range e.par.numTaxa), ?_⟩
  rw [computeLnProbability_of_loops F e cache acc s2 hU hL hI,
    addSamplingTerms_eq F _ h0 h1, hs2, hu2]

/-- An instance of C18 with `rho = 1 / 2`: of three ranges, one ends at `0` with youngest
observation `0`, one ends at `0` with youngest observation `2`, one ends at `1`. -/
theorem boundary_sampling_terms_witness :
    ∃ cache acc s2,
      updateIntervals stubOps engineSampling.par engineSampling.cache = Except.ok cache
      ∧ rangeLoop stubOps (refreshed engineSampling cache) (List.range 3) initialAcc
          = Except.ok (some acc)
      ∧ (List.range 1).foldlM (intervalBody stubOps engineSampling.par cache acc)
          (acc.lnProbTimes - stubOps.log acc.maxl) = Except.ok s2
      ∧ acc.num_extant_sampled = 1 ∧ acc.num_extant_unsampled = 1
      ∧ numEndingAtBoundary engineSampling.value 3 = 2
      ∧ (acc.num_extant_sampled
            = numSampledAtBoundary engineSampling.value engineSampling.par.taxa 3
          ∧ acc.num_extant_unsampled
            = numUnsampledAtBoundary engineSampling.value engineSampling.par.taxa 3
          ∧ numSampledAtBoundary engineSampling.value engineSampling.par.taxa 3
              + numUnsampledAtBoundary engineSampling.value engineSampling.par.taxa 3
              = numEndingAtBoundary engineSampling.value 3
          ∧ computeLnProbability stubOps engineSampling
              = Except.ok
                  (checkedResult stubOps
                    (conditionOnSurvival stubOps engineSampling.par cache acc.maxb
                      (s2 + boundarySamplingTerms stubOps (1 / 2)
                        (numSampledAtBoundary engineSampling.value engineSampling.par.taxa 3)
                        (numUnsampledAtBoundary engineSampling.value
                          engineSampling.par.taxa 3))),
                    refreshed engineSampling cache)) := by
  refine ⟨_, _, _, rfl, rfl, rfl, rfl, rfl, ?_, ?_⟩
  · decide
  · exact boundary_sampling_terms stubOps engineSampling _ _ _
      (by with_unfolding_all decide) (by with_unfolding_all decide) rfl rfl rfl

end BoundarySampling

/-! ## The origin term -/

section OriginTerm

variable {R : Type} [LinearOrderedField R]

/-- The origin variables after the loop over all ranges of a non-empty range set. -/
theorem rangeLoop_origin_all (F : FloatOps R) (e : Engine R) (acc : RangeAcc R) (n : Nat)
    (hL : rangeLoop F e (List.range n) initialAcc = Except.ok (some acc)) :
    (∀ i, i < n → (e.value i).1 ≤ acc.maxb)
    ∧ ((∃ i, i < n ∧ (e.value i).1 = acc.maxb
          ∧ acc.maxl = e.cache.birth (l e.cache.times e.par.num_intervals acc.maxb))
        ∨ (n = 0 ∧ acc.maxb = 0)) := by
  obtain ⟨hall, _, hor⟩ := rangeLoop_origin F e (List.range n) initialAcc acc hL
  refine ⟨fun i hi => (hall i (List.mem_range.mpr hi)).1, ?_⟩
  rcases hor with ⟨hb, _⟩ | ⟨i, hi, hbi, hli⟩
  · right
    have hb0 : acc.maxb = 0 := hb
    refine ⟨?_, hb0⟩
    by_contra hne
    have h0 : 0 < n := Nat.pos_of_ne_zero hne
    obtain ⟨hle, hpos⟩ := hall 0 (List.mem_range.mpr h0)
    rw [hb0] at hle
    exact absurd hpos (not_lt.mpr hle)
  · left
    exact ⟨i, List.mem_range.mp hi, hbi, hli⟩

/-- C19 as stated fails. In the scenario of three ranges `(2, 0)` with one interval and
rates `1`, `1 / 2`, `1 / 5`, the loop over ranges ends with `maxb = 2` and
`maxl = birth[l(2)] = 1`, the speciation rate; the value subtracted is `log(maxl)`. The
sampling function `q(l(2), 2)` is not `1` (in real arithmetic it is about `0.084`), and
its logarithm is not the subtracted value. -/
theorem origin_term_is_not_log_q :
    ∃ cache acc,
      updateIntervals stubOps engineThree.par engineThree.cache = Except.ok cache
      ∧ rangeLoop stubOps (refreshed engineThree cache) (List.range 3) initialAcc
          = Except.ok (some acc)
      ∧ acc.maxb = 2
      ∧ acc.maxl = 1
      ∧ cache.birth (l cache.times 1 2) = 1
      ∧ q stubOps engineThree.par cache (l cache.times 1 2) 2 false ≠ acc.maxl
      ∧ stubOps.log (q stubOps engineThree.par cache (l cache.times 1 2) 2 false)
          ≠ stubOps.log acc.maxl := by
  refine ⟨_, _, rfl, rfl, rfl, rfl, rfl, ?_, ?_⟩
  · with_unfolding_all decide
  · with_unfolding_all decide

/-- C19, amended. For a non-empty range set that passes the constraint checks (the loop
over ranges ends with the local variables `acc`), `maxb` is the largest start time,
`maxl` is the speciation rate `birth[l(maxb)]` of the interval that contains it, and
`computeLnProbability` subtracts `log(birth[l(maxb)])` once from the sum of the range
terms: the loop over intervals starts from `acc.lnProbTimes - log(birth[l(maxb)])`, and
the call returns the checked sum built on its result `s2`. -/
theorem origin_correction (F : FloatOps R) (e : Engine R) (cache : IntervalCache R)
    (acc : RangeAcc R) (s2 : R) (hn : 1 ≤ e.par.numTaxa)
    (hU : updateIntervals F e.par e.cache = Except.ok cache)
    (hL : rangeLoop F (refreshed e cache) (List.range e.par.numTaxa) initialAcc
      = Except.ok (some acc))
    (hI : (List.range e.par.num_intervals).foldlM (intervalBody F e.par cache acc)
      (acc.lnProbTimes - F.log (cache.birth (l cache.times e.par.num_intervals acc.maxb)))
      = Except.ok s2) :
    (∀ i, i < e.par.numTaxa → (e.value i).1 ≤ acc.maxb)
    ∧ (∃ i, i < e.par.numTaxa ∧ (e.value i).1 = acc.maxb)
    ∧ acc.maxl = cache.birth (l cache.times e.par.num_intervals acc.maxb)
    ∧ computeLnProbability F e
        = Except.ok
            (checkedResult F (conditionOnSurvival F e.par cache acc.maxb
              (addSamplingTerms F e.par.homogeneous_rho acc.num_extant_sampled
                acc.num_extant_unsampled s2)),
              refreshed e cache) := by
  obtain ⟨hall, hor⟩ := rangeLoop_origin_all F (refreshed e cache) acc e.par.numTaxa hL
  rcases hor with ⟨i, hi, hbi, hli⟩ | ⟨h0, _⟩
  · have hl : acc.maxl = cache.birth (l cache.times e.par.num_intervals acc.maxb) := hli
    refine ⟨hall, ⟨i, hi, hbi⟩, hl, ?_⟩
    rw [← hl] at hI
    exact computeLnProbability_of_loops F e cache acc s2 hU hL hI
  · omega

/-- An instance of the amended C19 on the ranges `(10, 0)`, `(5, 3)`, `(4, 1)`: the
largest start time is `10`, the subtracted rate is `1`. -/
theorem origin_correction_witness :
    ∃ cache acc s2,
      updateIntervals stubOps engineOverlap.par engineOverlap.cache = Except.ok cache
      ∧ rangeLoop stubOps (refreshed engineOverlap cache) (List.range 3) initialAcc
          = Except.ok (some acc)
      ∧ (List.range 1).foldlM (intervalBody stubOps engineOverlap.par cache acc)
          (acc.lnProbTimes - stubOps.log (cache.birth (l cache.times 1 acc.maxb)))
          = Except.ok s2
      ∧ acc.maxb = 10
      ∧ ((∀ i, i < 3 → (engineOverlap.value i).1 ≤ acc.maxb)
        ∧ (∃ i, i < 3 ∧ (engineOverlap.value i).1 = acc.maxb)
        ∧ acc.maxl = cache.birth (l cache.times 1 acc.maxb)
        ∧ computeLnProbability stubOps engineOverlap
            = Except.ok
                (checkedResult stubOps
                  (conditionOnSurvival stubOps engineOverlap.par cache acc.maxb
                    (addSamplingTerms stubOps 1 acc.num_extant_sampled
                      acc.num_extant_unsampled s2)),
                  refreshed engineOverlap cache)) := by
  refine ⟨_, _, _, rfl, rfl, rfl, rfl, ?_⟩
  exact origin_correction stubOps engineOverlap _ _ _ (by decide) rfl rfl rfl

end OriginTerm

/-! ## Survival conditioning -/

section SurvivalConditioning

variable {R : Type} [LinearOrderedField R]

/-- The loop over ranges does not read the condition string. -/
theorem rangeLoop_condition (F : FloatOps R) (e : Engine R) (s : String) :
    ∀ (xs : List Nat) (acc : RangeAcc R),
      rangeLoop F (withCondition e s) xs acc = rangeLoop F e xs acc := by
  intro xs
  induction xs with
  | nil => intro acc; rfl
  | cons x rest ih =>
    intro acc
    unfold rangeLoop
    have hb : rangeBody F (withCondition e s) acc x = rangeBody F e acc x := rfl
    rw [hb]
    cases rangeBody F e acc x with
    | error msg => rfl
    | ok o =>
      cases o with
      | none => rfl
      | some acc2 => exact ih acc2

/-- The parts of an evaluation do not depend on the condition string: an engine that
differs in the condition string goes through the same loops. -/
theorem loops_condition (F : FloatOps R) (e : Engine R) (s : String) (cache : IntervalCache R)
    (acc : RangeAcc R) (s2 : R)
    (hU : updateIntervals F e.par e.cache = Except.ok cache)
    (hL : rangeLoop F (refreshed e cache) (List.range e.par.numTaxa) initialAcc
      = Except.ok (some acc))
    (hI : (List.range e.par.num_intervals).foldlM (intervalBody F e.par cache acc)
      (acc.lnProbTimes - F.log acc.maxl) = Except.ok s2) :
    computeLnProbability F (withCondition e s)
      = Except.ok
          (checkedResult F (conditionOnSurvival F (withCondition e s).par cache acc.maxb
            (addSamplingTerms F e.par.homogeneous_rho acc.num_extant_sampled
              acc.num_extant_unsampled s2)),
            withCondition (refreshed e cache) s) := by
  have hU2 : updateIntervals F (withCondition e s).par (withCondition e s).cache
      = Except.ok cache := hU
  have hL2 : rangeLoop F (refreshed (withCondition e s) cache)
      (List.range (withCondition e s).par.numTaxa) initialAcc = Except.ok (some acc) := by
    have := rangeLoop_condition F (refreshed e cache) s (List.range e.par.numTaxa) initialAcc
    rw [hL] at this
    exact this
  have hI2 : (List.range (withCondition e s).par.num_intervals).foldlM
      (intervalBody F (withCondition e s).par cache acc)
      (acc.lnProbTimes - F.log acc.maxl) = Except.ok s2 := hI
  exact computeLnProbability_of_loops F (withCondition e s) cache acc s2 hU2 hL2 hI2

/-- C20 as stated fails. Without any sampling (fossilization rate `0`, boundary sampling
probability `0`) the survival function `p(l(b), b)` is exactly `1`, so
`pSurvival(maxb, 0) = 0`. The constructor accepts the configuration. The evaluation under
condition "time" returns a finite value (`0` under the stand-in functions); under
condition "survival" the subtraction of `log(0)` makes the sum non-finite and the
closing test returns negative infinity, not the finite value minus `log(1 - p)`. -/
theorem survival_result_is_not_difference :
    construct argsNoSampling (fun _ => (2, 0)) = Except.ok engineNoSampling
    ∧ ∃ e1 e2,
      computeLnProbability guardOps engineNoSampling = Except.ok (LnProb.finite 0, e1)
      ∧ p guardOps engineNoSampling.par e1.cache (l e1.cache.times 2 2) 2 = 1
      ∧ guardOps.isFinite (0 - guardOps.log (1 - 1)) = false
      ∧ computeLnProbability guardOps (withCondition engineNoSampling "survival")
          = Except.ok (LnProb.neginf, e2) := by
  refine ⟨rfl, ?e1, ?e2, ?h1, ?h2, ?h3, ?h4⟩
  case h1 => with_unfolding_all exact rfl
  case h4 => with_unfolding_all exact rfl
  case h2 => with_unfolding_all decide
  case h3 => with_unfolding_all decide

/-- C20, amended. Let the evaluation under a condition string other than "survival"
return the finite value `x`, leaving the engine `e1`. Then, `bmax` being the value of
`maxb` after the loop over ranges (the largest start time; `0` for an empty range set):
under condition "survival" the call returns `x - log(1 - p(l(bmax), bmax))` when that
number is finite and negative infinity otherwise; under every other condition string it
returns `x`; and `pSurvival(start, end)` is `1 - p(l(start), start)` for every `end`. -/
theorem survival_conditioning (F : FloatOps R) (e e1 : Engine R) (x : R)
    (hcond : e.par.condition ≠ "survival")
    (h : computeLnProbability F e = Except.ok (LnProb.finite x, e1)) :
    ∃ bmax,
      (∀ i, i < e.par.numTaxa → (e.value i).1 ≤ bmax)
      ∧ ((∃ i, i < e.par.numTaxa ∧ (e.value i).1 = bmax) ∨ (e.par.numTaxa = 0 ∧ bmax = 0))
      ∧ computeLnProbability F (withCondition e "survival")
          = Except.ok
              (checkedResult F
                (x - F.log (1 - p F e.par e1.cache
                  (l e1.cache.times e.par.num_intervals bmax) bmax)),
                withCondition e1 "survival")
      ∧ (∀ s, s ≠ "survival" →
          computeLnProbability F (withCondition e s)
            = Except.ok (LnProb.finite x, withCondition e1 s))
      ∧ (∀ (c : IntervalCache R) (start _end : R),
          pSurvival F e.par c start _end
            = 1 - p F e.par c (l c.times e.par.num_intervals start) start) := by
  obtain ⟨cache, acc, s2, hU, hL, hI, he1, hx, hfin⟩ := computeLnProbability_finite_inv F e e1 x h
  obtain ⟨hall, hor⟩ := rangeLoop_origin_all F (refreshed e cache) acc e.par.numTaxa hL
  have hx2 : x = addSamplingTerms F e.par.homogeneous_rho acc.num_extant_sampled
      acc.num_extant_unsampled s2 := by
    rw [hx]
    unfold conditionOnSurvival
    rw [if_neg hcond]
  refine ⟨acc.maxb, hall, ?_, ?_, ?_, fun _ _ _ => rfl⟩
  · rcases hor with ⟨i, hi, hbi, _⟩ | h0
    · exact Or.inl ⟨i, hi, hbi⟩
    · exact Or.inr h0
  · rw [loops_condition F e "survival" cache acc s2 hU hL hI, he1, ← hx2]
    rfl
  · intro s hs
    rw [loops_condition F e s cache acc s2 hU hL hI, he1, ← hx2]
    have hs2 : ¬ (withCondition e s).par.condition = "survival" := hs
    have hc : conditionOnSurvival F (withCondition e s).par cache acc.maxb x = x := by
      unfold conditionOnSurvival
      rw [if_neg hs2]
    rw [hc]
    unfold checkedResult
    rw [if_neg hfin]

/-- An instance of the amended C20: the engine on the ranges `(10, 0)`, `(5, 3)`,
`(4, 1)` has the condition "time" and evaluates to a finite value. -/
theorem survival_conditioning_witness :
    ∃ x e1,
      computeLnProbability stubOps engineOverlap = Except.ok (LnProb.finite x, e1)
      ∧ ∃ bmax,
        (∀ i, i < 3 → (engineOverlap.value i).1 ≤ bmax)
        ∧ ((∃ i, i < 3 ∧ (engineOverlap.value i).1 = bmax) ∨ ((3 : Nat) = 0 ∧ bmax = 0))
        ∧ computeLnProbability stubOps (withCondition engineOverlap "survival")
            = Except.ok
                (checkedResult stubOps
                  (x - stubOps.log (1 - p stubOps engineOverlap.par e1.cache
                    (l e1.cache.times 1 bmax) bmax)),
                  withCondition e1 "survival")
        ∧ (∀ s, s ≠ "survival" →
            computeLnProbability stubOps (withCondition engineOverlap s)
              = Except.ok (LnProb.finite x, withCondition e1 s))
        ∧ (∀ (c : IntervalCache ℚ) (start _end : ℚ),
            pSurvival stubOps engineOverlap.par c start _end
              = 1 - p stubOps engineOverlap.par c (l c.times 1 start) start) := by
  refine ⟨_, _, rfl, ?_⟩
  exact survival_conditioning stubOps engineOverlap _ _ (by decide) rfl

end SurvivalConditioning

/-! ## `computeLnProbability` returns on well-formed parameters -/

section CountGetters

variable {R : Type}

theorem uncheckedGet_ok (row : List Int) (k : Nat) (h : k < row.length) :
    ∃ x, uncheckedGet row k = Except.ok x := by
  unfold uncheckedGet
  rw [List.get?_eq_get h]
  exact ⟨_, rfl⟩

theorem sumSpeciesCounts_ok (ascending : Bool) (num interval : Nat) (hi : interval < num) :
    ∀ (rows : List (List Int)) (total : Int), (∀ row, row ∈ rows → row.length = num) →
      ∃ x, sumSpeciesCounts ascending num interval rows total = Except.ok x := by
  intro rows
  induction rows with
  | nil => intro total _; exact ⟨total, rfl⟩
  | cons row rest ih =>
    intro total hrows
    have hlen : row.length = num := hrows row (List.mem_cons_self row rest)
    have hidx : (if ascending = true then num - 1 - interval else interval) < row.length := by
      rw [hlen]
      split <;> omega
    obtain ⟨x, hx⟩ := uncheckedGet_ok row _ hidx
    unfold sumSpeciesCounts
    rw [hx]
    exact ih (total + x) (fun r hr => hrows r (List.mem_cons_of_mem row hr))

/-- On count data of the documented shape, `getFossilCount(interval)` returns. -/
theorem getFossilCount_ok (P : Params R) (hshape : P.CountsShaped)
    (hnm : P.counts ≠ Counts.marginalized) (i : Nat) (hi : i < P.num_intervals) :
    ∃ n, getFossilCount P.counts P.ascending i = Except.ok n := by
  unfold Params.CountsShaped at hshape
  cases hc : P.counts with
  | marginalized => exact absurd hc hnm
  | total k => exact ⟨k, rfl⟩
  | perInterval v =>
    rw [hc] at hshape
    simp only at hshape
    unfold getFossilCount
    have hn : ¬ i ≥ v.length := by omega
    simp only [hn, if_false]
    exact ⟨_, rfl⟩
  | perSpeciesInterval m =>
    rw [hc] at hshape
    simp only at hshape
    obtain ⟨_, hne, hrows⟩ := hshape
    cases m with
    | nil => exact absurd rfl hne
    | cons front rest =>
      have hfront : front.length = P.num_intervals := hrows front (List.mem_cons_self front rest)
      unfold getFossilCount
      have hn : ¬ i ≥ front.length := by omega
      simp only [hn, if_false]
      exact sumSpeciesCounts_ok P.ascending front.length i (by omega) (front :: rest) 0
        (fun row hrow => by rw [hrows row hrow, hfront])

end CountGetters

section Returns

variable {R : Type} [LinearOrderedField R]

theorem intervalBody_ok (F : FloatOps R) (P : Params R) (hwf : P.WellFormed)
    (hshape : P.CountsShaped) (c : IntervalCache R) (acc : RangeAcc R) (s : R) (i : Nat)
    (hi : i < P.num_intervals) : ∃ s1, intervalBody F P c acc s i = Except.ok s1 := by
  unfold intervalBody
  by_cases hpa : P.presence_absence = true
  · rw [if_pos hpa]
    exact ⟨_, rfl⟩
  · rw [if_neg hpa]
    by_cases hm : P.marginalize_k = true
    · rw [if_pos hm]
      exact ⟨_, rfl⟩
    · rw [if_neg hm]
      have hnm : P.counts ≠ Counts.marginalized := fun h => hm (hwf.2.2.2.2.2.1.mpr h)
      obtain ⟨n, hn⟩ := getFossilCount_ok P hshape hnm i hi
      rw [hn]
      exact ⟨_, rfl⟩

theorem rangeLoop_ok (F : FloatOps R) (e : Engine R) (hwf : e.par.WellFormed)
    (hlast : e.cache.times (e.par.num_intervals - 1) = 0) :
    ∀ (xs : List Nat), (∀ x, x ∈ xs → x < e.par.numTaxa) →
      ∀ acc, ∃ o, rangeLoop F e xs acc = Except.ok o := by
  intro xs
  induction xs with
  | nil => intro _ acc; exact ⟨some acc, rfl⟩
  | cons x rest ih =>
    intro hall acc
    unfold rangeLoop
    obtain ⟨r, hr⟩ := rangeBody_ok F e hwf hlast acc x (hall x (List.mem_cons_self x rest))
    rw [hr]
    cases r with
    | none => exact ⟨none, rfl⟩
    | some acc2 => exact ih (fun y hy => hall y (List.mem_cons_of_mem x hy)) acc2

/-- On well-formed parameters with count data of the documented shape,
`computeLnProbability` returns: it raises no exception. -/
theorem computeLnProbability_returns (F : FloatOps R) (e : Engine R) (hwf : e.par.WellFormed)
    (hshape : e.par.CountsShaped) : ∃ r e1, computeLnProbability F e = Except.ok (r, e1) := by
  obtain ⟨cache, hU⟩ := updateIntervals_succeeds F e.par hwf e.cache
  have hlast := updateIntervals_times_last F e.par e.cache cache hU hwf.1
  obtain ⟨o, hL⟩ := rangeLoop_ok F (refreshed e cache) hwf hlast (List.range e.par.numTaxa)
    (fun x hx => List.mem_range.mp hx) initialAcc
  cases o with
  | none =>
    unfold refreshed initialAcc at hL
    unfold computeLnProbability
    simp only [hU, hL]
    exact ⟨_, _, rfl⟩
  | some acc =>
    obtain ⟨s2, hI⟩ := foldlM_except_ok (intervalBody F e.par cache acc)
      (fun i => i < e.par.num_intervals)
      (fun s x hx => intervalBody_ok F e.par hwf hshape cache acc s x hx)
      (List.range e.par.num_intervals) (fun x hx => List.mem_range.mp hx)
      (acc.lnProbTimes - F.log acc.maxl)
    exact ⟨_, _, computeLnProbability_of_loops F e cache acc s2 hU hL hI⟩

end Returns

/-! ## Idempotence of the evaluation -/

section IdempotenceClaim

variable {R : Type} [LinearOrderedField R]

/-- C17. Evaluation is idempotent, for every engine state and every interpretation of
the elementary functions. If `computeLnProbability` returns the value `r` and leaves the
engine `e1`, a second call on `e1`, with no change of ranges, parameters or dirty flags
in between, returns the same value `r` and leaves the same engine `e1`: the interval
cache (`birth`, `death`, `fossil`, `times`, `q_i`, `q_tilde_i`, `p_i` and the occurrence
indices) and the overlap cache (`gamma_i`, `gamma_links`) are exactly as the first call
left them. On well-formed parameters with count data of the documented shape the first
call does return, so both calls return the same value. -/
theorem computeLnProbability_idempotent (F : FloatOps R) (e : Engine R) :
    (∀ r e1, computeLnProbability F e = Except.ok (r, e1) →
      computeLnProbability F e1 = Except.ok (r, e1))
    ∧ (e.par.WellFormed → e.par.CountsShaped →
        ∃ r e1, computeLnProbability F e = Except.ok (r, e1)
          ∧ computeLnProbability F e1 = Except.ok (r, e1)) := by
  have key : ∀ r e1, computeLnProbability F e = Except.ok (r, e1) →
      computeLnProbability F e1 = Except.ok (r, e1) := by
    intro r e1 h
    obtain ⟨cache, hU, he1⟩ := computeLnProbability_state F e e1 r h
    rw [he1, computeLnProbability_again F e cache hU, ← he1]
    exact h
  refine ⟨key, ?_⟩
  intro hwf hshape
  obtain ⟨r, e1, h⟩ := computeLnProbability_returns F e hwf hshape
  exact ⟨r, e1, h, key r e1 h⟩

theorem paramsThree_wellFormed : paramsThree.WellFormed := by
  refine ⟨by decide, rfl, ?_, ?_, ?_, ?_, ?_⟩
  · intro v hv
    cases hv
  · intro v hv
    cases hv
  · intro v hv
    cases hv
  · exact ⟨fun _ => rfl, fun _ => rfl⟩
  · intro h
    cases h

/-- The scenario of C17: three ranges with start `2` and end `0`, one interval, rates
`1`, `1 / 2`, `1 / 5`, boundary sampling probability `1`. The constructed engine
evaluates to a finite value, and a second evaluation returns the same value and
state. -/
theorem computeLnProbability_idempotent_witness :
    construct argsThree rangesThree = Except.ok engineThree
    ∧ engineThree.par.WellFormed ∧ engineThree.par.CountsShaped
    ∧ (∃ x e1, computeLnProbability stubOps engineThree = Except.ok (LnProb.finite x, e1)
        ∧ computeLnProbability stubOps e1 = Except.ok (LnProb.finite x, e1))
    ∧ (∃ r e1, computeLnProbability stubOps engineThree = Except.ok (r, e1)
        ∧ computeLnProbability stubOps e1 = Except.ok (r, e1)) :=
  ⟨rfl, paramsThree_wellFormed, trivial,
    ⟨_, _, rfl, (computeLnProbability_idempotent stubOps engineThree).1 _ _ rfl⟩,
    (computeLnProbability_idempotent stubOps engineThree).2 paramsThree_wellFormed trivial⟩

end IdempotenceClaim

/-! ## The dirty-flag write -/

/-- For two or more taxa the index that `touchSpecialization` computes from an element
index below `2 * n` is below `n`. -/
theorem touched_range_lt (n e : Nat) (hn : 2 ≤ n) (he : e < 2 * n) : e / n < n := by
  have hpos : 0 < n := by omega
  have h1 : e / n < 2 := (Nat.div_lt_iff_lt_mul hpos).mpr he
  omega

/-- C29, evaluated at a failing input: with one taxon (`n = 1`, `dirty_gamma` of length
`1`) and the touched element `(0, 1)`, element index `2 * 0 + 1 = 1 < 2 * n`,
`touchSpecialization` computes `touched_range = 1 / 1 = 1` and writes
`dirty_gamma[1]`, one past the end; the flag of range `0` is not set. -/
theorem touchSpecialization_writes_past_end :
    2 * 0 + 1 < 2 * 1
    ∧ ¬ ((2 * 0 + 1) / 1 < 1)
    ∧ (touchSpecialization 1 true [2 * 0 + 1] cleanCache).dirty_gamma 1 = true
    ∧ (touchSpecialization 1 true [2 * 0 + 1] cleanCache).dirty_gamma 0 = false := by
  refine ⟨by decide, by decide, rfl, rfl⟩

/-! ## Interval indices of a range -/

section RangeIndices

variable {R : Type} [LinearOrder R]

/-- On a non-increasing `times` array, `l` is antitone: a later (smaller) time lies in an
interval of larger index. -/
theorem l_antitone (times : Nat → R) (n : Nat)
    (hmono : ∀ i j, i ≤ j → j < n → times j ≤ times i) (t1 t2 : R) (h : t1 ≤ t2) :
    l times n t2 ≤ l times n t1 := by
  by_contra hlt
  have hlt2 : l times n t1 < l times n t2 := not_le.mp hlt
  obtain ⟨hle2, hbefore2, _⟩ := l_spec times n t2 hmono
  obtain ⟨_, _, hafter1⟩ := l_spec times n t1 hmono
  have h1 : t2 < times (l times n t1) := hbefore2 _ hlt2
  have h2 : times (l times n t1) ≤ t1 := hafter1 _ (le_refl _) (by omega)
  exact absurd (lt_of_lt_of_le h1 (le_trans h2 h)) (lt_irrefl _)

end RangeIndices

section RangeIndicesField

variable {R : Type} [LinearOrderedField R]

/-- What a range that passes the constraint check outside the presence/absence regime
satisfies. -/
theorem constraint_ok_order (b d o y : R) (yi di : Nat)
    (h : constraintViolated false b d o y yi di = false) :
    o < b ∧ y ≤ o ∧ d ≤ y ∧ 0 ≤ d := by
  unfold constraintViolated at h
  simp only [Bool.false_eq_true, if_false, Bool.not_eq_false', decide_eq_true_eq] at h
  obtain ⟨h1, h2, h3, h4⟩ := h
  refine ⟨h1, h2, ?_, h4⟩
  rcases h3 with h3 | h3
  · exact le_of_lt h3
  · exact le_of_eq h3.1.symm

/-- C28. Index safety of the per-range pass. Outside the presence/absence regime, for
every non-increasing `times` array of `n = num_intervals` entries that ends in `0` and
every range that passes the constraint check, the interval indices satisfy
`l(b) ≤ l(o) ≤ l(y) ≤ l(d) < n`. Hence every index the pass uses for that range is in
bounds: `bi`, `di`, `oi`, `yi` index arrays of `n` entries; `j + 1` for `bi ≤ j < oi` and
for `oi ≤ j < di` indexes `q_i` and `q_tilde_i`, of `n + 1` entries; when `oi ≠ yi` the
index `yi - 1` does not wrap around, and the indices `j - 1` and `j` for `oi < j < yi`
index `times`. -/
theorem range_indices_in_bounds (times : Nat → R) (n : Nat) (hn : 0 < n)
    (hmono : ∀ i j, i ≤ j → j < n → times j ≤ times i) (hlast : times (n - 1) = 0)
    (b d o y : R)
    (hpass : constraintViolated false b d o y (l times n y) (l times n d) = false) :
    l times n b ≤ l times n o ∧ l times n o ≤ l times n y ∧ l times n y ≤ l times n d
    ∧ l times n d < n
    ∧ (∀ j, j ∈ List.range' (l times n b) (l times n o - l times n b) → j + 1 < n + 1)
    ∧ (∀ j, j ∈ List.range' (l times n o) (l times n d - l times n o) → j + 1 < n + 1)
    ∧ (l times n o ≠ l times n y → 1 ≤ l times n y ∧ l times n y - 1 < n)
    ∧ (∀ j, j ∈ List.range' (l times n o + 1) (l times n y - (l times n o + 1)) →
        1 ≤ j ∧ j < n) := by
  obtain ⟨hob, hyo, hdy, hd0⟩ := constraint_ok_order b d o y _ _ hpass
  have h1 : l times n b ≤ l times n o := l_antitone times n hmono o b (le_of_lt hob)
  have h2 : l times n o ≤ l times n y := l_antitone times n hmono y o hyo
  have h3 : l times n y ≤ l times n d := l_antitone times n hmono d y hdy
  have h4 : l times n d < n := l_lt_of_last_le times n d hn (by rw [hlast]; exact hd0)
  refine ⟨h1, h2, h3, h4, ?_, ?_, ?_, ?_⟩
  · intro j hj
    have := List.mem_range'_1.mp hj
    omega
  · intro j hj
    have := List.mem_range'_1.mp hj
    omega
  · intro hne
    omega
  · intro j hj
    have := List.mem_range'_1.mp hj
    omega

/-- An instance of C28 on the array `30, 20, 10, 0`: the range with start `35`, oldest
observation `25`, youngest observation `5` and end `0` has the indices `0 ≤ 1 ≤ 3 ≤ 3`. -/
theorem range_indices_in_bounds_witness :
    constraintViolated false (35 : ℚ) 0 25 5 (l timesA 4 5) (l timesA 4 0) = false
    ∧ l timesA 4 35 = 0 ∧ l timesA 4 25 = 1 ∧ l timesA 4 5 = 3 ∧ l timesA 4 0 = 3
    ∧ (l timesA 4 35 ≤ l timesA 4 25 ∧ l timesA 4 25 ≤ l timesA 4 5
      ∧ l timesA 4 5 ≤ l timesA 4 0 ∧ l timesA 4 0 < 4
      ∧ (∀ j, j ∈ List.range' (l timesA 4 35) (l timesA 4 25 - l timesA 4 35) → j + 1 < 4 + 1)
      ∧ (∀ j, j ∈ List.range' (l timesA 4 25) (l timesA 4 0 - l timesA 4 25) → j + 1 < 4 + 1)
      ∧ (l timesA 4 25 ≠ l timesA 4 5 → 1 ≤ l timesA 4 5 ∧ l timesA 4 5 - 1 < 4)
      ∧ (∀ j, j ∈ List.range' (l timesA 4 25 + 1) (l timesA 4 5 - (l timesA 4 25 + 1)) →
          1 ≤ j ∧ j < 4)) :=
  ⟨by decide, by decide, by decide, by decide, by decide,
    range_indices_in_bounds timesA 4 (by decide) timesA_mono (by decide) 35 0 25 5
      (by decide)⟩

end RangeIndicesField

/-! ## Exposure time in marginalized mode -/

section Exposure

variable {R : Type} [LinearOrderedField R]

theorem setAt_eq {α : Type} (v : Nat → α) (i : Nat) (x : α) (k : Nat) :
    setAt v i x k = if k = i then x else v k := rfl

/-- The loop `for (size_t j = oi + 1; j < yi; j++) L[j] += times[j-1] - times[j]` in
closed form. -/
theorem exposure_fold (times : Nat → R) (a : Nat) :
    ∀ (m : Nat) (L : Nat → R) (k : Nat),
      (List.range' a m).foldl
          (fun (Lj : Nat → R) j => setAt Lj j (Lj j + (times (j - 1) - times j))) L k
        = L k + (if a ≤ k ∧ k < a + m then times (k - 1) - times k else 0) := by
  intro m
  induction m with
  | zero =>
    intro L k
    have hno : ¬ (a ≤ k ∧ k < a + 0) := by omega
    rw [List.range'_zero, List.foldl_nil, if_neg hno, add_zero]
  | succ m ih =>
    intro L k
    rw [List.range'_concat, List.foldl_append, List.foldl_cons, List.foldl_nil, Nat.one_mul,
      setAt_eq]
    by_cases hk : k = a + m
    · rw [if_pos hk, ih L (a + m), hk]
      have h1 : ¬ (a ≤ a + m ∧ a + m < a + m) := by omega
      have h2 : a ≤ a + m ∧ a + m < a + (m + 1) := by omega
      rw [if_neg h1, if_pos h2, add_zero]
    · rw [if_neg hk, ih L k]
      by_cases hin : a ≤ k ∧ k < a + m
      · have h2 : a ≤ k ∧ k < a + (m + 1) := by omega
        rw [if_pos hin, if_pos h2]
      · have h2 : ¬ (a ≤ k ∧ k < a + (m + 1)) := by omega
        rw [if_neg hin, if_neg h2]

/-- The amount `marginalTerms` adds to `L[k]`, for `oi ≤ yi`. -/
theorem marginalTerms_L (c : IntervalCache R) (o y : R) (oi yi : Nat) (hle : oi ≤ yi)
    (kappa_prime : Nat → Int) (L : Nat → R) (k : Nat) :
    (marginalTerms c o y oi yi kappa_prime L).2 k =
      L k + (if oi = yi then (if k = oi then o - y else 0)
             else if k = oi then o - c.times oi
             else if k = yi then c.times (yi - 1) - y
             else if oi < k ∧ k < yi then c.times (k - 1) - c.times k
             else 0) := by
  unfold marginalTerms
  simp only
  by_cases heq : oi = yi
  · rw [if_pos heq, if_pos heq, setAt_eq]
    by_cases hk : k = oi
    · rw [if_pos hk, if_pos hk, hk]
    · rw [if_neg hk, if_neg hk, add_zero]
  · rw [if_neg heq, if_neg heq]
    have hlt : oi < yi := lt_of_le_of_ne hle heq
    by_cases hky : k = yi
    · have hko : ¬ k = oi := by omega
      have hyo : ¬ yi = oi := by omega
      have hno : ¬ (oi + 1 ≤ yi ∧ yi < oi + 1 + (yi - (oi + 1))) := by omega
      rw [if_neg hko, if_pos hky, setAt_eq, if_pos hky, exposure_fold, setAt_eq, if_neg hyo,
        if_neg hno, add_zero, hky]
    · rw [setAt_eq, if_neg hky, exposure_fold, setAt_eq]
      by_cases hko : k = oi
      · have hno : ¬ (oi + 1 ≤ k ∧ k < oi + 1 + (yi - (oi + 1))) := by omega
        rw [if_pos hko, if_pos hko, if_neg hno, add_zero, hko]
      · rw [if_neg hko, if_neg hko, if_neg hky]
        by_cases hin : oi < k ∧ k < yi
        · have h2 : oi + 1 ≤ k ∧ k < oi + 1 + (yi - (oi + 1)) := by omega
          rw [if_pos h2, if_pos hin]
        · have h2 : ¬ (oi + 1 ≤ k ∧ k < oi + 1 + (yi - (oi + 1))) := by omega
          rw [if_neg h2, if_neg hin]

/-- The amounts between `oi < yi` telescope: the sum over the indices below `m`, for
`oi < m ≤ yi`, is `o - times[m - 1]`. -/
theorem exposure_partial_sum (times : Nat → R) (o y : R) (oi yi : Nat) :
    ∀ (m : Nat), oi < m → m ≤ yi →
      (Finset.range m).sum (fun k =>
        if k = oi then o - times oi
        else if k = yi then times (yi - 1) - y
        else if oi < k ∧ k < yi then times (k - 1) - times k
        else 0) = o - times (m - 1) := by
  intro m
  induction m with
  | zero => intro h _; omega
  | succ m ih =>
    intro hlt hle
    rw [Finset.sum_range_succ]
    by_cases hm : m = oi
    · have hzero : (Finset.range m).sum (fun k =>
          if k = oi then o - times oi
          else if k = yi then times (yi - 1) - y
          else if oi < k ∧ k < yi then times (k - 1) - times k
          else 0) = 0 := by
        apply Finset.sum_eq_zero
        intro k hk
        have hkm : k < m := Finset.mem_range.mp hk
        have h1 : ¬ k = oi := by omega
        have h2 : ¬ k = yi := by omega
        have h3 : ¬ (oi < k ∧ k < yi) := by omega
        rw [if_neg h1, if_neg h2, if_neg h3]
      rw [hzero, if_pos hm, zero_add, Nat.add_sub_cancel, hm]
    · have h1 : ¬ m = yi := by omega
      have h3 : oi < m ∧ m < yi := by omega
      rw [ih (by omega) (by omega), if_neg hm, if_neg h1, if_pos h3, Nat.add_sub_cancel]
      ring

/-- C25. Exposure time telescopes. In marginalized mode, for every non-increasing
`times` array and every range with `o ≥ y`, with `oi = l(o)` and `yi = l(y)`: `oi ≤ yi`;
the amounts the range adds to the accumulator `L` are `o - y` at `oi` when `oi = yi`,
and otherwise `o - times[oi]` at `oi`, `times[j-1] - times[j]` at every `oi < j < yi`
and `times[yi-1] - y` at `yi`; nothing is added outside `oi .. yi`; every amount is
non-negative; and the amounts sum to exactly `o - y`. -/
theorem exposure_telescopes (c : IntervalCache R) (n : Nat)
    (hmono : ∀ i j, i ≤ j → j < n → c.times j ≤ c.times i) (o y : R) (hoy : y ≤ o)
    (kappa_prime : Nat → Int) (L : Nat → R) :
    l c.times n o ≤ l c.times n y
    ∧ (∀ k, 0 ≤ (marginalTerms c o y (l c.times n o) (l c.times n y) kappa_prime L).2 k - L k)
    ∧ (l c.times n o = l c.times n y →
        (marginalTerms c o y (l c.times n o) (l c.times n y) kappa_prime L).2 (l c.times n o)
          - L (l c.times n o) = o - y)
    ∧ (l c.times n o ≠ l c.times n y →
        (marginalTerms c o y (l c.times n o) (l c.times n y) kappa_prime L).2 (l c.times n o)
            - L (l c.times n o) = o - c.times (l c.times n o)
        ∧ (∀ j, l c.times n o < j → j < l c.times n y →
            (marginalTerms c o y (l c.times n o) (l c.times n y) kappa_prime L).2 j - L j
              = c.times (j - 1) - c.times j)
        ∧ (marginalTerms c o y (l c.times n o) (l c.times n y) kappa_prime L).2 (l c.times n y)
            - L (l c.times n y) = c.times (l c.times n y - 1) - y)
    ∧ (∀ k, k < l c.times n o ∨ l c.times n y < k →
        (marginalTerms c o y (l c.times n o) (l c.times n y) kappa_prime L).2 k = L k)
    ∧ (Finset.range (l c.times n y + 1)).sum
        (fun k => (marginalTerms c o y (l c.times n o) (l c.times n y) kappa_prime L).2 k - L k)
        = o - y := by
  have hle : l c.times n o ≤ l c.times n y := l_antitone c.times n hmono y o hoy
  obtain ⟨hyn, hybefore, _⟩ := l_spec c.times n y hmono
  obtain ⟨_, _, hoafter⟩ := l_spec c.times n o hmono
  generalize hoi : l c.times n o = oi at *
  generalize hyi : l c.times n y = yi at *
  have hL := marginalTerms_L c o y oi yi hle kappa_prime L
  have hdiff : ∀ k, (marginalTerms c o y oi yi kappa_prime L).2 k - L k =
      (if oi = yi then (if k = oi then o - y else 0)
       else if k = oi then o - c.times oi
       else if k = yi then c.times (yi - 1) - y
       else if oi < k ∧ k < yi then c.times (k - 1) - c.times k
       else 0) := by
    intro k
    rw [hL k]
    ring
  refine ⟨hle, ?_, ?_, ?_, ?_, ?_⟩
  · intro k
    rw [hdiff k]
    by_cases heq : oi = yi
    · rw [if_pos heq]
      by_cases hk : k = oi
      · rw [if_pos hk]
        exact sub_nonneg.mpr hoy
      · rw [if_neg hk]
    · rw [if_neg heq]
      have hlt : oi < yi := lt_of_le_of_ne hle heq
      by_cases hko : k = oi
      · rw [if_pos hko]
        exact sub_nonneg.mpr (hoafter oi (le_refl _) (by omega))
      · rw [if_neg hko]
        by_cases hky : k = yi
        · rw [if_pos hky]
          exact sub_nonneg.mpr (le_of_lt (hybefore (yi - 1) (by omega)))
        · rw [if_neg hky]
          by_cases hin : oi < k ∧ k < yi
          · rw [if_pos hin]
            exact sub_nonneg.mpr (hmono (k - 1) k (by omega) (by omega))
          · rw [if_neg hin]
  · intro heq
    rw [hdiff oi, if_pos heq, if_pos rfl]
  · intro hne
    have hlt : oi < yi := lt_of_le_of_ne hle hne
    refine ⟨?_, ?_, ?_⟩
    · rw [hdiff oi, if_neg hne, if_pos rfl]
    · intro j h1 h2
      have hj1 : ¬ j = oi := by omega
      have hj2 : ¬ j = yi := by omega
      rw [hdiff j, if_neg hne, if_neg hj1, if_neg hj2, if_pos ⟨h1, h2⟩]
    · have hyo : ¬ yi = oi := by omega
      rw [hdiff yi, if_neg hne, if_neg hyo, if_pos rfl]
  · intro k hk
    have h0 := hdiff k
    by_cases heq : oi = yi
    · have hk1 : ¬ k = oi := by omega
      rw [if_pos heq, if_neg hk1] at h0
      exact sub_eq_zero.mp h0
    · have hk1 : ¬ k = oi := by omega
      have hk2 : ¬ k = yi := by omega
      have hk3 : ¬ (oi < k ∧ k < yi) := by omega
      rw [if_neg heq, if_neg hk1, if_neg hk2, if_neg hk3] at h0
      exact sub_eq_zero.mp h0
  · rw [Finset.sum_congr rfl (fun k _ => hdiff k)]
    by_cases heq : oi = yi
    · simp only [if_pos heq]
      rw [Finset.sum_ite_eq', if_pos (Finset.mem_range.mpr (by omega))]
    · simp only [if_neg heq]
      have hlt : oi < yi := lt_of_le_of_ne hle heq
      have hyo : ¬ yi = oi := by omega
      rw [Finset.sum_range_succ, exposure_partial_sum c.times o y oi yi yi hlt (le_refl _),
        if_neg hyo, if_pos rfl]
      ring

/-- An instance of C25 on the array `30, 20, 10, 0`: oldest observation `25` in interval
`1`, youngest observation `5` in interval `3`; the amounts `5`, `10`, `5` sum to `20`. -/
theorem exposure_telescopes_witness :
    (5 : ℚ) ≤ 25
    ∧ l cacheTimesA.times 4 25 = 1 ∧ l cacheTimesA.times 4 5 = 3
    ∧ l cacheTimesA.times 4 25 ≤ l cacheTimesA.times 4 5
    ∧ (∀ k, 0 ≤ (marginalTerms cacheTimesA 25 5 (l cacheTimesA.times 4 25)
          (l cacheTimesA.times 4 5) (fun _ => 0) (fun _ => 0)).2 k - (fun _ => (0 : ℚ)) k)
    ∧ (Finset.range (l cacheTimesA.times 4 5 + 1)).sum
        (fun k => (marginalTerms cacheTimesA 25 5 (l cacheTimesA.times 4 25)
          (l cacheTimesA.times 4 5) (fun _ => 0) (fun _ => 0)).2 k - (fun _ => (0 : ℚ)) k)
        = 25 - 5 :=
  ⟨by decide, by decide, by decide,
    (exposure_telescopes cacheTimesA 4 timesA_mono 25 5 (by decide)
      (fun _ => 0) (fun _ => 0)).1,
    (exposure_telescopes cacheTimesA 4 timesA_mono 25 5 (by decide)
      (fun _ => 0) (fun _ => 0)).2.1,
    (exposure_telescopes cacheTimesA 4 timesA_mono 25 5 (by decide)
      (fun _ => 0) (fun _ => 0)).2.2.2.2.2⟩

end Exposure

/-! ## The closed forms at the younger boundary of an interval -/

section BoundaryContinuity

variable {R : Type} [LinearOrderedField R]

/-- C30. The closed forms are continuous at interior breakpoints. Let `exp 0 = 1` and
`sqrt 1 = 1`, as for the real functions. For every interval `i < num_intervals - 1`
with `A = sqrt((b - d - f)^2 + 4 b f) > 0`, speciation rate `b > 0` and younger boundary
`times[i] ≠ 0`: `q(i, times[i]) = 1`, `q(i, times[i], true) = 1` and
`p(i, times[i]) = p_i[i + 1]`. -/
theorem closed_forms_at_boundary (F : FloatOps R) (P : Params R) (c : IntervalCache R)
    (i : Nat) (hi : i + 1 < P.num_intervals) (hexp : F.exp 0 = 1) (hsqrt : F.sqrt 1 = 1)
    (hA : 0 < F.sqrt ((c.birth i - c.death i - c.fossil i) * (c.birth i - c.death i - c.fossil i)
      + 4 * (c.birth i * c.fossil i)))
    (hb : 0 < c.birth i) (ht : c.times i ≠ 0) :
    q F P c i (c.times i) false = 1
    ∧ q F P c i (c.times i) true = 1
    ∧ p F P c i (c.times i) = c.p_i (i + 1) := by
  have hr : ¬ i = P.num_intervals - 1 := by omega
  have hA0 : F.sqrt ((c.birth i - c.death i - c.fossil i) * (c.birth i - c.death i - c.fossil i)
      + 4 * (c.birth i * c.fossil i)) ≠ 0 := ne_of_gt hA
  have hb0 : c.birth i ≠ 0 := ne_of_gt hb
  refine ⟨?_, ?_, ?_⟩
  · unfold q
    simp only [if_neg ht, sub_self, mul_zero, hexp, one_mul, Bool.false_eq_true, if_false]
    norm_num
  · unfold q
    simp only [if_neg ht, sub_self, mul_zero, hexp, one_mul, if_true]
    norm_num
    exact hsqrt
  · unfold p
    simp only [if_neg ht, if_neg hr, sub_self, mul_zero, hexp, one_mul, sub_zero]
    field_simp
    ring

/-- An instance of C30: two intervals with breakpoint `1`, interval `0` with speciation
rate `20`. -/
theorem closed_forms_at_boundary_witness :
    ∃ c, updateIntervals stubOps paramsAscending initialCache = Except.ok c
      ∧ c.times 0 = 1 ∧ c.birth 0 = 20
      ∧ (q stubOps paramsAscending c 0 (c.times 0) false = 1
        ∧ q stubOps paramsAscending c 0 (c.times 0) true = 1
        ∧ p stubOps paramsAscending c 0 (c.times 0) = c.p_i (0 + 1)) := by
  refine ⟨_, rfl, rfl, rfl, ?_⟩
  exact closed_forms_at_boundary stubOps paramsAscending _ 0 (by decide)
    (by with_unfolding_all decide) (by with_unfolding_all decide)
    (by with_unfolding_all decide) (by with_unfolding_all decide)
    (by with_unfolding_all decide)

end BoundaryContinuity

/-! ## The count/matrix invariant of the overlap cache -/

section CountInvariant

variable {R : Type} [LinearOrder R]

/-- A loop over `List.range` in the `Option` monad whose body agrees with a total body
on every state that satisfies an invariant kept by the total body. -/
theorem foldlM_option_range {σ : Type} (f : σ → Nat → Option σ) (g : σ → Nat → σ)
    (Inv : σ → Prop) (n : Nat)
    (hstep : ∀ s k, k < n → Inv s → f s k = some (g s k) ∧ Inv (g s k)) :
    ∀ (m : Nat), m ≤ n → ∀ s, Inv s →
      (List.range m).foldlM f s = some ((List.range m).foldl g s)
      ∧ Inv ((List.range m).foldl g s) := by
  intro m
  induction m with
  | zero => intro _ s hs; exact ⟨rfl, hs⟩
  | succ m ih =>
    intro hm s hs
    obtain ⟨h1, h2⟩ := ih (by omega) s hs
    obtain ⟨h3, h4⟩ := hstep _ m (by omega) h2
    rw [List.range_succ, List.foldlM_append, h1, List.foldl_append]
    constructor
    · simp [h3]
    · exact h4

/-- A true off-diagonal entry in row `i` makes the count of the row positive. -/
theorem rowCount_pos (n : Nat) (row : Nat → Bool) (i j : Nat) (hj : j < n) (hne : j ≠ i)
    (h : row j = true) : 0 < rowCount n row i := by
  unfold rowCount
  rw [List.countP_pos_iff]
  exact ⟨j, List.mem_range.mpr hj, by simp [hne, h]⟩

/-- The two tests of `updateGammaPairChecked` fail when a true link that is about to be
cleared has a non-zero count. -/
theorem checked_shape {α : Type} (a li b lj : Bool) (gi g1j : Nat) (x : α)
    (h1 : a = true → li = false → gi ≠ 0) (h2 : b = true → lj = false → g1j ≠ 0) :
    (if ((a != li) && (false == false) && (li == false) && (gi == 0)) = true then none
     else if ((b != lj) && (false == false) && (lj == false) && (g1j == 0)) = true then none
     else some x) = some x := by
  cases a <;> cases li <;> cases b <;> cases lj <;> simp_all

/-- Under the invariant, one pass of the inner loop body in incremental mode decrements
no count that is `0`. -/
theorem updateGammaPairChecked_some (value : Nat → R × R) (n i j : Nat) (c : GammaCache)
    (hi : i < n) (hj : j < n) (h : CountsMatch n c) :
    updateGammaPairChecked value false i c j = some (updateGammaPair value false i c j) := by
  unfold updateGammaPairChecked
  by_cases hij : i = j
  · rw [if_pos hij]
    unfold updateGammaPair
    rw [if_pos hij]
  · rw [if_neg hij]
    have hji : ¬ j = i := fun e => hij e.symm
    have h1 : c.gamma_links i j = true →
        decide ((value i).1 < (value j).1 ∧ (value i).1 > (value j).2) = false →
        c.gamma_i i ≠ 0 := by
      intro hold _ hz
      have hpos := rowCount_pos n (c.gamma_links i) i j hj hji hold
      rw [← h i hi, hz] at hpos
      exact absurd hpos (lt_irrefl 0)
    have h2 : ∀ g1 : Nat → Nat, g1 j = c.gamma_i j → c.gamma_links j i = true →
        decide ((value j).1 < (value i).1 ∧ (value j).1 > (value i).2) = false →
        g1 j ≠ 0 := by
      intro g1 hg hold _ hz
      have hpos := rowCount_pos n (c.gamma_links j) j i hi hij hold
      rw [← h j hj, ← hg, hz] at hpos
      exact absurd hpos (lt_irrefl 0)
    refine checked_shape _ _ _ _ _ _ _ h1 (h2 _ ?_)
    split
    · unfold setCount
      rw [if_neg hji]
    · rfl

/-- Under the invariant, one pass of the outer loop body in incremental mode decrements
no count that is `0`, and keeps the invariant. -/
theorem updateGammaRowChecked_some (value : Nat → R × R) (n i : Nat) (c : GammaCache)
    (hn : n < sizeMod) (hi : i < n) (h : CountsMatch n c) :
    updateGammaRowChecked value n false c i = some (updateGammaRow value n false c i)
    ∧ CountsMatch n (updateGammaRow value n false c i) := by
  unfold updateGammaRowChecked updateGammaRow
  by_cases hd : (c.dirty_gamma i || false) = true
  · rw [if_pos hd, if_pos hd]
    simp only [Bool.false_eq_true, if_false, beq_iff_eq]
    exact foldlM_option_range (updateGammaPairChecked value false i)
      (updateGammaPair value false i) (CountsMatch n) n
      (fun s k hk hs => ⟨updateGammaPairChecked_some value n i k s hi hk hs,
        updateGammaPair_countsMatch value n i k s hn hi hk hs⟩) n (le_refl n) c h
  · rw [if_neg hd, if_neg hd]
    exact ⟨rfl, h⟩

/-- Under the invariant, `updateGamma(false)` decrements no count that is `0`. -/
theorem updateGammaChecked_some (value : Nat → R × R) (n : Nat) (c : GammaCache)
    (hn : n < sizeMod) (h : CountsMatch n c) :
    updateGammaChecked value n false c = some (updateGamma value n false c) :=
  (foldlM_option_range (updateGammaRowChecked value n false) (updateGammaRow value n false)
    (CountsMatch n) n
    (fun s k hk hs => updateGammaRowChecked_some value n k s hn hk hs) n (le_refl n) c h).1

/-- The body of the inner loop in forced mode applies no decrement. -/
theorem updateGammaPairChecked_force (value : Nat → R × R) (i j : Nat) (c : GammaCache) :
    updateGammaPairChecked value true i c j = some (updateGammaPair value true i c j) := by
  unfold updateGammaPairChecked
  by_cases hij : i = j
  · rw [if_pos hij]
    unfold updateGammaPair
    rw [if_pos hij]
  · rw [if_neg hij]
    simp

/-- The function `updateGamma(true)` applies no decrement. -/
theorem updateGammaChecked_force (value : Nat → R × R) (n : Nat) (c : GammaCache) :
    updateGammaChecked value n true c = some (updateGamma value n true c) := by
  refine (foldlM_option_range (updateGammaRowChecked value n true) (updateGammaRow value n true)
    (fun _ => True) n (fun s k _ _ => ⟨?_, trivial⟩) n (le_refl n) c trivial).1
  unfold updateGammaRowChecked updateGammaRow
  simp only [Bool.or_true, if_true, beq_self_eq_true]
  exact (foldlM_option_range (updateGammaPairChecked value true k)
    (updateGammaPair value true k) (fun _ => True) n
    (fun s2 k2 _ _ => ⟨updateGammaPairChecked_force value k k2 s2, trivial⟩) n (le_refl n)
    _ trivial).1

/-- The function `updateGamma(true)` establishes the invariant from any state. -/
theorem updateGamma_force_countsMatch (value : Nat → R × R) (n : Nat) (c : GammaCache)
    (hn : n < sizeMod) : CountsMatch n (updateGamma value n true c) := by
  intro i hi
  rw [updateGamma_gamma_force, if_pos hi]
  have hle : rowCount n (link value i) i < sizeMod := lt_of_le_of_lt (rowCount_le n _ i) hn
  rw [Nat.mod_eq_of_lt hle]
  apply rowCount_congr
  intro j hj hne
  rw [updateGamma_links, if_pos ⟨fun e => hne e.symm, hi, hj, by simp⟩]

/-- C27. Count/matrix invariant of the overlap cache. The predicate "for every range
`i < n`, `gamma_i[i]` equals the number of `j ≠ i` with `gamma_links[i][j]` true" is
established by `updateGamma(true)` from any state and preserved by `updateGamma(false)`
for every range data and every dirty set; under it `updateGamma(false)` never applies a
decrement to a count that is `0` (the run with the wrap-around reported returns the
same cache), and `updateGamma(true)` applies no decrement at all. -/
theorem count_matrix_invariant (value : Nat → R × R) (n : Nat) (c : GammaCache)
    (hn : n < sizeMod) :
    CountsMatch n (updateGamma value n true c)
    ∧ (CountsMatch n c → CountsMatch n (updateGamma value n false c))
    ∧ (CountsMatch n c →
        updateGammaChecked value n false c = some (updateGamma value n false c))
    ∧ updateGammaChecked value n true c = some (updateGamma value n true c) :=
  ⟨updateGamma_force_countsMatch value n c hn,
    fun h => updateGamma_incr_countsMatch value n c hn h,
    fun h => updateGammaChecked_some value n c hn h,
    updateGammaChecked_force value n c⟩

/-- An instance of C27 on three ranges: the forced run on a stale cache establishes the
invariant, and the incremental run after range 1 has moved decrements no zero count. On
a cache that violates the invariant the incremental run does wrap around. -/
theorem count_matrix_invariant_witness :
    CountsMatch 3 cacheA
    ∧ CountsMatch 3 (updateGamma rangesA 3 true staleCache)
    ∧ CountsMatch 3 (updateGamma rangesB 3 false cacheA)
    ∧ updateGammaChecked rangesB 3 false cacheA = some (updateGamma rangesB 3 false cacheA)
    ∧ updateGammaChecked rangesC 2 false brokenCache = none := by
  have hA : CountsMatch 3 cacheA := by
    intro i hi
    interval_cases i <;> rfl
  exact ⟨hA, (count_matrix_invariant rangesA 3 staleCache (by decide)).1,
    (count_matrix_invariant rangesB 3 cacheA (by decide)).2.1 hA,
    (count_matrix_invariant rangesB 3 cacheA (by decide)).2.2.1 hA, rfl⟩

end CountInvariant

/-! ## The inverse Wishart log-density -/

section InverseWishartReads

variable {R : Type}

theorem readKappa_replicate (kappa : R) (n i : Nat) (hi : i < n) :
    readKappa (List.replicate n kappa) i = Except.ok kappa := by
  unfold readKappa
  have hlen : i < (List.replicate n kappa).length := by rw [List.length_replicate]; exact hi
  rw [List.get?_eq_get hlen]
  simp

end InverseWishartReads

section InverseWishartLemmas

variable {R : Type} [LinearOrderedField R]

/-- A loop over `List.range` whose body returns on every index below `n` is the loop
of the returned values. -/
theorem foldlM_except_range {σ : Type} (f : σ → Nat → Except String σ) (g : σ → Nat → σ)
    (n : Nat) (hstep : ∀ s k, k < n → f s k = Except.ok (g s k)) :
    ∀ (m : Nat), m ≤ n → ∀ s,
      (List.range m).foldlM f s = Except.ok ((List.range m).foldl g s) := by
  intro m
  induction m with
  | zero => intro _ s; rfl
  | succ m ih =>
    intro hm s
    rw [List.range_succ, List.foldlM_append, ih (by omega) s, List.foldl_append]
    simp only [List.foldlM_cons, List.foldlM_nil, List.foldl_cons, List.foldl_nil]
    show (Except.ok _ >>= fun s1 => f s1 m >>= pure) = _
    rw [show (Except.ok ((List.range m).foldl g s) >>= fun s1 => f s1 m >>= pure)
      = (f ((List.range m).foldl g s) m >>= pure) from rfl, hstep _ m (by omega)]
    rfl

/-- Adding the same term `m` times. -/
theorem foldl_add_const (t : R) (m : Nat) (s : R) :
    (List.range m).foldl (fun (ret : R) (_ : Nat) => ret + t) s = s + (m : R) * t := by
  induction m with
  | zero => simp
  | succ m ih =>
    rw [foldl_range_succ, ih]
    push_cast
    ring

/-- C23. The inverse Wishart log-density overloads agree on the scale matrices they are
documented to stand for: for every `kappa`, `df` and `z` of dimension `dim`,
`lnPdf(v, df, z)` for the vector `v` of `dim` copies of `kappa` returns what
`lnPdf(kappa, df, z)` returns. Each `pdf` overload is `exp` of the matching `lnPdf`; when
`z` is not positive every `lnPdf` is negative infinity and every `pdf` is `0`. -/
theorem lnPdf_overloads_agree (F : FloatOps R) (kappa : R) (df : Nat) (z : MatrixReal R) :
    lnPdfVector F (List.replicate z.dim kappa) df z = Except.ok (lnPdfScalar F kappa df z)
    ∧ pdfScalar F kappa df z = expLn F (lnPdfScalar F kappa df z)
    ∧ pdfVector F (List.replicate z.dim kappa) df z
        = Except.ok (expLn F (lnPdfScalar F kappa df z))
    ∧ (∀ sigma0 : MatrixReal R, pdfMatrix F sigma0 df z = expLn F (lnPdfMatrix sigma0 df z))
    ∧ (z.isPositive = false →
        lnPdfScalar F kappa df z = LnProb.neginf ∧ pdfScalar F kappa df z = 0
        ∧ (∀ v : List R, lnPdfVector F v df z = Except.ok LnProb.neginf
            ∧ pdfVector F v df z = Except.ok 0)
        ∧ (∀ sigma0 : MatrixReal R, lnPdfMatrix sigma0 df z = LnProb.neginf
            ∧ pdfMatrix F sigma0 df z = 0)) := by
  have hvec : lnPdfVector F (List.replicate z.dim kappa) df z
      = Except.ok (lnPdfScalar F kappa df z) := by
    unfold lnPdfVector lnPdfScalar
    cases hz : z.isPositive
    · rfl
    · have h1 := foldlM_except_range
        (fun (ret : R) i => do
          let k ← readKappa (List.replicate z.dim kappa) i
          pure (ret + 1 / 2 * (df : R) * F.log k))
        (fun (ret : R) (_ : Nat) => ret + 1 / 2 * (df : R) * F.log kappa) z.dim
        (fun s k hk => by
          simp only [readKappa_replicate kappa z.dim k hk]
          rfl)
        z.dim (le_refl _) 0
      have h2 := foldlM_except_range
        (fun (tr : R) i => do
          let k ← readKappa (List.replicate z.dim kappa) i
          pure (tr + k * z.inverse i i))
        (fun (tr : R) (i : Nat) => tr + kappa * z.inverse i i) z.dim
        (fun s k hk => by
          simp only [readKappa_replicate kappa z.dim k hk]
          rfl)
        z.dim (le_refl _) 0
      simp only [Bool.true_eq_false, beq_iff_eq, if_false, Bool.not_true, Bool.false_eq_true]
      rw [h1, h2, foldl_add_const]
      simp only [bind, Except.bind, pure, Except.pure, Except.ok.injEq, LnProb.finite.injEq]
      ring
  refine ⟨hvec, rfl, ?_, fun _ => rfl, ?_⟩
  · unfold pdfVector
    rw [hvec]
  · intro hz
    have hs : lnPdfScalar F kappa df z = LnProb.neginf := by
      unfold lnPdfScalar
      simp [hz]
    have hv : ∀ v : List R, lnPdfVector F v df z = Except.ok LnProb.neginf := by
      intro v
      unfold lnPdfVector
      simp [hz]
    have hm : ∀ sigma0 : MatrixReal R, lnPdfMatrix sigma0 df z = LnProb.neginf := by
      intro sigma0
      unfold lnPdfMatrix
      simp [hz]
    refine ⟨hs, ?_, ?_, ?_⟩
    · unfold pdfScalar
      rw [hs]
      rfl
    · intro v
      refine ⟨hv v, ?_⟩
      unfold pdfVector
      rw [hv v]
      rfl
    · intro sigma0
      refine ⟨hm sigma0, ?_⟩
      unfold pdfMatrix
      rw [hm sigma0]
      rfl

/-- Two instances of C23 in dimension `2` with `kappa = 3` and `df = 4`: a positive
matrix, and a matrix that is not positive. -/
theorem lnPdf_overloads_agree_witness :
    lnPdfVector stubOps [3, 3] 4 matrixTwo = Except.ok (lnPdfScalar stubOps 3 4 matrixTwo)
    ∧ (∃ x, lnPdfScalar stubOps 3 4 matrixTwo = LnProb.finite x)
    ∧ matrixNotPositive.isPositive = false
    ∧ lnPdfScalar stubOps 3 4 matrixNotPositive = LnProb.neginf
    ∧ pdfScalar stubOps 3 4 matrixNotPositive = 0 :=
  ⟨(lnPdf_overloads_agree stubOps 3 4 matrixTwo).1, ⟨_, rfl⟩, rfl,
    ((lnPdf_overloads_agree stubOps 3 4 matrixNotPositive).2.2.2.2 rfl).1,
    ((lnPdf_overloads_agree stubOps 3 4 matrixNotPositive).2.2.2.2 rfl).2.1⟩

end InverseWishartLemmas

/-! ## Cached boundary values -/

section BoundaryValuesShape

variable {R : Type}

theorem sameAt_refl (a : IntervalCache R) (k : Nat) : SameAt a a k :=
  ⟨rfl, rfl, rfl, rfl, rfl, rfl, rfl⟩

theorem sameAt_trans {a b c : IntervalCache R} {k : Nat} (h1 : SameAt a b k)
    (h2 : SameAt b c k) : SameAt a c k :=
  ⟨h1.1.trans h2.1, h1.2.1.trans h2.2.1, h1.2.2.1.trans h2.2.2.1,
    h1.2.2.2.1.trans h2.2.2.2.1, h1.2.2.2.2.1.trans h2.2.2.2.2.1,
    h1.2.2.2.2.2.1.trans h2.2.2.2.2.2.1, h1.2.2.2.2.2.2.trans h2.2.2.2.2.2.2⟩

/-- The presence/absence pass writes the occurrence indices only. -/
theorem markOccurrence_same (P : Params R) (i : Nat) (st st1 : IntervalCache R × (Nat → Bool))
    (j : Nat) (h : markOccurrence P i st j = Except.ok st1) (k : Nat) :
    SameAt st1.1 st.1 k := by
  unfold markOccurrence at h
  cases hc : getFossilCountAt P.counts P.ascending i j with
  | error msg => rw [hc] at h; cases h
  | ok count =>
    rw [hc] at h
    simp only at h
    split at h
    · split at h <;> (cases h; exact sameAt_refl _ k)
    · cases h; exact sameAt_refl _ k

theorem markOccurrence_fold_same (P : Params R) (i : Nat) (xs : List Nat)
    (st st1 : IntervalCache R × (Nat → Bool))
    (h : List.foldlM (markOccurrence P i) st xs = Except.ok st1) (k : Nat) :
    SameAt st1.1 st.1 k :=
  foldlM_except_rel (markOccurrence P i) (fun a b => SameAt b.1 a.1 k)
    (fun _ => sameAt_refl _ k) (fun _ _ _ hab hbc => sameAt_trans hbc hab)
    (fun s x s1 hs => markOccurrence_same P i s s1 x hs k) xs st st1 h

end BoundaryValuesShape

section BoundaryValues

variable {R : Type} [LinearOrderedField R]

/-- The function `q(i, t, tilde)` reads the cache at index `i` and `p_i` at `i + 1`. -/
theorem q_congr (F : FloatOps R) (P : Params R) (a b : IntervalCache R) (i : Nat) (t : R)
    (tilde : Bool) (h : SameAt a b i) (hp : a.p_i (i + 1) = b.p_i (i + 1)) :
    q F P a i t tilde = q F P b i t tilde := by
  obtain ⟨h1, h2, h3, h4, _, _, _⟩ := h
  unfold q
  rw [h1, h2, h3, h4, hp]

/-- The function `p(i, t)` reads the cache at index `i` and `p_i` at `i + 1`. -/
theorem p_congr (F : FloatOps R) (P : Params R) (a b : IntervalCache R) (i : Nat) (t : R)
    (h : SameAt a b i) (hp : a.p_i (i + 1) = b.p_i (i + 1)) :
    p F P a i t = p F P b i t := by
  obtain ⟨h1, h2, h3, h4, _, _, _⟩ := h
  unfold p
  rw [h1, h2, h3, h4, hp]

/-- One pass of the body of `updateIntervals` for interval `i`: the entries at other
indices are kept, and for `i > 0` the three values stored at `i` are the point
evaluations at the older boundary `t = getIntervalTime(i - 1)`, when `t ≠ 0`. -/
theorem updateIntervalsStep_boundary (F : FloatOps R) (P : Params R)
    (st st1 : IntervalCache R × (Nat → Bool)) (i : Nat)
    (h : updateIntervalsStep F P st i = Except.ok st1) :
    (∀ k, k ≠ i → SameAt st1.1 st.1 k)
    ∧ (0 < i → ∃ t, getIntervalTime P.num_intervals P.timeline P.ascending (i - 1) = Except.ok t
        ∧ (t ≠ 0 → st1.1.q_i i = q F P st1.1 i t false
            ∧ st1.1.q_tilde_i i = q F P st1.1 i t true
            ∧ st1.1.p_i i = p F P st1.1 i t)) := by
  unfold updateIntervalsStep at h
  cases hb : getSpeciationRate P.ascending P.lambda i with
  | error msg => rw [hb] at h; cases h
  | ok b =>
  cases hd : getExtinctionRate P.ascending P.mu i with
  | error msg => rw [hb, hd] at h; cases h
  | ok d =>
  cases hf : getFossilizationRate P.ascending P.psi i with
  | error msg => rw [hb, hd, hf] at h; cases h
  | ok f =>
  cases ht : getIntervalTime P.num_intervals P.timeline P.ascending i with
  | error msg => rw [hb, hd, hf, ht] at h; cases h
  | ok ti =>
    rw [hb, hd, hf, ht] at h
    simp only [bind, Except.bind] at h
    by_cases hi : i > 0
    · simp only [hi, if_true] at h
      cases ht1 : getIntervalTime P.num_intervals P.timeline P.ascending (i - 1) with
      | error msg => rw [ht1] at h; cases h
      | ok t1 =>
        rw [ht1] at h
        simp only [pure, Except.pure] at h
        have hA : F.sqrt ((b - d - f) * (b - d - f) + 4 * b * f)
            = F.sqrt ((b - d - f) * (b - d - f) + 4 * (b * f)) := by rw [mul_assoc]
        have hne : ¬ (i + 1 = i) := by omega
        by_cases hpa : P.presence_absence = true
        · simp only [hpa, if_true] at h
          have hs := markOccurrence_fold_same P i _ _ _ h
          simp only at hs
          refine ⟨fun k hk => ?_, fun _ => ⟨t1, rfl, fun ht0 => ?_⟩⟩
          · refine sameAt_trans (hs k) ?_
            simp [SameAt, setAt, hk]
          · obtain ⟨h1, h2, h3, h4, h5, h6, h7⟩ := hs i
            have h8 := (hs (i + 1)).2.2.2.2.2.2
            simp only [q, p, ht0, if_false, h1, h2, h3, h4, h5, h6, h7, h8, setAt, if_true,
              hne, hA, Bool.false_eq_true]
            exact ⟨trivial, trivial, trivial⟩
        · simp only [hpa] at h
          cases h
          refine ⟨fun k hk => ?_, fun _ => ⟨t1, rfl, fun ht0 => ?_⟩⟩
          · simp [SameAt, setAt, hk]
          · simp only [q, p, ht0, if_false, setAt, if_true, hne, hA, Bool.false_eq_true]
            exact ⟨trivial, trivial, trivial⟩
    · simp only [hi, if_false, pure, Except.pure] at h
      refine ⟨fun k hk => ?_, fun h0 => absurd h0 hi⟩
      by_cases hpa : P.presence_absence = true
      · simp only [hpa, if_true] at h
        refine sameAt_trans (markOccurrence_fold_same P i _ _ _ h k) ?_
        simp [SameAt, setAt, hk]
      · simp only [hpa] at h
        cases h
        simp [SameAt, setAt, hk]

/-- The descending loop of `updateIntervals` over `m - 1, ..., 0`: entries at indices
`m` and above are kept, and every index `0 < i < m` ends with the point evaluations at
its older boundary. -/
theorem updateIntervals_fold_boundary (F : FloatOps R) (P : Params R) :
    ∀ (m : Nat) (st st1 : IntervalCache R × (Nat → Bool)),
      List.foldlM (updateIntervalsStep F P) st (List.range m).reverse = Except.ok st1 →
      (∀ k, m ≤ k → SameAt st1.1 st.1 k)
      ∧ (∀ i, 0 < i → i < m →
          ∃ t, getIntervalTime P.num_intervals P.timeline P.ascending (i - 1) = Except.ok t
            ∧ (t ≠ 0 → st1.1.q_i i = q F P st1.1 i t false
                ∧ st1.1.q_tilde_i i = q F P st1.1 i t true
                ∧ st1.1.p_i i = p F P st1.1 i t)) := by
  intro m
  induction m with
  | zero =>
    intro st st1 h
    rw [List.range_zero, List.reverse_nil, foldlM_except_nil] at h
    cases h
    exact ⟨fun k _ => sameAt_refl _ k, fun i _ hi => absurd hi (Nat.not_lt_zero i)⟩
  | succ m ih =>
    intro st st1 h
    rw [range_succ_reverse, foldlM_except_cons] at h
    cases hs : updateIntervalsStep F P st m with
    | error msg => rw [hs] at h; cases h
    | ok st2 =>
      rw [hs] at h
      obtain ⟨hframe2, hb2⟩ := updateIntervalsStep_boundary F P st st2 m hs
      obtain ⟨hframe1, hb1⟩ := ih st2 st1 h
      refine ⟨fun k hk => ?_, fun i hi0 him => ?_⟩
      · exact sameAt_trans (hframe1 k (by omega)) (hframe2 k (by omega))
      · by_cases hlt : i < m
        · exact hb1 i hi0 hlt
        · have him2 : i = m := by omega
          subst him2
          obtain ⟨t, ht, hv⟩ := hb2 hi0
          refine ⟨t, ht, fun ht0 => ?_⟩
          obtain ⟨v1, v2, v3⟩ := hv ht0
          have hsame := hframe1 i (le_refl i)
          have hp1 := (hframe1 (i + 1) (by omega)).2.2.2.2.2.2
          rw [q_congr F P st1.1 st2.1 i t false hsame hp1,
            q_congr F P st1.1 st2.1 i t true hsame hp1,
            p_congr F P st1.1 st2.1 i t hsame hp1,
            hsame.2.2.2.2.1, hsame.2.2.2.2.2.1, hsame.2.2.2.2.2.2]
          exact ⟨v1, v2, v3⟩

/-- C24: after `updateIntervals` returns the cache `r`, for every interval index
`0 < i < num_intervals` whose older boundary `t = times[i - 1]` is not zero the cached
values are the point evaluations `q_i[i] = q(i, t)`, `q_tilde_i[i] = q(i, t, true)` and
`p_i[i] = p(i, t)` taken on `r` itself; the entries of `q_i`, `q_tilde_i` and `p_i` at
`num_intervals` and beyond are the ones the call started with (1 after the
constructor), so the values of interval `i` depend on `p_i[i + 1]` only. -/
theorem cached_boundary_values (F : FloatOps R) (P : Params R) (c r : IntervalCache R)
    (h : updateIntervals F P c = Except.ok r) :
    (∀ i, 0 < i → i < P.num_intervals → r.times (i - 1) ≠ 0 →
        r.q_i i = q F P r i (r.times (i - 1)) false
        ∧ r.q_tilde_i i = q F P r i (r.times (i - 1)) true
        ∧ r.p_i i = p F P r i (r.times (i - 1)))
    ∧ (∀ k, P.num_intervals ≤ k →
        r.p_i k = c.p_i k ∧ r.q_i k = c.q_i k ∧ r.q_tilde_i k = c.q_tilde_i k) := by
  have hok := updateIntervals_ok F P c r h
  unfold updateIntervals at h
  cases hf : List.foldlM (updateIntervalsStep F P) (c, fun _ => true)
      (List.range P.num_intervals).reverse with
  | error msg => rw [hf] at h; cases h
  | ok stA =>
    rw [hf] at h
    simp only [Except.ok.injEq] at h
    obtain ⟨hframe, hb⟩ := updateIntervals_fold_boundary F P P.num_intervals _ _ hf
    rw [h] at hframe hb
    refine ⟨fun i hi0 hin ht0 => ?_, fun k hk => ?_⟩
    · obtain ⟨t, ht, hv⟩ := hb i hi0 hin
      have htimes : getIntervalTime P.num_intervals P.timeline P.ascending (i - 1)
          = Except.ok (r.times (i - 1)) := (hok (i - 1) (by omega)).2.2.2
      rw [htimes] at ht
      cases ht
      exact hv ht0
    · obtain ⟨_, _, _, _, h5, h6, h7⟩ := hframe k hk
      exact ⟨h7, h5, h6⟩

/-- An instance of C24: two intervals with breakpoint `1`; interval `1` has the older
boundary `times[0] = 1`, and `p_i[2]` keeps the constructor value `1`. -/
theorem cached_boundary_values_witness :
    ∃ r, updateIntervals stubOps paramsAscending initialCache = Except.ok r
      ∧ r.times (1 - 1) = 1
      ∧ (r.q_i 1 = q stubOps paramsAscending r 1 (r.times (1 - 1)) false
        ∧ r.q_tilde_i 1 = q stubOps paramsAscending r 1 (r.times (1 - 1)) true
        ∧ r.p_i 1 = p stubOps paramsAscending r 1 (r.times (1 - 1)))
      ∧ r.p_i 2 = 1 := by
  refine ⟨_, rfl, rfl, ?_, ?_⟩
  · exact (cached_boundary_values stubOps paramsAscending initialCache _ rfl).1 1
      (by decide) (by decide) (by with_unfolding_all decide)
  · exact ((cached_boundary_values stubOps paramsAscending initialCache _ rfl).2 2
      (by decide)).1

end BoundaryValues

/-! ## Presence/absence data are read as booleans -/

theorem toInt_of_range (x : Int) (h1 : -(2 ^ 31) ≤ x) (h2 : x < 2 ^ 31) : toInt x = x := by
  unfold toInt
  norm_num at h1 h2 ⊢
  omega

/-- Two matrices with the same presence pattern: `getFossilCount(interval, species)`
fails on both with the same message or returns counts of the same positivity. -/
theorem getFossilCountAt_presence (m m2 : List (List Int)) (h : SamePresence m m2)
    (asc : Bool) (i j : Nat) :
    (∃ msg, getFossilCountAt (Counts.perSpeciesInterval m) asc i j = Except.error msg
      ∧ getFossilCountAt (Counts.perSpeciesInterval m2) asc i j = Except.error msg)
    ∨ (∃ x x2, getFossilCountAt (Counts.perSpeciesInterval m) asc i j = Except.ok x
      ∧ getFossilCountAt (Counts.perSpeciesInterval m2) asc i j = Except.ok x2
      ∧ (x > 0 ↔ x2 > 0)) := by
  obtain ⟨hlen, hrows⟩ := h
  unfold getFossilCountAt
  simp only
  by_cases hj : j ≥ m.length
  · have hj2 : j ≥ m2.length := hlen ▸ hj
    left
    exact ⟨"Fossil count index out of bounds", by rw [if_pos hj], by rw [if_pos hj2]⟩
  · have hj2 : ¬ j ≥ m2.length := hlen ▸ hj
    obtain ⟨hrow, hent⟩ := hrows j (by omega)
    by_cases hi : i ≥ (m.getD j []).length
    · have hi2 : i ≥ (m2.getD j []).length := hrow ▸ hi
      left
      exact ⟨"Fossil count index out of bounds", by rw [if_neg hj, if_pos hi],
        by rw [if_neg hj2, if_pos hi2]⟩
    · have hi2 : ¬ i ≥ (m2.getD j []).length := hrow ▸ hi
      right
      refine ⟨_, _, by rw [if_neg hj, if_neg hi], by rw [if_neg hj2, if_neg hi2], ?_⟩
      rw [← hrow]
      cases asc
      · obtain ⟨⟨a1, a2⟩, ⟨b1, b2⟩, hpos⟩ := hent i (by omega)
        simp only [Bool.false_eq_true, if_false]
        rw [toInt_of_range _ a1 a2, toInt_of_range _ b1 b2]
        exact hpos
      · obtain ⟨⟨a1, a2⟩, ⟨b1, b2⟩, hpos⟩ := hent ((m.getD j []).length - 1 - i) (by omega)
        simp only [if_true]
        rw [toInt_of_range _ a1 a2, toInt_of_range _ b1 b2]
        exact hpos

section PresenceMarks

variable {R : Type}

theorem markOccurrence_presence (P : Params R) (m m2 : List (List Int))
    (h : SamePresence m m2) :
    markOccurrence (P.withCounts m) = markOccurrence (P.withCounts m2) := by
  funext i st j
  unfold markOccurrence
  simp only [Params.withCounts]
  rcases getFossilCountAt_presence m m2 h P.ascending i j with ⟨msg, h1, h2⟩ | ⟨x, x2, h1, h2, hx⟩
  · rw [h1, h2]
  · rw [h1, h2]
    by_cases hpos : x > 0
    · simp only [hpos, hx.mp hpos, if_true]
    · simp only [hpos, mt hx.mpr hpos, if_false]

end PresenceMarks

section PresenceOnly

variable {R : Type} [LinearOrderedField R]

/-- A continuation that reads a count only through the test `count > 0` runs the same
on two matrices with the same presence pattern. -/
theorem presence_bind {β : Type} (m m2 : List (List Int)) (h : SamePresence m m2)
    (asc : Bool) (i j : Nat) (k k2 : Int → Except String β)
    (hk : ∀ x x2, (x > 0 ↔ x2 > 0) → k x = k2 x2) :
    (getFossilCountAt (Counts.perSpeciesInterval m) asc i j >>= k)
      = (getFossilCountAt (Counts.perSpeciesInterval m2) asc i j >>= k2) := by
  rcases getFossilCountAt_presence m m2 h asc i j with ⟨msg, h1, h2⟩ | ⟨x, x2, h1, h2, hx⟩
  · rw [h1, h2]
    rfl
  · rw [h1, h2]
    exact hk x x2 hx

theorem updateIntervalsStep_presence (F : FloatOps R) (P : Params R) (m m2 : List (List Int))
    (h : SamePresence m m2) :
    updateIntervalsStep F (P.withCounts m) = updateIntervalsStep F (P.withCounts m2) := by
  funext st i
  unfold updateIntervalsStep
  rw [markOccurrence_presence P m m2 h]
  rfl

theorem updateIntervals_presence (F : FloatOps R) (P : Params R) (m m2 : List (List Int))
    (h : SamePresence m m2) (c : IntervalCache R) :
    updateIntervals F (P.withCounts m) c = updateIntervals F (P.withCounts m2) c := by
  unfold updateIntervals
  rw [updateIntervalsStep_presence F P m m2 h]
  rfl

theorem paMiddle_presence (F : FloatOps R) (P : Params R) (m m2 : List (List Int))
    (h : SamePresence m m2) (c : IntervalCache R) (i : Nat) :
    paMiddle F (P.withCounts m) c i = paMiddle F (P.withCounts m2) c i := by
  funext st j
  unfold paMiddle
  simp only [Params.withCounts]
  rcases getFossilCountAt_presence m m2 h P.ascending j i with ⟨msg, h1, h2⟩ | ⟨x, x2, h1, h2, hx⟩
  · rw [h1, h2]
  · rw [h1, h2]
    by_cases hpos : x > 0
    · simp only [hpos, hx.mp hpos, if_true]
      rfl
    · simp only [hpos, mt hx.mpr hpos, if_false]

theorem paTerms_presence (F : FloatOps R) (P : Params R) (m m2 : List (List Int))
    (h : SamePresence m m2) (c : IntervalCache R) (i : Nat) (b d : R) (bi di : Nat)
    (L : Nat → R) :
    paTerms F (P.withCounts m) c i b d bi di L
      = paTerms F (P.withCounts m2) c i b d bi di L := by
  unfold paTerms
  rw [paMiddle_presence F P m m2 h]
  by_cases hbd : bi = di
  · rw [if_pos hbd, if_pos hbd]
    refine presence_bind m m2 h P.ascending bi i _ _ (fun x x2 hx => ?_)
    by_cases hpos : x > 0
    · simp only [hpos, hx.mp hpos, if_true]
      rfl
    · simp only [hpos, mt hx.mpr hpos, if_false]
  · rw [if_neg hbd, if_neg hbd]
    refine presence_bind m m2 h P.ascending bi i _ _ (fun x x2 hx => ?_)
    have hst : ∀ (X Y : (Nat → R) × Bool), (if x > 0 then X else Y) = (if x2 > 0 then X else Y) := by
      intro X Y
      by_cases hpos : x > 0
      · rw [if_pos hpos, if_pos (hx.mp hpos)]
      · rw [if_neg hpos, if_neg (mt hx.mpr hpos)]
    simp only [hst]
    congr 1
    funext st2
    refine presence_bind m m2 h P.ascending di i _ _ (fun z z2 hz => ?_)
    by_cases hpos : z > 0
    · simp only [hpos, hz.mp hpos, if_true]
      rfl
    · simp only [hpos, mt hz.mpr hpos, if_false]

theorem rangeTerms_presence (F : FloatOps R) (e : Engine R) (m m2 : List (List Int))
    (h : SamePresence m m2) (acc : RangeAcc R) (i : Nat) (b d o y : R) (bi di oi yi : Nat) :
    rangeTerms F (e.withCounts m) acc i b d o y bi di oi yi
      = rangeTerms F (e.withCounts m2) acc i b d o y bi di oi yi := by
  unfold rangeTerms
  simp only [Engine.withCounts]
  rw [paTerms_presence F e.par m m2 h]
  rfl

theorem rangeBody_presence (F : FloatOps R) (e : Engine R) (m m2 : List (List Int))
    (h : SamePresence m m2) (acc : RangeAcc R) (i : Nat) :
    rangeBody F (e.withCounts m) acc i = rangeBody F (e.withCounts m2) acc i := by
  unfold rangeBody
  simp only [rangeTerms_presence F e m m2 h]
  rfl

theorem rangeLoop_presence (F : FloatOps R) (e : Engine R) (m m2 : List (List Int))
    (h : SamePresence m m2) :
    ∀ (xs : List Nat) (acc : RangeAcc R),
      rangeLoop F (e.withCounts m) xs acc = rangeLoop F (e.withCounts m2) xs acc := by
  intro xs
  induction xs with
  | nil => intro acc; rfl
  | cons i rest ih =>
    intro acc
    unfold rangeLoop
    rw [rangeBody_presence F e m m2 h]
    cases rangeBody F (e.withCounts m2) acc i with
    | error msg => rfl
    | ok r =>
      cases r with
      | none => rfl
      | some acc2 => exact ih acc2

theorem intervalBody_presence (F : FloatOps R) (P : Params R) (m m2 : List (List Int))
    (hpa : P.presence_absence = true) (c : IntervalCache R) (acc : RangeAcc R) :
    intervalBody F (P.withCounts m) c acc = intervalBody F (P.withCounts m2) c acc := by
  funext s i
  unfold intervalBody
  simp only [Params.withCounts, hpa, if_true]

/-- C26: in the presence/absence regime, two engines that differ only in their
per-species per-interval count matrices, the matrices having the same shape, entries
within the range of `int` and the same positive entries, behave alike:
`updateIntervals` returns the same cache (in particular the same `oldest_intervals` and
`youngest_intervals`) or fails with the same message, and `computeLnProbability` returns
the same value and leaves the same caches, or fails with the same message. -/
theorem presence_absence_as_booleans (F : FloatOps R) (e : Engine R) (m m2 : List (List Int))
    (h : SamePresence m m2) (hpa : e.par.presence_absence = true) :
    updateIntervals F (e.withCounts m).par (e.withCounts m).cache
      = updateIntervals F (e.withCounts m2).par (e.withCounts m2).cache
    ∧ Except.map (fun r => (r.1, r.2.cache, r.2.gamma)) (computeLnProbability F (e.withCounts m))
      = Except.map (fun r => (r.1, r.2.cache, r.2.gamma))
          (computeLnProbability F (e.withCounts m2)) := by
  have hU : updateIntervals F (e.withCounts m).par (e.withCounts m).cache
      = updateIntervals F (e.withCounts m2).par (e.withCounts m2).cache :=
    updateIntervals_presence F e.par m m2 h e.cache
  refine ⟨hU, ?_⟩
  unfold computeLnProbability
  rw [hU]
  cases hc : updateIntervals F (e.withCounts m2).par (e.withCounts m2).cache with
  | error msg => rfl
  | ok cache =>
    have hL := rangeLoop_presence F
      { e with cache := cache, gamma := updateGamma e.value e.par.numTaxa false e.gamma }
      m m2 h (List.range e.par.numTaxa)
      { lnProbTimes := 0, num_extant_sampled := 0, num_extant_unsampled := 0,
        maxb := 0, maxl := 0, kappa_prime := fun _ => 0, L := fun _ => 0 }
    simp only [Engine.withCounts, Params.withCounts] at hL ⊢
    rw [hL]
    generalize rangeLoop F _ _ _ = res
    cases res with
    | error msg => rfl
    | ok r =>
      cases r with
      | none => rfl
      | some acc =>
        have hI := intervalBody_presence F e.par m m2 hpa cache acc
        simp only [Params.withCounts] at hI
        simp only
        rw [hI]
        generalize (List.foldlM (intervalBody F _ cache acc) _ _ : Except String R) = res2
        cases res2 with
        | error msg => rfl
        | ok s2 =>
          simp only
          have hp : pSurvival F (e.par.withCounts m) cache acc.maxb 0
              = pSurvival F (e.par.withCounts m2) cache acc.maxb 0 := rfl
          simp only [Params.withCounts] at hp
          rw [hp]
          by_cases hfin : F.isFinite
              (if e.par.condition = "survival" then
                (if e.par.homogeneous_rho < 1 then
                  (if e.par.homogeneous_rho > 0 then
                    s2 + (acc.num_extant_sampled : R) * F.log e.par.homogeneous_rho else s2)
                    + (acc.num_extant_unsampled : R) * F.log (1 - e.par.homogeneous_rho)
                else
                  if e.par.homogeneous_rho > 0 then
                    s2 + (acc.num_extant_sampled : R) * F.log e.par.homogeneous_rho else s2)
                - F.log (pSurvival F
                    { e.par with counts := Counts.perSpeciesInterval m2 } cache acc.maxb 0)
              else
                if e.par.homogeneous_rho < 1 then
                  (if e.par.homogeneous_rho > 0 then
                    s2 + (acc.num_extant_sampled : R) * F.log e.par.homogeneous_rho else s2)
                    + (acc.num_extant_unsampled : R) * F.log (1 - e.par.homogeneous_rho)
                else
                  if e.par.homogeneous_rho > 0 then
                    s2 + (acc.num_extant_sampled : R) * F.log e.par.homogeneous_rho else s2) = false
          · rw [if_pos hfin, if_pos hfin]
            rfl
          · rw [if_neg hfin, if_neg hfin]
            rfl

/-- An instance of C26: the indicator matrix `[[1, 0], [0, 1]]` and the count matrix
`[[7, -3], [0, 2]]` have the same positive entries; on the engine `enginePresence` the
likelihood is a finite value, the same for both. -/
theorem presence_absence_as_booleans_witness :
    SamePresence [[1, 0], [0, 1]] [[7, -3], [0, 2]]
    ∧ enginePresence.par.presence_absence = true
    ∧ (∃ x e1, computeLnProbability stubOps (enginePresence.withCounts [[1, 0], [0, 1]])
        = Except.ok (LnProb.finite x, e1))
    ∧ (updateIntervals stubOps (enginePresence.withCounts [[1, 0], [0, 1]]).par
          (enginePresence.withCounts [[1, 0], [0, 1]]).cache
        = updateIntervals stubOps (enginePresence.withCounts [[7, -3], [0, 2]]).par
          (enginePresence.withCounts [[7, -3], [0, 2]]).cache
      ∧ Except.map (fun r => (r.1, r.2.cache, r.2.gamma))
          (computeLnProbability stubOps (enginePresence.withCounts [[1, 0], [0, 1]]))
        = Except.map (fun r => (r.1, r.2.cache, r.2.gamma))
          (computeLnProbability stubOps (enginePresence.withCounts [[7, -3], [0, 2]]))) :=
  ⟨by decide, rfl, ⟨_, _, by with_unfolding_all exact rfl⟩,
    presence_absence_as_booleans stubOps enginePresence _ _ (by decide) rfl⟩

end PresenceOnly

/-! ## Marginalized and exact-count modes on a single range in a single interval -/

section Modes

variable {R : Type} [LinearOrderedField R]

theorem l_single (times : Nat → R) (t : R) (h : times 0 ≤ t) : l times 1 t = 0 := by
  have := l_lt_of_last_le times 1 t (by decide) h
  omega

theorem addSamplingTerms_add (F : FloatOps R) (rho : R) (ns nu : Nat) (s c : R) :
    addSamplingTerms F rho ns nu (s + c) = addSamplingTerms F rho ns nu s + c := by
  unfold addSamplingTerms
  simp only
  split <;> split <;> ring

theorem conditionOnSurvival_add (F : FloatOps R) (P : Params R) (cache : IntervalCache R)
    (maxb s c : R) :
    conditionOnSurvival F P cache maxb (s + c) = conditionOnSurvival F P cache maxb s + c := by
  unfold conditionOnSurvival
  split
  · ring
  · rfl

/-- Outside the presence/absence regime `updateIntervals` does not read the counts. -/
theorem updateIntervals_exact_mode (F : FloatOps R) (e : Engine R) (cnt : Counts)
    (hpa : e.par.presence_absence = false) (c : IntervalCache R) :
    updateIntervals F (e.withExactCounts cnt).par c = updateIntervals F e.par c := by
  have hstep : updateIntervalsStep F (e.withExactCounts cnt).par
      = updateIntervalsStep F e.par := by
    funext st i
    unfold updateIntervalsStep
    simp only [Engine.withExactCounts, hpa]
    rfl
  unfold updateIntervals
  rw [hstep]
  rfl

/-- The marginalized update of `kappa_prime` and `L` for a range inside interval `0`,
from empty counters. -/
theorem marginalTerms_single (c : IntervalCache R) (o y : R) :
    (marginalTerms c o y 0 0 (fun _ => 0) (fun _ => 0)).1 0 = kappaImplied o y
    ∧ (marginalTerms c o y 0 0 (fun _ => 0) (fun _ => 0)).2 0 = 0 + (o - y) := by
  unfold marginalTerms kappaImplied
  refine ⟨?_, ?_⟩
  · by_cases ho : o > 0 <;> by_cases hy : o ≠ y ∧ y > 0 <;> simp [ho, hy, setAt]
  · simp [setAt]

theorem rangeLoop_singleton (F : FloatOps R) (e : Engine R) (acc : RangeAcc R) (i : Nat) :
    rangeLoop F e [i] acc = rangeBody F e acc i := by
  unfold rangeLoop
  cases rangeBody F e acc i with
  | error msg => rfl
  | ok r =>
    cases r with
    | none => rfl
    | some acc2 => rfl

/-- Outside the presence/absence regime, a range that passes the constraint check on a
finite running sum goes to the summation part of the loop body. -/
theorem rangeBody_passed (F : FloatOps R) (e : Engine R) (acc : RangeAcc R) (i : Nat)
    (hpa : e.par.presence_absence = false) (hfin : F.isFinite acc.lnProbTimes = true)
    (hpass : constraintViolated false (e.value i).1 (e.value i).2 (e.par.taxa i).ageMax
      (e.par.taxa i).ageMin 0 0 = false) :
    rangeBody F e acc i
      = rangeTerms F e acc i (e.value i).1 (e.value i).2 (e.par.taxa i).ageMax
          (e.par.taxa i).ageMin (l e.cache.times e.par.num_intervals (e.value i).1)
          (l e.cache.times e.par.num_intervals (e.value i).2)
          (l e.cache.times e.par.num_intervals (e.par.taxa i).ageMax)
          (l e.cache.times e.par.num_intervals (e.par.taxa i).ageMin) := by
  have hc : ∀ yi di, ¬ constraintViolated e.par.presence_absence (e.value i).1 (e.value i).2
      (e.par.taxa i).ageMax (e.par.taxa i).ageMin yi di = true := by
    intro yi di
    rw [hpa]
    have : constraintViolated false (e.value i).1 (e.value i).2 (e.par.taxa i).ageMax
      (e.par.taxa i).ageMin yi di = false := hpass
    rw [this]
    decide
  rw [rangeBody_eq, if_neg (by rw [hfin]; decide), if_neg (hc _ _)]
  simp only [hpa, Bool.false_eq_true, if_false]

/-- Both modes run the loop over ranges alike on a single range inside interval `0`:
the exact-count run leaves `kappa_prime` and `L` empty, the marginalized run fills them
by `marginalTerms`, and all other local variables agree. -/
theorem rangeLoop_modes (F : FloatOps R) (e : Engine R) (cnt : Counts) (cache : IntervalCache R)
    (hN : e.par.numTaxa = 1) (hI : e.par.num_intervals = 1)
    (hpa : e.par.presence_absence = false) (hm : e.par.marginalize_k = true)
    (ht : cache.times 0 = 0) (hfin : F.isFinite 0 = true)
    (hpass : constraintViolated false (e.value 0).1 (e.value 0).2 (e.par.taxa 0).ageMax
      (e.par.taxa 0).ageMin 0 0 = false) :
    ∃ a : RangeAcc R,
      rangeLoop F (refreshed (e.withExactCounts cnt) cache)
          (List.range (e.withExactCounts cnt).par.numTaxa) initialAcc = Except.ok (some a)
      ∧ rangeLoop F (refreshed e cache) (List.range e.par.numTaxa) initialAcc
          = Except.ok (some { a with
              kappa_prime := (marginalTerms cache (e.par.taxa 0).ageMax (e.par.taxa 0).ageMin
                0 0 (fun _ => 0) (fun _ => 0)).1,
              L := (marginalTerms cache (e.par.taxa 0).ageMax (e.par.taxa 0).ageMin
                0 0 (fun _ => 0) (fun _ => 0)).2 }) := by
  obtain ⟨hob, hyo, hdy, hd⟩ := constraint_ok_order _ _ _ _ _ _ hpass
  have hy0 : (0 : R) ≤ (e.par.taxa 0).ageMin := le_trans hd hdy
  have ho0 : (0 : R) ≤ (e.par.taxa 0).ageMax := le_trans hy0 hyo
  have hlo : l cache.times 1 (e.par.taxa 0).ageMax = 0 := l_single _ _ (ht ▸ ho0)
  have hly : l cache.times 1 (e.par.taxa 0).ageMin = 0 := l_single _ _ (ht ▸ hy0)
  have hNX : (e.withExactCounts cnt).par.numTaxa = 1 := hN
  have hr : List.range 1 = [0] := rfl
  rw [hN, hNX, hr, rangeLoop_singleton, rangeLoop_singleton,
    rangeBody_passed F (refreshed (e.withExactCounts cnt) cache) initialAcc 0 hpa hfin hpass,
    rangeBody_passed F (refreshed e cache) initialAcc 0 hpa hfin hpass]
  have e3 : (refreshed (e.withExactCounts cnt) cache).par.num_intervals = 1 := hI
  have e4 : (refreshed e cache).par.num_intervals = 1 := hI
  have e5 : (refreshed (e.withExactCounts cnt) cache).cache = cache := rfl
  have e6 : (refreshed e cache).cache = cache := rfl
  have e7 : (refreshed (e.withExactCounts cnt) cache).par.taxa = e.par.taxa := rfl
  have e8 : (refreshed e cache).par.taxa = e.par.taxa := rfl
  rw [e3, e4, e5, e6, e7, e8, hlo, hly]
  unfold rangeTerms
  have m1 : (refreshed (e.withExactCounts cnt) cache).par.marginalize_k = false := rfl
  have m2 : (refreshed e cache).par.marginalize_k = true := hm
  have m3 : (refreshed (e.withExactCounts cnt) cache).par.presence_absence = false := hpa
  have m4 : (refreshed e cache).par.presence_absence = false := hpa
  have m5 : (refreshed (e.withExactCounts cnt) cache).value = e.value := rfl
  have m6 : (refreshed e cache).value = e.value := rfl
  have m7 : (refreshed (e.withExactCounts cnt) cache).gamma = (refreshed e cache).gamma := rfl
  have m8 : ∀ i t b, q F (refreshed (e.withExactCounts cnt) cache).par cache i t b
      = q F e.par cache i t b := fun _ _ _ => rfl
  have m9 : ∀ i t b, q F (refreshed e cache).par cache i t b
      = q F e.par cache i t b := fun _ _ _ => rfl
  simp only [m1, m2, m3, m4, m5, m6, m7, m8, m9, e5, e6, Bool.false_eq_true, if_false, if_true]
  refine ⟨_, rfl, ?_⟩
  rfl

/-- The two modes on a single range in a single interval: the sums they check differ by
the exposure term `fossil[0] * (o - y)` that marginalized mode adds. -/
theorem modes_offset (F : FloatOps R) (e : Engine R) (cnt : Counts)
    (hwf : e.par.WellFormed) (hN : e.par.numTaxa = 1) (hI : e.par.num_intervals = 1)
    (hpa : e.par.presence_absence = false) (hm : e.par.marginalize_k = true)
    (hfin : F.isFinite 0 = true)
    (hpass : constraintViolated false (e.value 0).1 (e.value 0).2 (e.par.taxa 0).ageMax
      (e.par.taxa 0).ageMin 0 0 = false)
    (hcnt : getFossilCount cnt e.par.ascending 0
      = Except.ok (kappaImplied (e.par.taxa 0).ageMax (e.par.taxa 0).ageMin)) :
    ∃ cache x,
      getFossilizationRate e.par.ascending e.par.psi 0 = Except.ok (cache.fossil 0)
      ∧ computeLnProbability F (e.withExactCounts cnt)
          = Except.ok (checkedResult F x, refreshed (e.withExactCounts cnt) cache)
      ∧ computeLnProbability F e
          = Except.ok
              (checkedResult F
                (x + cache.fossil 0 * ((e.par.taxa 0).ageMax - (e.par.taxa 0).ageMin)),
                refreshed e cache)
      ∧ (cache.fossil 0 * ((e.par.taxa 0).ageMax - (e.par.taxa 0).ageMin) = 0 →
          Except.map Prod.fst (computeLnProbability F e)
            = Except.map Prod.fst (computeLnProbability F (e.withExactCounts cnt))) := by
  obtain ⟨cache, hU⟩ := updateIntervals_succeeds F e.par hwf e.cache
  have ht : cache.times 0 = 0 := by
    have := updateIntervals_times_last F e.par e.cache cache hU (by omega)
    rw [hI] at this
    exact this
  have hpsi := (updateIntervals_ok F e.par e.cache cache hU 0 (by omega)).2.2.1
  have hUX : updateIntervals F (e.withExactCounts cnt).par (e.withExactCounts cnt).cache
      = Except.ok cache := by
    rw [updateIntervals_exact_mode F e cnt hpa]
    exact hU
  obtain ⟨a, hLX, hLM⟩ := rangeLoop_modes F e cnt cache hN hI hpa hm ht hfin hpass
  obtain ⟨hk, hLval⟩ := marginalTerms_single cache (e.par.taxa 0).ageMax (e.par.taxa 0).ageMin
  have hr : List.range 1 = [0] := rfl
  have hIX : (List.range (e.withExactCounts cnt).par.num_intervals).foldlM
      (intervalBody F (e.withExactCounts cnt).par cache a) (a.lnProbTimes - F.log a.maxl)
      = Except.ok (a.lnProbTimes - F.log a.maxl
          + (toSizeT (kappaImplied (e.par.taxa 0).ageMax (e.par.taxa 0).ageMin) : R)
            * F.log (cache.fossil 0)) := by
    have h1 : (e.withExactCounts cnt).par.num_intervals = 1 := hI
    rw [h1, hr, foldlM_except_cons]
    unfold intervalBody
    have h2 : (e.withExactCounts cnt).par.presence_absence = false := hpa
    have h3 : (e.withExactCounts cnt).par.marginalize_k = false := rfl
    have h4 : getFossilCount (e.withExactCounts cnt).par.counts
        (e.withExactCounts cnt).par.ascending 0
        = Except.ok (kappaImplied (e.par.taxa 0).ageMax (e.par.taxa 0).ageMin) := hcnt
    simp only [h2, h3, h4, Bool.false_eq_true, if_false]
    rfl
  have hIM : (List.range e.par.num_intervals).foldlM
      (intervalBody F e.par cache { a with
          kappa_prime := (marginalTerms cache (e.par.taxa 0).ageMax (e.par.taxa 0).ageMin
            0 0 (fun _ => 0) (fun _ => 0)).1,
          L := (marginalTerms cache (e.par.taxa 0).ageMax (e.par.taxa 0).ageMin
            0 0 (fun _ => 0) (fun _ => 0)).2 })
      (a.lnProbTimes - F.log a.maxl)
      = Except.ok (a.lnProbTimes - F.log a.maxl
          + cache.fossil 0 * (0 + ((e.par.taxa 0).ageMax - (e.par.taxa 0).ageMin))
          + (toSizeT (kappaImplied (e.par.taxa 0).ageMax (e.par.taxa 0).ageMin) : R)
            * F.log (cache.fossil 0)) := by
    rw [hI, hr, foldlM_except_cons]
    unfold intervalBody
    simp only [hpa, hm, hk, hLval, Bool.false_eq_true, if_false, if_true]
    rfl
  have hX := computeLnProbability_of_loops F (e.withExactCounts cnt) cache a _ hUX hLX hIX
  have hM := computeLnProbability_of_loops F e cache _ _ hU hLM hIM
  have hval : conditionOnSurvival F e.par cache a.maxb
      (addSamplingTerms F e.par.homogeneous_rho a.num_extant_sampled a.num_extant_unsampled
        (a.lnProbTimes - F.log a.maxl
          + cache.fossil 0 * (0 + ((e.par.taxa 0).ageMax - (e.par.taxa 0).ageMin))
          + (toSizeT (kappaImplied (e.par.taxa 0).ageMax (e.par.taxa 0).ageMin) : R)
            * F.log (cache.fossil 0)))
      = conditionOnSurvival F (e.withExactCounts cnt).par cache a.maxb
          (addSamplingTerms F (e.withExactCounts cnt).par.homogeneous_rho a.num_extant_sampled
            a.num_extant_unsampled
            (a.lnProbTimes - F.log a.maxl
              + (toSizeT (kappaImplied (e.par.taxa 0).ageMax (e.par.taxa 0).ageMin) : R)
                * F.log (cache.fossil 0)))
        + cache.fossil 0 * ((e.par.taxa 0).ageMax - (e.par.taxa 0).ageMin) := by
    rw [← conditionOnSurvival_add, ← addSamplingTerms_add]
    have harg : a.lnProbTimes - F.log a.maxl
          + cache.fossil 0 * (0 + ((e.par.taxa 0).ageMax - (e.par.taxa 0).ageMin))
          + (toSizeT (kappaImplied (e.par.taxa 0).ageMax (e.par.taxa 0).ageMin) : R)
            * F.log (cache.fossil 0)
        = a.lnProbTimes - F.log a.maxl
          + (toSizeT (kappaImplied (e.par.taxa 0).ageMax (e.par.taxa 0).ageMin) : R)
            * F.log (cache.fossil 0)
          + cache.fossil 0 * ((e.par.taxa 0).ageMax - (e.par.taxa 0).ageMin) := by ring
    rw [harg]
    rfl
  refine ⟨cache, _, hpsi, hX, ?_, ?_⟩
  · rw [hM]
    exact congrArg (fun v => Except.ok (checkedResult F v, refreshed e cache)) hval
  · intro h0
    rw [hM, hX, hval, h0, add_zero]
    rfl

/-- C22, amended. For a single range in a single interval that passes the
constraints, marginalized mode returns the checked value `x + psi * (o - y)` where `x`
is the sum that exact-count mode checks and returns for the implied count
`kappa' = [o > 0] + [o ≠ y and y > 0]`: marginalized mode adds the exposure term
`fossil[0] * L[0]`, and `L[0] = o - y`. The two modes return the same value when
`psi * (o - y) = 0`, in particular when `o = y`. -/
theorem marginalized_exact_offset (F : FloatOps R) (e : Engine R) (cnt : Counts)
    (hwf : e.par.WellFormed) (hN : e.par.numTaxa = 1) (hI : e.par.num_intervals = 1)
    (hpa : e.par.presence_absence = false) (hm : e.par.marginalize_k = true)
    (hfin : F.isFinite 0 = true)
    (hpass : constraintViolated false (e.value 0).1 (e.value 0).2 (e.par.taxa 0).ageMax
      (e.par.taxa 0).ageMin 0 0 = false)
    (hcnt : getFossilCount cnt e.par.ascending 0
      = Except.ok (kappaImplied (e.par.taxa 0).ageMax (e.par.taxa 0).ageMin)) :
    ∃ cache x,
      getFossilizationRate e.par.ascending e.par.psi 0 = Except.ok (cache.fossil 0)
      ∧ computeLnProbability F (e.withExactCounts cnt)
          = Except.ok (checkedResult F x, refreshed (e.withExactCounts cnt) cache)
      ∧ computeLnProbability F e
          = Except.ok
              (checkedResult F
                (x + cache.fossil 0 * ((e.par.taxa 0).ageMax - (e.par.taxa 0).ageMin)),
                refreshed e cache)
      ∧ (cache.fossil 0 * ((e.par.taxa 0).ageMax - (e.par.taxa 0).ageMin) = 0 →
          Except.map Prod.fst (computeLnProbability F e)
            = Except.map Prod.fst (computeLnProbability F (e.withExactCounts cnt))) :=
  modes_offset F e cnt hwf hN hI hpa hm hfin hpass hcnt

theorem engineSingle_wellFormed : engineSingle.par.WellFormed := by
  refine ⟨by decide, rfl, ?_, ?_, ?_, ?_, ?_⟩
  · intro v hv
    cases hv
  · intro v hv
    cases hv
  · intro v hv
    cases hv
  · exact ⟨fun _ => rfl, fun _ => rfl⟩
  · intro h
    cases h

/-- An instance of the amended C22: the engine built from `argsSingle` and the range
`(2, 0)`, with age range `(1, 0)` and implied count `1`. -/
theorem marginalized_exact_offset_witness :
    engineSingle.par.WellFormed
    ∧ constraintViolated false (engineSingle.value 0).1 (engineSingle.value 0).2
        (engineSingle.par.taxa 0).ageMax (engineSingle.par.taxa 0).ageMin 0 0 = false
    ∧ getFossilCount (Counts.total 1) engineSingle.par.ascending 0
        = Except.ok (kappaImplied (engineSingle.par.taxa 0).ageMax
            (engineSingle.par.taxa 0).ageMin)
    ∧ ∃ cache x,
        getFossilizationRate engineSingle.par.ascending engineSingle.par.psi 0
          = Except.ok (cache.fossil 0)
        ∧ computeLnProbability stubOps (engineSingle.withExactCounts (Counts.total 1))
            = Except.ok (checkedResult stubOps x,
                refreshed (engineSingle.withExactCounts (Counts.total 1)) cache)
        ∧ computeLnProbability stubOps engineSingle
            = Except.ok
                (checkedResult stubOps
                  (x + cache.fossil 0
                    * ((engineSingle.par.taxa 0).ageMax - (engineSingle.par.taxa 0).ageMin)),
                  refreshed engineSingle cache)
        ∧ (cache.fossil 0
              * ((engineSingle.par.taxa 0).ageMax - (engineSingle.par.taxa 0).ageMin) = 0 →
            Except.map Prod.fst (computeLnProbability stubOps engineSingle)
              = Except.map Prod.fst
                  (computeLnProbability stubOps
                    (engineSingle.withExactCounts (Counts.total 1)))) := by
  have hwf : engineSingle.par.WellFormed := engineSingle_wellFormed
  have hpass : constraintViolated false (engineSingle.value 0).1 (engineSingle.value 0).2
      (engineSingle.par.taxa 0).ageMax (engineSingle.par.taxa 0).ageMin 0 0 = false := by
    with_unfolding_all decide
  have hcnt : getFossilCount (Counts.total 1) engineSingle.par.ascending 0
      = Except.ok (kappaImplied (engineSingle.par.taxa 0).ageMax
          (engineSingle.par.taxa 0).ageMin) := by
    with_unfolding_all exact rfl
  exact ⟨hwf, hpass, hcnt,
    marginalized_exact_offset stubOps engineSingle (Counts.total 1) hwf rfl rfl rfl rfl rfl
      hpass hcnt⟩

/-- C22 as stated fails. The constructor builds `engineSingle` from the arguments
`argsSingle` (no counts: marginalized mode) and the same engine in exact-count mode from
`argsSingleExact`, whose count `1` is the implied count `kappa'` of the age range
`(1, 0)`. The range `(2, 0)` passes the constraints and lies in the only interval. The
two calls return finite values that differ by `psi * (o - y) = 1 / 5`. -/
theorem marginalized_differs_from_exact :
    construct argsSingle rangesThree = Except.ok engineSingle
    ∧ construct argsSingleExact rangesThree
        = Except.ok (engineSingle.withExactCounts (Counts.total 1))
    ∧ kappaImplied (engineSingle.par.taxa 0).ageMax (engineSingle.par.taxa 0).ageMin = 1
    ∧ constraintViolated false (engineSingle.value 0).1 (engineSingle.value 0).2
        (engineSingle.par.taxa 0).ageMax (engineSingle.par.taxa 0).ageMin 0 0 = false
    ∧ ∃ x xm e1 e2,
        computeLnProbability stubOps (engineSingle.withExactCounts (Counts.total 1))
          = Except.ok (LnProb.finite x, e1)
        ∧ computeLnProbability stubOps engineSingle = Except.ok (LnProb.finite xm, e2)
        ∧ xm = x + 1 / 5
        ∧ xm ≠ x := by
  have hpass : constraintViolated false (engineSingle.value 0).1 (engineSingle.value 0).2
      (engineSingle.par.taxa 0).ageMax (engineSingle.par.taxa 0).ageMin 0 0 = false := by
    with_unfolding_all decide
  have hk : kappaImplied (engineSingle.par.taxa 0).ageMax (engineSingle.par.taxa 0).ageMin
      = 1 := by
    with_unfolding_all decide
  obtain ⟨cache, x, hpsi, hX, hM, _⟩ :=
    modes_offset stubOps engineSingle (Counts.total 1) engineSingle_wellFormed rfl rfl rfl rfl
      rfl hpass (by rw [hk]; rfl)
  have hf : cache.fossil 0 = 1 / 5 := by
    have h5 : (Except.ok (1 / 5) : Except String ℚ) = Except.ok (cache.fossil 0) := hpsi
    exact (Except.ok.inj h5).symm
  have ho : (engineSingle.par.taxa 0).ageMax - (engineSingle.par.taxa 0).ageMin = 1 := by
    with_unfolding_all decide
  rw [hf, ho, mul_one] at hM
  refine ⟨rfl, rfl, hk, hpass, x, x + 1 / 5, _, _, hX, hM, rfl, ?_⟩
  intro h
  have h2 : (1 : ℚ) / 5 = 0 := by linarith
  norm_num at h2

end Modes

/-! ## The single-interval reduction -/

section SingleInterval

variable {R : Type} [LinearOrderedField R]

end SingleInterval

end FBDRange
